import Mathlib

/-!
# SAT-based gate-level formal equivalence checker (HW3ex1.cc)

Shallow embedding of `getOrCreateVar`, `generateCNF` and `checkEquivalence`
of `src/src/HW3ex1.cc`, and the properties of the CNF instance they build.

* A MiniSat `Var` is a natural number, a `Lit` a variable with a sign
  (`mkLit v` is the positive literal, `~` flips the sign).
* The solver is the number of allocated variables together with the clauses
  added so far, in the order of the `addClause` calls.
* A `std::map<string, Var>` is an association list with unique keys.
-/

namespace FEV

/-! ## MiniSat interface -/

abbrev Var := Nat

/-- MiniSat literal: `sign = true` is the negated literal. -/
structure Lit where
  var : Var
  sign : Bool
  deriving DecidableEq

/-- `mkLit(v)`: the positive literal of `v`. -/
def mkLit (v : Var) : Lit := ⟨v, false⟩

/-- `~p`: the complement literal. -/
def Lit.neg (p : Lit) : Lit := ⟨p.var, !p.sign⟩

abbrev Clause := List Lit

/-- Modelled from the spec: the satisfiability engine (MiniSat `Solver`, §6) is an
external collaborator; its state is the number of variables handed out by
`newVar` and the clauses passed to `addClause`, in call order. -/
structure Solver where
  nVars : Nat
  clauses : List Clause
  deriving DecidableEq

/-- A fresh solver: `Solver solver;`. -/
def Solver.empty : Solver := ⟨0, []⟩

/-- `solver.newVar()`: returns the next variable index. -/
def Solver.newVar (s : Solver) : Var × Solver := (s.nVars, { s with nVars := s.nVars + 1 })

/-- `solver.addClause(...)`. -/
def Solver.addClause (s : Solver) (c : Clause) : Solver := { s with clauses := s.clauses ++ [c] }

/-- Adding several clauses one after the other. -/
def Solver.addClauses (s : Solver) (cs : List Clause) : Solver := cs.foldl Solver.addClause s

/-! ## Semantics of clauses -/

/-- Value of a literal under a total assignment. -/
def litTrue (σ : Var → Bool) (p : Lit) : Bool := xor (σ p.var) p.sign

/-- A clause is a disjunction of literals. -/
def clauseTrue (σ : Var → Bool) (c : Clause) : Bool := c.any (litTrue σ)

/-- A CNF instance is the conjunction of its clauses. -/
def cnfTrue (σ : Var → Bool) (cs : List Clause) : Bool := cs.all (clauseTrue σ)

/-- The instance has a model. -/
def Satisfiable (cs : List Clause) : Prop := ∃ σ : Var → Bool, cnfTrue σ cs = true

/-! ## Gate-type dispatch -/

/-- Character-wise test that the first list is an initial segment of the second. -/
def startsWith : List Char → List Char → Bool
  | [], _ => true
  | _ :: _, [] => false
  | p :: ps, c :: cs => p == c && startsWith ps cs

/-- `gateType.rfind(pat, 0) == 0`: the type name begins with `pat`. -/
def rfindAtZero (gateType pat : String) : Bool := startsWith pat.toList gateType.toList

/-- The branches of the `if`/`else if` chain of `generateCNF`. -/
inductive GateKind where
  | buffer | inverter | norFamily | orFamily | nandFamily | andFamily | xor | dff | unsupported
  deriving DecidableEq

/-- The `if`/`else if` chain of `generateCNF` (lines 109-169), in source order. -/
def classify (gateType : String) : GateKind :=
  if gateType = "buffer" then .buffer
  else if gateType = "inv" ∨ gateType = "not" then .inverter
  else if rfindAtZero gateType "nor" then .norFamily
  else if rfindAtZero gateType "or" then .orFamily
  else if rfindAtZero gateType "nand" then .nandFamily
  else if rfindAtZero gateType "and" then .andFamily
  else if gateType = "xor" ∨ gateType = "xor2" then .xor
  else if gateType = "dff" then .dff
  else .unsupported

/-- The clauses `generateCNF` adds for one instance (lines 109-169), given the
variables `ins` of `inputs` (in order) and `out` of `outputs[0]`, in the order of
the `addClause` calls. `none` is an out-of-range `inputs[k]`. -/
def encodeGate (gateType : String) (ins : List Var) (out : Var) : Option (List Clause) :=
  match classify gateType with
  | .buffer =>
    match ins with
    | i0 :: _ => some [[mkLit i0, (mkLit out).neg], [(mkLit i0).neg, mkLit out]]
    | [] => none
  | .inverter =>
    match ins with
    | i0 :: _ => some [[(mkLit i0).neg, (mkLit out).neg], [mkLit i0, mkLit out]]
    | [] => none
  | .norFamily =>
    some (ins.map (fun i => [(mkLit i).neg, (mkLit out).neg]) ++ [mkLit out :: ins.map mkLit])
  | .orFamily =>
    some (ins.map (fun i => [(mkLit i).neg, mkLit out]) ++ [(mkLit out).neg :: ins.map mkLit])
  | .nandFamily =>
    some (ins.map (fun i => [mkLit i, mkLit out])
      ++ [(mkLit out).neg :: ins.map (fun i => (mkLit i).neg)])
  | .andFamily =>
    some (ins.map (fun i => [mkLit i, (mkLit out).neg])
      ++ [mkLit out :: ins.map (fun i => (mkLit i).neg)])
  | .xor =>
    match ins with
    | i0 :: i1 :: _ =>
      some [[(mkLit i0).neg, (mkLit i1).neg, (mkLit out).neg],
            [mkLit i0, mkLit i1, (mkLit out).neg],
            [mkLit i0, (mkLit i1).neg, mkLit out],
            [(mkLit i0).neg, mkLit i1, mkLit out]]
    | _ => none
  | .dff => some []
  | .unsupported => some []

/-! ## Variable maps (`std::map<string, Var>`) -/

abbrev VarMap := List (String × Var)

/-- `varMap.find(sig)` / `varMap.at(sig)`: the variable stored under `sig`, if any. -/
def mapFind : VarMap → String → Option Var
  | [], _ => none
  | (k, v) :: m, sig => if k = sig then some v else mapFind m sig

/-- `varMap[sig] = v`: insert the key, or overwrite its value. -/
def mapSet : VarMap → String → Var → VarMap
  | [], sig, v => [(sig, v)]
  | (k, w) :: m, sig, v => if k = sig then (k, v) :: m else (k, w) :: mapSet m sig v

/-- `varMap[sig]` read as a value. Every read in `generateCNF` is of a key that
is present; on an absent key `operator[]` yields the value-initialised `Var` 0. -/
def mapGet (m : VarMap) (sig : String) : Var := (mapFind m sig).getD 0

/-! ## getOrCreateVar -/

/-- `getOrCreateVar(sig, solver, varMap)` (lines 50-76): the returned variable, and
the solver and the map after the call. -/
def getOrCreateVar (sig : String) (solver : Solver) (varMap : VarMap) : Var × Solver × VarMap :=
  match mapFind varMap sig with
  | some v => (v, solver, varMap)
  | none =>
    if sig = "VDD" then
      let r := solver.newVar
      (r.1, r.2.addClause [mkLit r.1], mapSet varMap sig r.1)
    else if sig = "VSS" then
      let r := solver.newVar
      (r.1, r.2.addClause [(mkLit r.1).neg], mapSet varMap sig r.1)
    else
      let r := solver.newVar
      (r.1, r.2, mapSet varMap sig r.1)

/-! ## generateCNF -/

/-- A gate instance after `extractPorts`: master cell name, names of the nodes on
its input ports and on its output ports, in port order. -/
structure Gate where
  gateType : String
  inputs : List String
  outputs : List String
  deriving DecidableEq

/-- A flattened cell: primary input and output port names (as `extractPorts` lists
them) and the gate instances in the order `getInstances()` enumerates them. -/
structure Cell where
  inputs : List String
  outputs : List String
  instances : List Gate
  deriving DecidableEq

/-- The state `generateCNF` works on: the solver, the local `varMap` and the
shared `globalInputMap`. -/
structure EncState where
  solver : Solver
  varMap : VarMap
  globalInputMap : VarMap
  deriving DecidableEq

/-- Body of the loop over `inputs` (lines 95-103). -/
def declareInput (primaryInputs : List String) (st : EncState) (input : String) : EncState :=
  if input ∈ primaryInputs then
    let st1 : EncState :=
      match mapFind st.globalInputMap input with
      | some _ => st
      | none =>
        let r := getOrCreateVar input st.solver st.varMap
        { solver := r.2.1, varMap := r.2.2,
          globalInputMap := mapSet st.globalInputMap input r.1 }
    { st1 with varMap := mapSet st1.varMap input (mapGet st1.globalInputMap input) }
  else
    let r := getOrCreateVar input st.solver st.varMap
    { st with solver := r.2.1, varMap := r.2.2 }

/-- Body of the loop over `outputs` (lines 104-106). -/
def declareOutput (st : EncState) (output : String) : EncState :=
  let r := getOrCreateVar output st.solver st.varMap
  { st with solver := r.2.1, varMap := r.2.2 }

/-- The two loops of lines 95-106: variables for the inputs, then for the outputs. -/
def declarePorts (primaryInputs : List String) (st : EncState) (g : Gate) : EncState :=
  g.outputs.foldl declareOutput (g.inputs.foldl (declareInput primaryInputs) st)

/-- One iteration of the loop over the instances (lines 85-170). `none` is an
out-of-range `inputs[k]`. -/
def processGate (primaryInputs : List String) (st : EncState) (g : Gate) : Option EncState :=
  match g.inputs, g.outputs with
  | [], _ => some st
  | _ :: _, [] => some st
  | _ :: _, o0 :: _ =>
    let st2 := declarePorts primaryInputs st g
    match encodeGate g.gateType (g.inputs.map (mapGet st2.varMap)) (mapGet st2.varMap o0) with
    | none => none
    | some cls => some { st2 with solver := st2.solver.addClauses cls }

/-- The loop of `generateCNF` over a list of instances. -/
def encodeGates (primaryInputs : List String) : EncState → List Gate → Option EncState
  | st, [] => some st
  | st, g :: gs =>
    match processGate primaryInputs st g with
    | none => none
    | some st1 => encodeGates primaryInputs st1 gs

/-- `generateCNF(cell, solver, varMap, primaryInputs, globalInputMap)` (lines 83-171). -/
def generateCNF (cell : Cell) (solver : Solver) (varMap : VarMap) (primaryInputs : List String)
    (globalInputMap : VarMap) : Option EncState :=
  encodeGates primaryInputs ⟨solver, varMap, globalInputMap⟩ cell.instances

/-! ## checkEquivalence -/

/-- The four clauses of lines 191-194 for spec output `s`, implementation output
`t` and difference variable `d`. -/
def xorClauses (s t d : Var) : List Clause :=
  [[(mkLit s).neg, mkLit t, mkLit d],
   [mkLit s, (mkLit t).neg, mkLit d],
   [mkLit s, mkLit t, (mkLit d).neg],
   [(mkLit s).neg, (mkLit t).neg, (mkLit d).neg]]

/-- The loop of lines 183-195 over the remaining spec outputs, with the rest of
`outputsImp` alongside; returns the solver and `diffVars`. `none` is a failed
`.at(...)` or an out-of-range `outputsImp[i]`. -/
def miterLoop (varMapSpec varMapImp : VarMap) :
    List String → List String → Solver → List Var → Option (Solver × List Var)
  | [], _, solver, diffVars => some (solver, diffVars)
  | _ :: _, [], _, _ => none
  | o :: os, o2 :: os2, solver, diffVars =>
    let r := solver.newVar
    match mapFind varMapSpec o, mapFind varMapImp o2 with
    | some s, some t =>
      miterLoop varMapSpec varMapImp os os2 (r.2.addClauses (xorClauses s t r.1))
        (diffVars ++ [r.1])
    | _, _ => none

/-- Lines 182-200 of `checkEquivalence`: the difference variables, their XOR
clauses and the final clause over all difference variables. -/
def addMiter (solver : Solver) (outputsSpec outputsImp : List String)
    (varMapSpec varMapImp : VarMap) : Option Solver :=
  match miterLoop varMapSpec varMapImp outputsSpec outputsImp solver [] with
  | none => none
  | some (s, diffVars) => some (s.addClause (diffVars.map mkLit))

/-- All assignments to the variables `0 .. n-1`, as lists of values. -/
def allAssignments : Nat → List (List Bool)
  | 0 => [[]]
  | n + 1 => (allAssignments n).flatMap (fun a => [a ++ [false], a ++ [true]])

/-- The total assignment given by a list of values. -/
def assignmentOf (a : List Bool) : Var → Bool := fun v => a.getD v false

/-- Modelled from the spec: the engine's blocking solve (§6, MiniSat `Solver::solve`,
not under src/), here an exhaustive search over the allocated variables; the
result is a model, or `none` for unsatisfiable. -/
def Solver.searchModel (s : Solver) : Option (List Bool) :=
  (allAssignments s.nVars).find? (fun a => cnfTrue (assignmentOf a) s.clauses)

/-- `solver.solve()`. -/
def Solver.solve (s : Solver) : Bool := s.searchModel.isSome

/-- MiniSat's three-valued `lbool`. -/
inductive LBool where
  | l_True | l_False | l_Undef
  deriving DecidableEq

/-- `solver.modelValue(v)` on the model found by the last `solve`. -/
def modelValue (model : List Bool) (v : Var) : LBool :=
  open LBool in
  match model[v]? with
  | some true => l_True
  | some false => l_False
  | none => l_Undef

/-- The counterexample lines of lines 207-212: each primary input with its model
value; `none` is a failed `varMapSpec.at(in)`. -/
def counterexampleLines (model : List Bool) (varMapSpec : VarMap) :
    List String → Option (List (String × LBool))
  | [] => some []
  | i :: rest =>
    match mapFind varMapSpec i with
    | none => none
    | some v =>
      match counterexampleLines model varMapSpec rest with
      | none => none
      | some lines => some ((i, modelValue model v) :: lines)

/-- `checkEquivalence` (lines 178-219): the returned flag and the printed
counterexample lines; `none` is an uncaught `std::out_of_range` or an
out-of-range index. -/
def checkEquivalence (solver : Solver) (primaryInputs outputsSpec outputsImp : List String)
    (varMapSpec varMapImp : VarMap) : Option (Bool × List (String × LBool)) :=
  match addMiter solver outputsSpec outputsImp varMapSpec varMapImp with
  | none => none
  | some s =>
    match s.searchModel with
    | some model =>
      match counterexampleLines model varMapSpec primaryInputs with
      | none => none
      | some lines => some (false, lines)
    | none => some (true, [])

/-- Lines 318-326 of `main`: both encoding passes on a fresh solver, with fresh
local maps and one shared `globalInputMap`. Returns the solver, `varMapSpec`,
`varMapImp` and `globalInputMap`. -/
def encodeBoth (spec imp : Cell) (primaryInputs : List String) :
    Option (Solver × VarMap × VarMap × VarMap) :=
  match generateCNF spec Solver.empty [] primaryInputs [] with
  | none => none
  | some st1 =>
    match generateCNF imp st1.solver [] primaryInputs st1.globalInputMap with
    | none => none
    | some st2 => some (st2.solver, st1.varMap, st2.varMap, st2.globalInputMap)

/-- The combined instance: both encoding passes followed by the miter clauses. -/
def combinedInstance (spec imp : Cell) (primaryInputs outputsSpec outputsImp : List String) :
    Option Solver :=
  match encodeBoth spec imp primaryInputs with
  | none => none
  | some (solver, varMapSpec, varMapImp, _) =>
    addMiter solver outputsSpec outputsImp varMapSpec varMapImp

/-- Lines 318-329 of `main`: both encoding passes, then `checkEquivalence`. -/
def runCheck (spec imp : Cell) (primaryInputs outputsSpec outputsImp : List String) :
    Option (Bool × List (String × LBool)) :=
  match encodeBoth spec imp primaryInputs with
  | none => none
  | some (solver, varMapSpec, varMapImp, _) =>
    checkEquivalence solver primaryInputs outputsSpec outputsImp varMapSpec varMapImp

/-! ## Circuit semantics (gate evaluation) -/

/-- Truth tables of the gate vocabulary, as in the table of spec §4.2. -/
def gateValue (gateType : String) (ins : List Bool) : Bool :=
  match classify gateType with
  | .buffer => ins.headD false
  | .inverter => !(ins.headD false)
  | .norFamily => !(ins.any id)
  | .orFamily => ins.any id
  | .nandFamily => !(ins.all id)
  | .andFamily => ins.all id
  | .xor => xor (ins.getD 0 false) (ins.getD 1 false)
  | .dff => false
  | .unsupported => false

/-- The gate driving net `n`: the first instance whose output is `n`. -/
def driver (gates : List Gate) (n : String) : Option Gate :=
  gates.find? (fun g => decide (g.outputs.head? = some n))

/-- Value of net `n` under the primary-input assignment `pi`, by evaluating the
driving gates backwards at most `fuel` levels deep. `VDD` is 1 and `VSS` is 0. -/
def evalNet (gates : List Gate) (primaryInputs : List String) (pi : String → Bool) :
    Nat → String → Bool
  | 0, _ => false
  | fuel + 1, n =>
    if n = "VDD" then true
    else if n = "VSS" then false
    else if n ∈ primaryInputs then pi n
    else
      match driver gates n with
      | none => false
      | some g => gateValue g.gateType (g.inputs.map (evalNet gates primaryInputs pi fuel))

/-- Value of net `n` of the cell: a path through an acyclic netlist visits each
gate at most once, so a depth of one more than the number of gates is enough. -/
def circuitValue (cell : Cell) (primaryInputs : List String) (pi : String → Bool)
    (n : String) : Bool :=
  evalNet cell.instances primaryInputs pi (cell.instances.length + 1) n

/-- A gate of a supported combinational type with the arity of its type and
exactly one output. -/
def SupportedGate (g : Gate) : Prop :=
  g.outputs.length = 1 ∧
  match classify g.gateType with
  | .buffer => g.inputs.length = 1
  | .inverter => g.inputs.length = 1
  | .xor => g.inputs.length = 2
  | .norFamily => 1 ≤ g.inputs.length
  | .orFamily => 1 ≤ g.inputs.length
  | .nandFamily => 1 ≤ g.inputs.length
  | .andFamily => 1 ≤ g.inputs.length
  | .dff => False
  | .unsupported => False

/-- A flattened combinational netlist over the primary inputs `pis` with primary
outputs `pos`: supported gates only; primary inputs and VDD/VSS are driven by no
gate; every other net is driven by exactly one gate; no combinational cycle
(the nets can be ranked so that every gate output ranks above its inputs). -/
structure Combinational (cell : Cell) (pis pos : List String) : Prop where
  supported : ∀ g ∈ cell.instances, SupportedGate g
  outputs_internal : ∀ g ∈ cell.instances, ∀ o ∈ g.outputs,
    o ∉ pis ∧ o ≠ "VDD" ∧ o ≠ "VSS"
  single_driver : (cell.instances.flatMap Gate.outputs).Nodup
  inputs_driven : ∀ g ∈ cell.instances, ∀ i ∈ g.inputs,
    i ∈ pis ∨ i = "VDD" ∨ i = "VSS" ∨ ∃ g2 ∈ cell.instances, i ∈ g2.outputs
  outputs_driven : ∀ o ∈ pos, ∃ g ∈ cell.instances, o ∈ g.outputs
  acyclic : ∃ rank : String → Nat, ∀ g ∈ cell.instances, ∀ i ∈ g.inputs, ∀ o ∈ g.outputs,
    rank i < rank o

/-- The two circuits produce equal values on every primary output for every
assignment of the primary inputs. -/
def CircuitsEquivalent (spec imp : Cell) (pis pos : List String) : Prop :=
  ∀ pi : String → Bool, ∀ o ∈ pos, circuitValue spec pis pi o = circuitValue imp pis pi o

/-- The unit clause `getOrCreateVar` adds when it creates the variable of a constant. -/
def constUnits (sig : String) (v : Var) : List Clause :=
  if sig = "VDD" then [[mkLit v]] else if sig = "VSS" then [[(mkLit v).neg]] else []

/-- The constants of map `m` are forced in the clause list `cl`: the variable of
"VDD" has its positive unit clause and the variable of "VSS" its negative one. -/
def Forced (cl : List Clause) (m : VarMap) : Prop :=
  (∀ v, mapFind m "VDD" = some v → [mkLit v] ∈ cl) ∧
  (∀ v, mapFind m "VSS" = some v → [(mkLit v).neg] ∈ cl)

/-- The lookups of lines 187-188 for all output pairs, in order. -/
def alignedPairs (varMapSpec varMapImp : VarMap) :
    List String → List String → Option (List (Var × Var))
  | [], _ => some []
  | _ :: _, [] => none
  | o :: os, o2 :: os2 =>
    match mapFind varMapSpec o, mapFind varMapImp o2 with
    | some s, some t => (alignedPairs varMapSpec varMapImp os os2).map (fun ps => (s, t) :: ps)
    | _, _ => none

/-- The XOR clauses of consecutive output pairs, the first pair with difference
variable `d`, the next with `d + 1`, and so on. -/
def pairClauses : Var → List (Var × Var) → List Clause
  | _, [] => []
  | d, (s, t) :: ps => xorClauses s t d ++ pairClauses (d + 1) ps

/-- The end-to-end scenario of spec §8: one 2-input AND gate, inputs A and B, output Z. -/
def andCell : Cell := ⟨["A", "B"], ["Z"], [⟨"and2", ["A", "B"], ["Z"]⟩]⟩

/-- The end-to-end scenario of spec §8: one 2-input OR gate with the same port names. -/
def orCell : Cell := ⟨["A", "B"], ["Z"], [⟨"or2", ["A", "B"], ["Z"]⟩]⟩

/-! ## Invariants of an encoding pass -/

/-- The constants of map `m` have their values under `σ`. -/
def ConstOK (σ : Var → Bool) (m : VarMap) : Prop :=
  (∀ v, mapFind m "VDD" = some v → σ v = true) ∧
  (∀ v, mapFind m "VSS" = some v → σ v = false)

/-- Under `σ`, read through map `m`, the output of `g` has its truth-table value. -/
def GateOK (σ : Var → Bool) (m : VarMap) (g : Gate) : Prop :=
  ∀ o, g.outputs.head? = some o →
    σ (mapGet m o) = gateValue g.gateType (g.inputs.map (fun i => σ (mapGet m i)))

/-- All port names of `g` are keys of `m`. -/
def Declared (m : VarMap) (g : Gate) : Prop :=
  ∀ n, n ∈ g.inputs ∨ n ∈ g.outputs → ∃ v, mapFind m n = some v

/-- Map `m2` extends map `m`. -/
def MapExt (m m2 : VarMap) : Prop := ∀ n v, mapFind m n = some v → mapFind m2 n = some v

/-- Invariant of an encoding pass over primary inputs `pis` that started from a solver
with `n0` variables and clauses `cl0`, an empty local map and shared map `g0`, and has
encoded the gates `done`. -/
structure Inv (pis : List String) (n0 : Nat) (g0 : VarMap) (cl0 : List Clause)
    (done : List Gate) (st : EncState) : Prop where
  n0_le : n0 ≤ st.solver.nVars
  var_lt : ∀ n v, mapFind st.varMap n = some v → v < st.solver.nVars
  gvar_lt : ∀ n v, mapFind st.globalInputMap n = some v → v < st.solver.nVars
  inj : ∀ n1 n2 v, mapFind st.varMap n1 = some v → mapFind st.varMap n2 = some v → n1 = n2
  ginj : ∀ n1 n2 v, mapFind st.globalInputMap n1 = some v →
    mapFind st.globalInputMap n2 = some v → n1 = n2
  pi_shared : ∀ n v, n ∈ pis → mapFind st.varMap n = some v →
    mapFind st.globalInputMap n = some v
  g_sep : ∀ n n2 v, mapFind st.globalInputMap n = some v → mapFind st.varMap n2 = some v →
    n2 = n
  gkeys : ∀ n v, mapFind st.globalInputMap n = some v → n ∈ pis
  g_mono : MapExt g0 st.globalInputMap
  g_old : ∀ n v, mapFind st.globalInputMap n = some v → v < n0 → mapFind g0 n = some v
  old_var : ∀ n v, mapFind st.varMap n = some v → v < n0 → mapFind g0 n = some v
  declared : ∀ g ∈ done, Declared st.varMap g
  sem : ∀ σ : Var → Bool, cnfTrue σ st.solver.clauses = true ↔
    (cnfTrue σ cl0 = true ∧ (∀ g ∈ done, GateOK σ st.varMap g) ∧ ConstOK σ st.varMap)
  gconst : ∀ σ : Var → Bool, cnfTrue σ st.solver.clauses = true →
    ConstOK σ st.globalInputMap

/-- The ways one port declaration of `generateCNF` changes the state: a fresh
variable for a local name, a fresh variable for a primary input recorded in both maps,
or a primary input taken over from the shared map. -/
inductive Step (pis : List String) : EncState → EncState → Prop where
  | fresh (st : EncState) (n : String) (hn : n ∉ pis) (hm : mapFind st.varMap n = none) :
      Step pis st ⟨⟨st.solver.nVars + 1, st.solver.clauses ++ constUnits n st.solver.nVars⟩,
        mapSet st.varMap n st.solver.nVars, st.globalInputMap⟩
  | shared (st : EncState) (n : String) (hn : n ∈ pis)
      (hg : mapFind st.globalInputMap n = none) (hm : mapFind st.varMap n = none) :
      Step pis st ⟨⟨st.solver.nVars + 1, st.solver.clauses ++ constUnits n st.solver.nVars⟩,
        mapSet st.varMap n st.solver.nVars, mapSet st.globalInputMap n st.solver.nVars⟩
  | takeOver (st : EncState) (n : String) (gv : Var) (hn : n ∈ pis)
      (hg : mapFind st.globalInputMap n = some gv) (hm : mapFind st.varMap n = none) :
      Step pis st ⟨st.solver, mapSet st.varMap n gv, st.globalInputMap⟩

/-- A valuation of the nets that respects the constants, the primary-input
assignment `pi` and the truth table of every gate. -/
def Consistent (gates : List Gate) (pis : List String) (pi : String → Bool)
    (val : String → Bool) : Prop :=
  val "VDD" = true ∧ val "VSS" = false ∧
  (∀ n ∈ pis, n ≠ "VDD" → n ≠ "VSS" → val n = pi n) ∧
  ∀ g ∈ gates, ∀ o, g.outputs.head? = some o → val o = gateValue g.gateType (g.inputs.map val)

/-- Number of gates with an output ranked at most as high as net `n`. -/
def level (rank : String → Nat) (gates : List Gate) (n : String) : Nat :=
  (gates.filter (fun g => g.outputs.any (fun o => decide (rank o ≤ rank n)))).length

/-- A net whose value is fixed by the netlist: a primary input, a constant, or a
gate output. -/
def Determined (gates : List Gate) (pis : List String) (n : String) : Prop :=
  n ∈ pis ∨ n = "VDD" ∨ n = "VSS" ∨ ∃ g ∈ gates, n ∈ g.outputs

/-- Assignment `σ`, read through map `m`, gives every mapped net its value under `val`. -/
def Agrees (σ : Var → Bool) (m : VarMap) (val : String → Bool) : Prop :=
  ∀ n v, mapFind m n = some v → σ v = val n

/-- The valuation of the nets that assignment `σ` induces through map `m`; nets
without a variable take their constant or primary-input value. -/
def valOf (σ : Var → Bool) (m : VarMap) (pi : String → Bool) (n : String) : Bool :=
  match mapFind m n with
  | some v => σ v
  | none => if n = "VDD" then true else if n = "VSS" then false else pi n

/-- The first key of `m` that is mapped to variable `v`. -/
def revFind (m : VarMap) (v : Var) : Option String :=
  (m.map Prod.fst).find? (fun k => decide (mapFind m k = some v))

/-- Assignment to the variables of both maps from valuations of the two netlists. -/
def baseModel (mS mI : VarMap) (valS valI : String → Bool) (v : Var) : Bool :=
  match revFind mS v with
  | some n => valS n
  | none =>
    match revFind mI v with
    | some n => valI n
    | none => false

/-- Extension of `base` to the difference variables `n2, n2 + 1, ...` of the pairs `ps`. -/
def miterModel (n2 : Nat) (ps : List (Var × Var)) (base : Var → Bool) (v : Var) : Bool :=
  if v < n2 then base v
  else
    match ps[v - n2]? with
    | some (s, t) => xor (base s) (base t)
    | none => false

/-- A netlist with one flip-flop: input D, output Q. -/
def dffCell : Cell := ⟨["D"], ["Q"], [⟨"dff", ["D"], ["Q"]⟩]⟩

/-! ## main (lines 305-341) -/

/-- `std::sort` on a vector of names: the sorted permutation of the names under the
lexicographic `operator<` of `std::string`. -/
def sortNames (l : List String) : List String :=
  l.insertionSort (fun a b => a.toList ≤ b.toList)

/-- How `main` ends once both flattened cells exist. -/
inductive MainOutcome where
  /-- The mismatch message was printed and `main` returned 1 (lines 313-316); the
  solver is as it is at that point, with the number of `solve` calls made. -/
  | mismatch (solver : Solver) (solveCalls : Nat)
  /-- An uncaught `std::out_of_range` or an out-of-range index. -/
  | aborted
  /-- The flag returned by `checkEquivalence`, its counterexample lines, the result
  of the final `solve` of line 334, the final solver and the number of `solve` calls;
  `main` returned 0. -/
  | completed (equivalent : Bool) (lines : List (String × LBool)) (sat : Bool)
      (solver : Solver) (solveCalls : Nat)
  deriving DecidableEq

/-- Lines 317-341 of `main`: the two encoding passes, `checkEquivalence` and the
final `solve`. -/
def encodeAndCheck (spec imp : Cell) (inputsSpec outputsSpec outputsImp : List String) :
    MainOutcome :=
  match encodeBoth spec imp inputsSpec with
  | none => .aborted
  | some (solver, varMapSpec, varMapImp, _) =>
    match checkEquivalence solver inputsSpec outputsSpec outputsImp varMapSpec varMapImp,
        addMiter solver outputsSpec outputsImp varMapSpec varMapImp with
    | some (equivalent, lines), some inst => .completed equivalent lines inst.solve inst 2
    | _, _ => .aborted

/-- Lines 305-341 of `main`, from the two flattened cells on. -/
def mainFlow (spec imp : Cell) : MainOutcome :=
  if sortNames spec.inputs ≠ sortNames imp.inputs ∨
      sortNames spec.outputs ≠ sortNames imp.outputs then
    .mismatch Solver.empty 0
  else
    encodeAndCheck spec imp (sortNames spec.inputs) (sortNames spec.outputs)
      (sortNames imp.outputs)

/-- A specification that ignores its primary input B: one buffer from A to Z. -/
def bufferCell : Cell := ⟨["A", "B"], ["Z"], [⟨"buffer", ["A"], ["Z"]⟩]⟩

/-! ## The verdict of the engine -/

/-- Following the spec's table for the NAND family: "for each k: (Iₖ∨O); plus
(O ∨ ¬I₀ ∨ ¬I₁ ∨ …)". -/
def specTableNand (ins : List Var) (out : Var) : List Clause :=
  ins.map (fun i => [mkLit i, mkLit out]) ++ [mkLit out :: ins.map (fun i => (mkLit i).neg)]

/-- Following the spec's table for the inverter: "(¬I₀→¬O) ∧ (¬O→¬I₀)", each
implication as the clause of its two literals. -/
def specTableInverter (i0 out : Var) : List Clause :=
  [[mkLit i0, (mkLit out).neg], [mkLit out, (mkLit i0).neg]]

/-- Solver `s2` is solver `s` with more variables and with extra clauses that are
unit clauses on variables new since `s`; no extra clause if neither "VDD" nor "VSS"
is among `names`. -/
def UnitsExt (names : List String) (s s2 : Solver) : Prop :=
  ∃ units, s2.clauses = s.clauses ++ units ∧ s.nVars ≤ s2.nVars ∧
    (∀ c ∈ units, ∃ v, s.nVars ≤ v ∧ v < s2.nVars ∧ (c = [mkLit v] ∨ c = [(mkLit v).neg])) ∧
    ("VDD" ∉ names → "VSS" ∉ names → units = [])

/-! ## Description of the encoding by names -/

/-- The instance is not skipped by `generateCNF`: it has an input and an output. -/
def Active (g : Gate) : Prop := g.inputs ≠ [] ∧ g.outputs ≠ []

/-- The clauses of the type dispatch for instance `g`, over the variables map `m`
gives its port names (none if the dispatch hits an out-of-range input). -/
def gateClausesOf (m : VarMap) (g : Gate) : List Clause :=
  (encodeGate g.gateType (g.inputs.map (mapGet m)) (mapGet m (g.outputs.headD ""))).getD []

/-- Invariant of an encoding pass for arbitrary gate types: the structure of the maps
as in `Inv`, the names with a variable (`ns`), and the clauses as a set: those at the
start, those of the instances encoded so far (`done`) and the unit clauses of the
constants created in the pass. -/
structure Syn (pis : List String) (n0 : Nat) (g0 : VarMap) (cl0 : List Clause)
    (done : List Gate) (ns : List String) (st : EncState) : Prop where
  n0_le : n0 ≤ st.solver.nVars
  var_lt : ∀ n v, mapFind st.varMap n = some v → v < st.solver.nVars
  gvar_lt : ∀ n v, mapFind st.globalInputMap n = some v → v < st.solver.nVars
  inj : ∀ n1 n2 v, mapFind st.varMap n1 = some v → mapFind st.varMap n2 = some v → n1 = n2
  ginj : ∀ n1 n2 v, mapFind st.globalInputMap n1 = some v →
    mapFind st.globalInputMap n2 = some v → n1 = n2
  pi_shared : ∀ n v, n ∈ pis → mapFind st.varMap n = some v →
    mapFind st.globalInputMap n = some v
  g_sep : ∀ n n2 v, mapFind st.globalInputMap n = some v → mapFind st.varMap n2 = some v →
    n2 = n
  gkeys : ∀ n v, mapFind st.globalInputMap n = some v → n ∈ pis
  g_mono : MapExt g0 st.globalInputMap
  g_old : ∀ n v, mapFind st.globalInputMap n = some v → v < n0 → mapFind g0 n = some v
  old_var : ∀ n v, mapFind st.varMap n = some v → v < n0 → mapFind g0 n = some v
  keys : ∀ n, (∃ v, mapFind st.varMap n = some v) ↔ n ∈ ns
  gnew : ∀ n v, mapFind st.globalInputMap n = some v → n0 ≤ v →
    mapFind st.varMap n = some v
  alloc : ∀ v, n0 ≤ v → v < st.solver.nVars → ∃ n, mapFind st.varMap n = some v
  done_ports : ∀ g ∈ done, ∀ n, n ∈ g.inputs ∨ n ∈ g.outputs → n ∈ ns
  done_active : ∀ g ∈ done, Active g
  mem : ∀ c, c ∈ st.solver.clauses ↔
    (c ∈ cl0 ∨ (∃ g ∈ done, c ∈ gateClausesOf st.varMap g) ∨
      (∃ v, n0 ≤ v ∧ mapFind st.varMap "VDD" = some v ∧ c = [mkLit v]) ∨
      (∃ v, n0 ≤ v ∧ mapFind st.varMap "VSS" = some v ∧ c = [(mkLit v).neg]))

/-- The port names of the instances that are not skipped. -/
def IsPort (gs : List Gate) (n : String) : Prop :=
  ∃ g ∈ gs, Active g ∧ (n ∈ g.inputs ∨ n ∈ g.outputs)

/-- The type dispatch of instance `g` stays within its input list. -/
def Dispatchable (g : Gate) : Prop :=
  (encodeGate g.gateType (g.inputs.map (fun _ => 0)) 0).isSome = true

/-- No instance drives a primary input: no output port is bound to a primary-input
name. -/
def NoDrivenInput (pis : List String) (gs : List Gate) : Prop :=
  ∀ g ∈ gs, ∀ o ∈ g.outputs, o ∉ pis

/-- Description by names of the result of both encoding passes over the instance
lists `gsS` and `gsI`. -/
structure Summary (pis : List String) (gsS gsI : List Gate) (solver : Solver)
    (mS mI G : VarMap) : Prop where
  keysS : ∀ n, (∃ v, mapFind mS n = some v) ↔ IsPort gsS n
  keysI : ∀ n, (∃ v, mapFind mI n = some v) ↔ IsPort gsI n
  injS : ∀ n1 n2 v, mapFind mS n1 = some v → mapFind mS n2 = some v → n1 = n2
  injI : ∀ n1 n2 v, mapFind mI n1 = some v → mapFind mI n2 = some v → n1 = n2
  shareS : ∀ n v, n ∈ pis → mapFind mS n = some v → mapFind G n = some v
  shareI : ∀ n v, n ∈ pis → mapFind mI n = some v → mapFind G n = some v
  cross : ∀ n n2 v, mapFind mS n = some v → mapFind mI n2 = some v → n = n2 ∧ n ∈ pis
  gfrom : ∀ n v, mapFind G n = some v →
    n ∈ pis ∧ (mapFind mS n = some v ∨ mapFind mI n = some v)
  ltS : ∀ n v, mapFind mS n = some v → v < solver.nVars
  ltI : ∀ n v, mapFind mI n = some v → v < solver.nVars
  alloc : ∀ v, v < solver.nVars → ∃ n, mapFind mS n = some v ∨ mapFind mI n = some v
  mem : ∀ c, c ∈ solver.clauses ↔
    ((∃ g ∈ gsS, Active g ∧ c ∈ gateClausesOf mS g) ∨
      (∃ g ∈ gsI, Active g ∧ c ∈ gateClausesOf mI g) ∨
      (∃ v, (mapFind mS "VDD" = some v ∨ mapFind mI "VDD" = some v) ∧ c = [mkLit v]) ∨
      (∃ v, (mapFind mS "VSS" = some v ∨ mapFind mI "VSS" = some v) ∧ c = [(mkLit v).neg]))

/-- A literal with its variable renamed. -/
def renameLit (ρ : Var → Var) (l : Lit) : Lit := ⟨ρ l.var, l.sign⟩

/-- A clause with its variables renamed. -/
def renameClause (ρ : Var → Var) (c : Clause) : Clause := c.map (renameLit ρ)

/-- The renaming of variables between two encodings of netlists over the same names:
the variable of a name goes to the variable of that name, and the difference
variables `N, N + 1, ...` go to `N2, N2 + 1, ...`. -/
def renameVar (mS mI mS2 mI2 : VarMap) (N N2 : Nat) (v : Var) : Var :=
  match revFind mS v with
  | some n =>
    match mapFind mS2 n with
    | some w => w
    | none => mapGet mI2 n
  | none =>
    match revFind mI v with
    | some n => mapGet mI2 n
    | none => N2 + (v - N)

/-- The assignment `pi` of the primary inputs is a counterexample of the clauses `cl`:
it extends to a model, a primary input having the variable `G` records for it. -/
def IsCounterexample (cl : List Clause) (G : VarMap) (pi : String → Bool) : Prop :=
  ∃ σ : Var → Bool, cnfTrue σ cl = true ∧ ∀ n v, mapFind G n = some v → σ v = pi n

/-- A netlist with one buffer: input A, output Z. -/
def singleBufferCell : Cell := ⟨["A"], ["Z"], [⟨"buffer", ["A"], ["Z"]⟩]⟩

/-- A netlist whose gates drive the primary input A and the output Z from the
constant VSS. -/
def drivenInputCell : Cell :=
  ⟨["A"], ["Z"], [⟨"and2", ["VSS", "VSS"], ["A"]⟩, ⟨"buffer", ["VSS"], ["Z"]⟩]⟩

/-- The netlist `drivenInputCell` with an instance of unknown type "foo" reading A
in front. -/
def drivenInputUnsupportedCell : Cell :=
  ⟨["A"], ["Z"], [⟨"foo", ["A"], ["U"]⟩, ⟨"and2", ["VSS", "VSS"], ["A"]⟩,
    ⟨"buffer", ["VSS"], ["Z"]⟩]⟩

/-- The netlist `singleBufferCell` with an instance of unknown type "foo" in front. -/
def unsupportedExtraCell : Cell :=
  ⟨["A"], ["Z"], [⟨"foo", ["A", "VDD"], ["U"]⟩, ⟨"buffer", ["A"], ["Z"]⟩]⟩

/-- A netlist that drives the primary input A before it reads it. -/
def drivenFirstCell : Cell :=
  ⟨["A"], ["Z"], [⟨"and2", ["VSS", "VSS"], ["A"]⟩, ⟨"buffer", ["A"], ["W"]⟩,
    ⟨"buffer", ["VSS"], ["Z"]⟩]⟩

/-- The netlist `drivenFirstCell` with its first two instances swapped. -/
def drivenSecondCell : Cell :=
  ⟨["A"], ["Z"], [⟨"buffer", ["A"], ["W"]⟩, ⟨"and2", ["VSS", "VSS"], ["A"]⟩,
    ⟨"buffer", ["VSS"], ["Z"]⟩]⟩

/-- A netlist with two gates on the input A: a buffer to W and an inverter to Z. -/
def fanoutCell : Cell :=
  ⟨["A"], ["Z"], [⟨"buffer", ["A"], ["W"]⟩, ⟨"inv", ["A"], ["Z"]⟩]⟩

/-- The netlist `fanoutCell` with its instances swapped. -/
def fanoutSwappedCell : Cell :=
  ⟨["A"], ["Z"], [⟨"inv", ["A"], ["Z"]⟩, ⟨"buffer", ["A"], ["W"]⟩]⟩

/-- Invariant of an encoding pass on arbitrary instances, started from a solver with
`n0` variables, an empty local map and shared map `g0`: the variables of both maps
are allocated, both maps are injective, a shared variable belongs to one name, and a
local-map variable from before the pass is the shared variable of the same name. -/
structure Sep (pis : List String) (n0 : Nat) (g0 : VarMap) (st : EncState) : Prop where
  n0_le : n0 ≤ st.solver.nVars
  var_lt : ∀ n v, mapFind st.varMap n = some v → v < st.solver.nVars
  gvar_lt : ∀ n v, mapFind st.globalInputMap n = some v → v < st.solver.nVars
  inj : ∀ n1 n2 v, mapFind st.varMap n1 = some v → mapFind st.varMap n2 = some v → n1 = n2
  ginj : ∀ n1 n2 v, mapFind st.globalInputMap n1 = some v →
    mapFind st.globalInputMap n2 = some v → n1 = n2
  g_sep : ∀ n n2 v, mapFind st.globalInputMap n = some v → mapFind st.varMap n2 = some v →
    n2 = n
  gkeys : ∀ n v, mapFind st.globalInputMap n = some v → n ∈ pis
  g_mono : MapExt g0 st.globalInputMap
  g_old : ∀ n v, mapFind st.globalInputMap n = some v → v < n0 → mapFind g0 n = some v
  old_var : ∀ n v, mapFind st.varMap n = some v → v < n0 → mapFind g0 n = some v

/-- A netlist whose primary output Z is connected to no instance: input A, outputs
Y and Z, one buffer from A to Y. -/
def floatingOutputCell : Cell := ⟨["A"], ["Y", "Z"], [⟨"buffer", ["A"], ["Y"]⟩]⟩

/-- The inputs the type dispatch of `generateCNF` reads: `inputs[0]` for a buffer or
an inverter, `inputs[0]` and `inputs[1]` for XOR, every input for the four families,
none for a flip-flop or an unknown type. -/
def readInputs (gateType : String) (ins : List String) : List String :=
  match classify gateType with
  | .buffer => ins.take 1
  | .inverter => ins.take 1
  | .xor => ins.take 2
  | .norFamily => ins
  | .orFamily => ins
  | .nandFamily => ins
  | .andFamily => ins
  | .dff => []
  | .unsupported => []

/-- The type is one of the combinational types of the dispatch: neither the
flip-flop nor an unknown type. -/
def CombinationalType (gateType : String) : Prop :=
  classify gateType ≠ GateKind.dff ∧ classify gateType ≠ GateKind.unsupported

/-- The net `n` is settled by the netlist: it is a primary input that an encoded
instance reads, or a constant on a port of an encoded instance, or the first output
of an encoded instance of combinational type whose inputs, as far as the dispatch
reads them, are settled. -/
inductive Settled (pis : List String) (gs : List Gate) : String → Prop where
  | input (n : String) (g : Gate) (hn : n ∈ pis) (hg : g ∈ gs) (ha : Active g)
      (hin : n ∈ g.inputs) : Settled pis gs n
  | const (n : String) (hn : n ∉ pis) (hc : n = "VDD" ∨ n = "VSS") (hp : IsPort gs n) :
      Settled pis gs n
  | gate (n : String) (g : Gate) (hn : n ∉ pis) (hg : g ∈ gs) (ha : Active g)
      (ht : CombinationalType g.gateType) (ho : g.outputs.head? = some n)
      (hin : ∀ i, i ∈ readInputs g.gateType g.inputs → Settled pis gs i) : Settled pis gs n

/-- The entry of `x` in the local map is final: `x` has the variable `v`, and if `x`
is a primary input the shared map records the same variable for it. -/
def Fixed (pis : List String) (st : EncState) (x : String) (v : Var) : Prop :=
  mapFind st.varMap x = some v ∧ (x ∈ pis → mapFind st.globalInputMap x = some v)

/-- A netlist with a floating net: W is read by the AND gate and driven by nothing. -/
def floatingNetCell : Cell := ⟨["A"], ["Z"], [⟨"and2", ["A", "W"], ["Z"]⟩]⟩

/-- A latch of two cross-coupled NOR gates: inputs S and R, output Q. -/
def latchCell : Cell :=
  ⟨["S", "R"], ["Q"], [⟨"nor2", ["R", "QN"], ["Q"]⟩, ⟨"nor2", ["S", "Q"], ["QN"]⟩]⟩

/-- A netlist whose XOR instance has one input only. -/
def shortXorCell : Cell := ⟨["A"], ["Z"], [⟨"xor2", ["A"], ["Z"]⟩]⟩

/-! ## Basic facts about clause semantics -/

@[simp] theorem litTrue_mkLit (σ : Var → Bool) (v : Var) : litTrue σ (mkLit v) = σ v := by
  simp [litTrue, mkLit]

@[simp] theorem litTrue_neg_mkLit (σ : Var → Bool) (v : Var) :
    litTrue σ (mkLit v).neg = !σ v := by
  simp [litTrue, mkLit, Lit.neg]

@[simp] theorem cnfTrue_nil (σ : Var → Bool) : cnfTrue σ [] = true := rfl

@[simp] theorem cnfTrue_cons (σ : Var → Bool) (c : Clause) (cs : List Clause) :
    cnfTrue σ (c :: cs) = (clauseTrue σ c && cnfTrue σ cs) := by
  simp [cnfTrue]

@[simp] theorem cnfTrue_append (σ : Var → Bool) (cs ds : List Clause) :
    cnfTrue σ (cs ++ ds) = (cnfTrue σ cs && cnfTrue σ ds) := by
  simp [cnfTrue]

@[simp] theorem clauseTrue_nil (σ : Var → Bool) : clauseTrue σ [] = false := rfl

@[simp] theorem clauseTrue_cons (σ : Var → Bool) (p : Lit) (c : Clause) :
    clauseTrue σ (p :: c) = (litTrue σ p || clauseTrue σ c) := by
  simp [clauseTrue]

theorem startsWith_iff (p s : List Char) : startsWith p s = true ↔ ∃ t, s = p ++ t := by
  induction p generalizing s with
  | nil => simp [startsWith]
  | cons a p ih =>
    cases s with
    | nil => simp [startsWith]
    | cons c cs =>
      simp only [startsWith, Bool.and_eq_true, beq_iff_eq, ih, List.cons_append, List.cons.injEq]
      constructor
      · rintro ⟨rfl, t, rfl⟩; exact ⟨t, rfl, rfl⟩
      · rintro ⟨t, rfl, rfl⟩; exact ⟨rfl, t, rfl⟩

/-! ## Dispatch of the type-name families -/

theorem classify_of_and (gateType : String) (h : rfindAtZero gateType "and" = true) :
    classify gateType = .andFamily := by
  obtain ⟨cs⟩ := gateType
  obtain ⟨t, ht⟩ := (startsWith_iff _ _).1 h
  simp only [String.toList] at ht
  subst ht
  simp [classify, rfindAtZero, startsWith, String.ext_iff]

theorem classify_of_nand (gateType : String) (h : rfindAtZero gateType "nand" = true) :
    classify gateType = .nandFamily := by
  obtain ⟨cs⟩ := gateType
  obtain ⟨t, ht⟩ := (startsWith_iff _ _).1 h
  simp only [String.toList] at ht
  subst ht
  simp [classify, rfindAtZero, startsWith, String.ext_iff]

theorem classify_of_or (gateType : String) (h : rfindAtZero gateType "or" = true) :
    classify gateType = .orFamily := by
  obtain ⟨cs⟩ := gateType
  obtain ⟨t, ht⟩ := (startsWith_iff _ _).1 h
  simp only [String.toList] at ht
  subst ht
  simp [classify, rfindAtZero, startsWith, String.ext_iff]

theorem classify_of_nor (gateType : String) (h : rfindAtZero gateType "nor" = true) :
    classify gateType = .norFamily := by
  obtain ⟨cs⟩ := gateType
  obtain ⟨t, ht⟩ := (startsWith_iff _ _).1 h
  simp only [String.toList] at ht
  subst ht
  simp [classify, rfindAtZero, startsWith, String.ext_iff]

/-! ## Truth tables of the gate encodings -/

theorem cnfTrue_map_binary (σ : Var → Bool) (f : Var → Clause) (ins : List Var) :
    cnfTrue σ (ins.map f) = ins.all (fun i => clauseTrue σ (f i)) := by
  induction ins with
  | nil => rfl
  | cons a l ih => simp [ih]

theorem clauseTrue_map (σ : Var → Bool) (f : Var → Lit) (ins : List Var) :
    clauseTrue σ (ins.map f) = ins.any (fun i => litTrue σ (f i)) := by
  induction ins with
  | nil => rfl
  | cons a l ih => simp [ih]

theorem and_clauses_iff (σ : Var → Bool) (ins : List Var) (out : Var) :
    cnfTrue σ (ins.map (fun i => [mkLit i, (mkLit out).neg])
      ++ [mkLit out :: ins.map (fun i => (mkLit i).neg)]) = true ↔ σ out = ins.all σ := by
  simp only [cnfTrue_append, cnfTrue_map_binary, cnfTrue_cons, clauseTrue_cons, clauseTrue_map,
    litTrue_mkLit, litTrue_neg_mkLit, clauseTrue_nil, cnfTrue_nil, Bool.or_false, Bool.and_true,
    Bool.and_eq_true, List.all_eq_true, Bool.or_eq_true, List.any_eq_true, Bool.not_eq_true']
  cases ho : σ out
  · simp only [Bool.false_eq_true, false_or, or_true, implies_true, true_and]
    constructor
    · rintro ⟨i, hi, hf⟩
      symm
      rw [List.all_eq_false]
      exact ⟨i, hi, by simp [hf]⟩
    · intro h
      have h2 := h.symm
      rw [List.all_eq_false] at h2
      obtain ⟨i, hi, hf⟩ := h2
      exact ⟨i, hi, by simpa using hf⟩
  · simp only [Bool.true_eq_false, or_false, true_or, and_true]
    constructor
    · intro h
      symm
      rw [List.all_eq_true]
      exact h
    · intro h
      have h2 := h.symm
      rw [List.all_eq_true] at h2
      exact h2

theorem nand_clauses_iff (σ : Var → Bool) (ins : List Var) (out : Var) :
    cnfTrue σ (ins.map (fun i => [mkLit i, mkLit out])
      ++ [(mkLit out).neg :: ins.map (fun i => (mkLit i).neg)]) = true ↔
      σ out = !ins.all σ := by
  simp only [cnfTrue_append, cnfTrue_map_binary, cnfTrue_cons, clauseTrue_cons, clauseTrue_map,
    litTrue_mkLit, litTrue_neg_mkLit, clauseTrue_nil, cnfTrue_nil, Bool.or_false, Bool.and_true,
    Bool.and_eq_true, List.all_eq_true, Bool.or_eq_true, List.any_eq_true, Bool.not_eq_true']
  cases ho : σ out <;> cases ha : ins.all σ
  · rw [List.all_eq_false] at ha
    obtain ⟨i, hi, hf⟩ := ha
    simp only [Bool.false_eq_true, or_false, true_or, and_true, Bool.not_false, iff_false,
      not_forall]
    exact ⟨i, hi, hf⟩
  · rw [List.all_eq_true] at ha
    simpa using ha
  · rw [List.all_eq_false] at ha
    obtain ⟨i, hi, hf⟩ := ha
    simp only [or_true, implies_true, Bool.true_eq_false, false_or, true_and, Bool.not_false,
      iff_true]
    exact ⟨i, hi, by simpa using hf⟩
  · rw [List.all_eq_true] at ha
    simp only [or_true, implies_true, Bool.true_eq_false, false_or, true_and, Bool.not_true,
      iff_false, not_exists, not_and, Bool.not_eq_false]
    exact ha

theorem or_clauses_iff (σ : Var → Bool) (ins : List Var) (out : Var) :
    cnfTrue σ (ins.map (fun i => [(mkLit i).neg, mkLit out])
      ++ [(mkLit out).neg :: ins.map mkLit]) = true ↔ σ out = ins.any σ := by
  simp only [cnfTrue_append, cnfTrue_map_binary, cnfTrue_cons, clauseTrue_cons, clauseTrue_map,
    litTrue_mkLit, litTrue_neg_mkLit, clauseTrue_nil, cnfTrue_nil, Bool.or_false, Bool.and_true,
    Bool.and_eq_true, List.all_eq_true, Bool.or_eq_true, List.any_eq_true, Bool.not_eq_true']
  cases ho : σ out <;> cases ha : ins.any σ
  · rw [List.any_eq_false] at ha
    simp only [Bool.false_eq_true, or_false, true_or, and_true, iff_true]
    intro i hi
    simpa using ha i hi
  · rw [List.any_eq_true] at ha
    obtain ⟨i, hi, hf⟩ := ha
    simp only [Bool.false_eq_true, or_false, true_or, and_true, iff_false, not_forall]
    exact ⟨i, hi, by simp [hf]⟩
  · rw [List.any_eq_false] at ha
    simp only [or_true, implies_true, Bool.true_eq_false, false_or, true_and, iff_false,
      not_exists, not_and]
    intro i hi
    simpa using ha i hi
  · rw [List.any_eq_true] at ha
    simpa using ha

theorem nor_clauses_iff (σ : Var → Bool) (ins : List Var) (out : Var) :
    cnfTrue σ (ins.map (fun i => [(mkLit i).neg, (mkLit out).neg])
      ++ [mkLit out :: ins.map mkLit]) = true ↔ σ out = !ins.any σ := by
  simp only [cnfTrue_append, cnfTrue_map_binary, cnfTrue_cons, clauseTrue_cons, clauseTrue_map,
    litTrue_mkLit, litTrue_neg_mkLit, clauseTrue_nil, cnfTrue_nil, Bool.or_false, Bool.and_true,
    Bool.and_eq_true, List.all_eq_true, Bool.or_eq_true, List.any_eq_true, Bool.not_eq_true']
  cases ho : σ out <;> cases ha : ins.any σ
  · rw [List.any_eq_false] at ha
    simp only [or_true, implies_true, Bool.false_eq_true, false_or, true_and, Bool.not_false,
      iff_false, not_exists, not_and]
    intro i hi
    simpa using ha i hi
  · rw [List.any_eq_true] at ha
    simpa using ha
  · rw [List.any_eq_false] at ha
    simp only [Bool.true_eq_false, or_false, true_or, and_true, Bool.not_false, iff_true]
    intro i hi
    simpa using ha i hi
  · rw [List.any_eq_true] at ha
    obtain ⟨i, hi, hf⟩ := ha
    simp only [Bool.true_eq_false, or_false, true_or, and_true, Bool.not_true, iff_false,
      not_forall]
    exact ⟨i, hi, by simp [hf]⟩

theorem buffer_clauses_iff (σ : Var → Bool) (i0 out : Var) :
    cnfTrue σ [[mkLit i0, (mkLit out).neg], [(mkLit i0).neg, mkLit out]] = true ↔
      σ out = σ i0 := by
  cases h1 : σ i0 <;> cases h2 : σ out <;> simp [h1, h2]

theorem inverter_clauses_iff (σ : Var → Bool) (i0 out : Var) :
    cnfTrue σ [[(mkLit i0).neg, (mkLit out).neg], [mkLit i0, mkLit out]] = true ↔
      σ out = !σ i0 := by
  cases h1 : σ i0 <;> cases h2 : σ out <;> simp [h1, h2]

theorem xor_clauses_iff (σ : Var → Bool) (i0 i1 out : Var) :
    cnfTrue σ [[(mkLit i0).neg, (mkLit i1).neg, (mkLit out).neg],
            [mkLit i0, mkLit i1, (mkLit out).neg],
            [mkLit i0, (mkLit i1).neg, mkLit out],
            [(mkLit i0).neg, mkLit i1, mkLit out]] = true ↔
      σ out = xor (σ i0) (σ i1) := by
  cases h1 : σ i0 <;> cases h2 : σ i1 <;> cases h3 : σ out <;> simp [h1, h2, h3]

/-! ## One loop iteration of `generateCNF` -/

theorem addClauses_clauses (s : Solver) (cs : List Clause) :
    (s.addClauses cs).clauses = s.clauses ++ cs := by
  induction cs generalizing s with
  | nil => simp [Solver.addClauses]
  | cons c cs ih =>
    have := ih (s.addClause c)
    simp only [Solver.addClauses, List.foldl_cons] at this ⊢
    rw [this]
    simp [Solver.addClause]

theorem addClauses_nVars (s : Solver) (cs : List Clause) :
    (s.addClauses cs).nVars = s.nVars := by
  induction cs generalizing s with
  | nil => simp [Solver.addClauses]
  | cons c cs ih =>
    have := ih (s.addClause c)
    simp only [Solver.addClauses, List.foldl_cons] at this ⊢
    rw [this]
    simp [Solver.addClause]

/-- An instance with inputs and outputs is encoded: variables first, then the
clauses of its gate type over the variables now in the map. -/
theorem processGate_cons (pis : List String) (st : EncState) (g : Gate)
    (i : String) (is : List String) (o : String) (os : List String)
    (hi : g.inputs = i :: is) (ho : g.outputs = o :: os) :
    processGate pis st g =
      (encodeGate g.gateType (g.inputs.map (mapGet (declarePorts pis st g).varMap))
          (mapGet (declarePorts pis st g).varMap o)).map
        (fun cls => { declarePorts pis st g with
                      solver := (declarePorts pis st g).solver.addClauses cls }) := by
  unfold processGate
  rw [hi, ho]
  simp only [← hi]
  cases encodeGate g.gateType (g.inputs.map (mapGet (declarePorts pis st g).varMap))
      (mapGet (declarePorts pis st g).varMap o) <;> rfl

/-! ## Variable maps and `getOrCreateVar` -/

theorem mapFind_mapSet (m : VarMap) (k : String) (v : Var) (k2 : String) :
    mapFind (mapSet m k v) k2 = if k = k2 then some v else mapFind m k2 := by
  induction m with
  | nil => simp [mapSet, mapFind]
  | cons p m ih =>
    obtain ⟨a, w⟩ := p
    by_cases h : a = k
    · subst h
      by_cases h2 : a = k2 <;> simp [mapSet, mapFind, h2]
    · by_cases h2 : k = k2
      · subst h2
        simp [mapSet, mapFind, h, ih]
      · simp [mapSet, mapFind, h, ih, h2]

theorem mapFind_mapSet_self (m : VarMap) (k : String) (v : Var) :
    mapFind (mapSet m k v) k = some v := by
  simp [mapFind_mapSet]

theorem mapFind_mapSet_ne (m : VarMap) (k : String) (v : Var) (k2 : String) (h : k ≠ k2) :
    mapFind (mapSet m k v) k2 = mapFind m k2 := by
  simp [mapFind_mapSet, h]

/-- Overwriting a key with the value it already has changes nothing. -/
theorem mapSet_same (m : VarMap) (k : String) (v : Var) (h : mapFind m k = some v) :
    mapSet m k v = m := by
  induction m with
  | nil => simp [mapFind] at h
  | cons p m ih =>
    obtain ⟨a, w⟩ := p
    by_cases ha : a = k
    · subst ha
      simp only [mapFind, if_true, Option.some.injEq] at h
      simp [mapSet, h]
    · simp only [mapFind, ha, if_false] at h
      simp [mapSet, ha, ih h]

theorem getOrCreateVar_found (sig : String) (solver : Solver) (varMap : VarMap) (v : Var)
    (h : mapFind varMap sig = some v) : getOrCreateVar sig solver varMap = (v, solver, varMap) := by
  simp [getOrCreateVar, h]

theorem getOrCreateVar_fresh (sig : String) (solver : Solver) (varMap : VarMap)
    (h : mapFind varMap sig = none) :
    getOrCreateVar sig solver varMap =
      (solver.nVars, ⟨solver.nVars + 1, solver.clauses ++ constUnits sig solver.nVars⟩,
        mapSet varMap sig solver.nVars) := by
  unfold getOrCreateVar constUnits
  rw [h]
  by_cases h1 : sig = "VDD"
  · simp [h1, Solver.newVar, Solver.addClause]
  · by_cases h2 : sig = "VSS"
    · simp [h2, Solver.newVar, Solver.addClause]
    · simp [h1, h2, Solver.newVar]

theorem getOrCreateVar_find (sig : String) (solver : Solver) (varMap : VarMap) :
    mapFind (getOrCreateVar sig solver varMap).2.2 sig =
      some (getOrCreateVar sig solver varMap).1 := by
  cases h : mapFind varMap sig with
  | some v => rw [getOrCreateVar_found _ _ _ _ h]; exact h
  | none => rw [getOrCreateVar_fresh _ _ _ h]; exact mapFind_mapSet_self _ _ _

/-! ## Gate encodings are equivalent to the truth tables -/

/-- C3: for an instance whose type name begins with "and" (respectively "nand"), with
at least one input and an output, `generateCNF` declares its ports and adds clauses
that a total assignment satisfies if and only if the output variable equals the
conjunction of all input variables (respectively its negation). No distinctness of
the output variable from the input variables is needed. -/
theorem and_nand_encoding_iff (pis : List String) (st : EncState) (g : Gate)
    (o : String) (os : List String)
    (hin : 1 ≤ g.inputs.length) (hout : g.outputs = o :: os) :
    (rfindAtZero g.gateType "and" = true →
      ∃ cls, processGate pis st g = some { declarePorts pis st g with
            solver := (declarePorts pis st g).solver.addClauses cls } ∧
        ∀ σ : Var → Bool, cnfTrue σ cls = true ↔
          σ (mapGet (declarePorts pis st g).varMap o) =
            (g.inputs.map (mapGet (declarePorts pis st g).varMap)).all σ) ∧
    (rfindAtZero g.gateType "nand" = true →
      ∃ cls, processGate pis st g = some { declarePorts pis st g with
            solver := (declarePorts pis st g).solver.addClauses cls } ∧
        ∀ σ : Var → Bool, cnfTrue σ cls = true ↔
          σ (mapGet (declarePorts pis st g).varMap o) =
            !(g.inputs.map (mapGet (declarePorts pis st g).varMap)).all σ) := by
  obtain ⟨i, is, hi⟩ : ∃ i is, g.inputs = i :: is := by
    cases h : g.inputs with
    | nil => simp [h] at hin
    | cons i is => exact ⟨i, is, rfl⟩
  constructor
  · intro h
    refine ⟨_, ?_, fun σ => and_clauses_iff σ _ _⟩
    rw [processGate_cons pis st g i is o os hi hout]
    simp [encodeGate, classify_of_and _ h]
  · intro h
    refine ⟨_, ?_, fun σ => nand_clauses_iff σ _ _⟩
    rw [processGate_cons pis st g i is o os hi hout]
    simp [encodeGate, classify_of_nand _ h]

theorem and_nand_encoding_iff_witness :
    ∃ st2, processGate ["A", "B"] ⟨Solver.empty, [], []⟩ ⟨"and2", ["A", "B"], ["Z"]⟩ = some st2 ∧
      ∀ σ : Var → Bool, cnfTrue σ st2.solver.clauses = true ↔ σ 2 = (σ 0 && σ 1) := by
  obtain ⟨cls, h1, h2⟩ := (and_nand_encoding_iff ["A", "B"] ⟨Solver.empty, [], []⟩
    ⟨"and2", ["A", "B"], ["Z"]⟩ "Z" [] (by decide) rfl).1 (by decide)
  refine ⟨_, h1, fun σ => ?_⟩
  have e1 : (declarePorts ["A", "B"] ⟨Solver.empty, [], []⟩
      ⟨"and2", ["A", "B"], ["Z"]⟩).solver.clauses = [] := by decide
  have e2 : mapGet (declarePorts ["A", "B"] ⟨Solver.empty, [], []⟩
      ⟨"and2", ["A", "B"], ["Z"]⟩).varMap "Z" = 2 := by decide
  have e3 : (["A", "B"].map (mapGet (declarePorts ["A", "B"] ⟨Solver.empty, [], []⟩
      ⟨"and2", ["A", "B"], ["Z"]⟩).varMap)) = [0, 1] := by decide
  have h3 := h2 σ
  rw [e2] at h3
  simp only [e3] at h3
  simp only [addClauses_clauses, e1, List.nil_append, h3]
  simp

/-- C4: for an instance whose type name begins with "or" (respectively "nor"), with
at least one input and an output, `generateCNF` declares its ports and adds clauses
that a total assignment satisfies if and only if the output variable equals the
disjunction of all input variables (respectively its negation). No distinctness of
the output variable from the input variables is needed. -/
theorem or_nor_encoding_iff (pis : List String) (st : EncState) (g : Gate)
    (o : String) (os : List String)
    (hin : 1 ≤ g.inputs.length) (hout : g.outputs = o :: os) :
    (rfindAtZero g.gateType "or" = true →
      ∃ cls, processGate pis st g = some { declarePorts pis st g with
            solver := (declarePorts pis st g).solver.addClauses cls } ∧
        ∀ σ : Var → Bool, cnfTrue σ cls = true ↔
          σ (mapGet (declarePorts pis st g).varMap o) =
            (g.inputs.map (mapGet (declarePorts pis st g).varMap)).any σ) ∧
    (rfindAtZero g.gateType "nor" = true →
      ∃ cls, processGate pis st g = some { declarePorts pis st g with
            solver := (declarePorts pis st g).solver.addClauses cls } ∧
        ∀ σ : Var → Bool, cnfTrue σ cls = true ↔
          σ (mapGet (declarePorts pis st g).varMap o) =
            !(g.inputs.map (mapGet (declarePorts pis st g).varMap)).any σ) := by
  obtain ⟨i, is, hi⟩ : ∃ i is, g.inputs = i :: is := by
    cases h : g.inputs with
    | nil => simp [h] at hin
    | cons i is => exact ⟨i, is, rfl⟩
  constructor
  · intro h
    refine ⟨_, ?_, fun σ => or_clauses_iff σ _ _⟩
    rw [processGate_cons pis st g i is o os hi hout]
    simp [encodeGate, classify_of_or _ h]
  · intro h
    refine ⟨_, ?_, fun σ => nor_clauses_iff σ _ _⟩
    rw [processGate_cons pis st g i is o os hi hout]
    simp [encodeGate, classify_of_nor _ h]

theorem or_nor_encoding_iff_witness :
    ∃ st2, processGate ["A", "B"] ⟨Solver.empty, [], []⟩ ⟨"nor3", ["A", "B", "C"], ["Z"]⟩ =
        some st2 ∧
      ∀ σ : Var → Bool, cnfTrue σ st2.solver.clauses = true ↔ σ 3 = !(σ 0 || σ 1 || σ 2) := by
  obtain ⟨cls, h1, h2⟩ := (or_nor_encoding_iff ["A", "B"] ⟨Solver.empty, [], []⟩
    ⟨"nor3", ["A", "B", "C"], ["Z"]⟩ "Z" [] (by decide) rfl).2 (by decide)
  refine ⟨_, h1, fun σ => ?_⟩
  have e1 : (declarePorts ["A", "B"] ⟨Solver.empty, [], []⟩
      ⟨"nor3", ["A", "B", "C"], ["Z"]⟩).solver.clauses = [] := by decide
  have e2 : mapGet (declarePorts ["A", "B"] ⟨Solver.empty, [], []⟩
      ⟨"nor3", ["A", "B", "C"], ["Z"]⟩).varMap "Z" = 3 := by decide
  have e3 : (["A", "B", "C"].map (mapGet (declarePorts ["A", "B"] ⟨Solver.empty, [], []⟩
      ⟨"nor3", ["A", "B", "C"], ["Z"]⟩).varMap)) = [0, 1, 2] := by decide
  have h3 := h2 σ
  rw [e2] at h3
  simp only [e3] at h3
  simp only [addClauses_clauses, e1, List.nil_append, h3]
  simp [Bool.or_assoc]

/-- C5: for the fixed-arity gate types, the clauses `generateCNF` adds for an instance
with first input `i0` (and second input `i1`) and first output `o` are satisfied by a
total assignment if and only if the output variable has the truth-table value: the
input for "buffer", its negation for "inv"/"not", and the exclusive or of the two
inputs for "xor"/"xor2". -/
theorem fixed_arity_encoding_iff (pis : List String) (st : EncState) (g : Gate)
    (i0 : String) (is : List String) (o : String) (os : List String)
    (hin : g.inputs = i0 :: is) (hout : g.outputs = o :: os) :
    (g.gateType = "buffer" →
      ∃ cls, processGate pis st g = some { declarePorts pis st g with
            solver := (declarePorts pis st g).solver.addClauses cls } ∧
        ∀ σ : Var → Bool, cnfTrue σ cls = true ↔
          σ (mapGet (declarePorts pis st g).varMap o) =
            σ (mapGet (declarePorts pis st g).varMap i0)) ∧
    (g.gateType = "inv" ∨ g.gateType = "not" →
      ∃ cls, processGate pis st g = some { declarePorts pis st g with
            solver := (declarePorts pis st g).solver.addClauses cls } ∧
        ∀ σ : Var → Bool, cnfTrue σ cls = true ↔
          σ (mapGet (declarePorts pis st g).varMap o) =
            !σ (mapGet (declarePorts pis st g).varMap i0)) ∧
    (g.gateType = "xor" ∨ g.gateType = "xor2" → ∀ i1 : String, is = [i1] →
      ∃ cls, processGate pis st g = some { declarePorts pis st g with
            solver := (declarePorts pis st g).solver.addClauses cls } ∧
        ∀ σ : Var → Bool, cnfTrue σ cls = true ↔
          σ (mapGet (declarePorts pis st g).varMap o) =
            xor (σ (mapGet (declarePorts pis st g).varMap i0))
              (σ (mapGet (declarePorts pis st g).varMap i1))) := by
  refine ⟨?_, ?_, ?_⟩
  · intro h
    refine ⟨_, ?_, fun σ => buffer_clauses_iff σ _ _⟩
    rw [processGate_cons pis st g i0 is o os hin hout, hin]
    simp [encodeGate, classify, h]
  · intro h
    refine ⟨_, ?_, fun σ => inverter_clauses_iff σ _ _⟩
    rw [processGate_cons pis st g i0 is o os hin hout, hin]
    rcases h with h | h <;> simp [encodeGate, classify, h]
  · intro h i1 his
    refine ⟨_, ?_, fun σ => xor_clauses_iff σ _ _ _⟩
    rw [processGate_cons pis st g i0 is o os hin hout, hin, his]
    rcases h with h | h <;> simp [encodeGate, classify, h, rfindAtZero, startsWith]

theorem fixed_arity_encoding_iff_witness :
    ∃ st2, processGate ["A", "B"] ⟨Solver.empty, [], []⟩ ⟨"xor2", ["A", "B"], ["Z"]⟩ = some st2 ∧
      ∀ σ : Var → Bool, cnfTrue σ st2.solver.clauses = true ↔ σ 2 = xor (σ 0) (σ 1) := by
  obtain ⟨cls, h1, h2⟩ := (fixed_arity_encoding_iff ["A", "B"] ⟨Solver.empty, [], []⟩
    ⟨"xor2", ["A", "B"], ["Z"]⟩ "A" ["B"] "Z" [] rfl rfl).2.2 (Or.inr rfl) "B" rfl
  refine ⟨_, h1, fun σ => ?_⟩
  have e1 : (declarePorts ["A", "B"] ⟨Solver.empty, [], []⟩
      ⟨"xor2", ["A", "B"], ["Z"]⟩).solver.clauses = [] := by decide
  have e2 : mapGet (declarePorts ["A", "B"] ⟨Solver.empty, [], []⟩
      ⟨"xor2", ["A", "B"], ["Z"]⟩).varMap "Z" = 2 := by decide
  have e3 : mapGet (declarePorts ["A", "B"] ⟨Solver.empty, [], []⟩
      ⟨"xor2", ["A", "B"], ["Z"]⟩).varMap "A" = 0 := by decide
  have e4 : mapGet (declarePorts ["A", "B"] ⟨Solver.empty, [], []⟩
      ⟨"xor2", ["A", "B"], ["Z"]⟩).varMap "B" = 1 := by decide
  have h3 := h2 σ
  rw [e2, e3, e4] at h3
  simp only [addClauses_clauses, e1, List.nil_append, h3]

/-! ## Idempotence of the variable allocator -/

/-- C9: `getOrCreateVar` is idempotent: for every signal name (also "VDD" and "VSS"),
solver and map, a second call on the solver and map left by the first returns the
same variable and leaves the solver (number of variables and clauses) and the map
exactly as the first call left them. -/
theorem getOrCreateVar_idempotent (sig : String) (solver : Solver) (varMap : VarMap) :
    getOrCreateVar sig (getOrCreateVar sig solver varMap).2.1
        (getOrCreateVar sig solver varMap).2.2 =
      ((getOrCreateVar sig solver varMap).1, (getOrCreateVar sig solver varMap).2.1,
        (getOrCreateVar sig solver varMap).2.2) :=
  getOrCreateVar_found _ _ _ _ (getOrCreateVar_find sig solver varMap)

/-! ## Constant forcing -/

theorem Forced_mono (cl cl2 : List Clause) (m : VarMap) (hsub : ∀ c ∈ cl, c ∈ cl2)
    (h : Forced cl m) : Forced cl2 m :=
  ⟨fun v hv => hsub _ (h.1 v hv), fun v hv => hsub _ (h.2 v hv)⟩

theorem getOrCreateVar_clauses_sub (sig : String) (s : Solver) (m : VarMap) :
    ∀ c ∈ s.clauses, c ∈ (getOrCreateVar sig s m).2.1.clauses := by
  intro c hc
  cases h : mapFind m sig with
  | some v => rw [getOrCreateVar_found _ _ _ _ h]; exact hc
  | none => rw [getOrCreateVar_fresh _ _ _ h]; exact List.mem_append_left _ hc

theorem getOrCreateVar_forced (sig : String) (s : Solver) (m : VarMap)
    (h : Forced s.clauses m) :
    Forced (getOrCreateVar sig s m).2.1.clauses (getOrCreateVar sig s m).2.2 ∧
    (sig = "VDD" → [mkLit (getOrCreateVar sig s m).1] ∈ (getOrCreateVar sig s m).2.1.clauses) ∧
    (sig = "VSS" →
      [(mkLit (getOrCreateVar sig s m).1).neg] ∈ (getOrCreateVar sig s m).2.1.clauses) := by
  cases hf : mapFind m sig with
  | some v =>
    rw [getOrCreateVar_found _ _ _ _ hf]
    exact ⟨h, fun e => h.1 v (e ▸ hf), fun e => h.2 v (e ▸ hf)⟩
  | none =>
    rw [getOrCreateVar_fresh _ _ _ hf]
    refine ⟨⟨?_, ?_⟩, ?_, ?_⟩
    · intro v hv
      rw [mapFind_mapSet] at hv
      by_cases e : sig = "VDD"
      · simp only [e, if_true, Option.some.injEq] at hv
        subst hv
        simp [constUnits, e]
      · simp only [e, if_false] at hv
        exact List.mem_append_left _ (h.1 v hv)
    · intro v hv
      rw [mapFind_mapSet] at hv
      by_cases e : sig = "VSS"
      · simp only [e, if_true, Option.some.injEq] at hv
        subst hv
        simp [constUnits, e]
      · simp only [e, if_false] at hv
        exact List.mem_append_left _ (h.2 v hv)
    · intro e
      simp [constUnits, e]
    · intro e
      simp [constUnits, e]

theorem Forced_mapSet (cl : List Clause) (m : VarMap) (k : String) (v : Var)
    (h : Forced cl m) (h1 : k = "VDD" → [mkLit v] ∈ cl) (h2 : k = "VSS" → [(mkLit v).neg] ∈ cl) :
    Forced cl (mapSet m k v) := by
  constructor
  · intro w hw
    rw [mapFind_mapSet] at hw
    by_cases e : k = "VDD"
    · simp only [e, if_true, Option.some.injEq] at hw
      subst hw
      exact h1 e
    · simp only [e, if_false] at hw
      exact h.1 w hw
  · intro w hw
    rw [mapFind_mapSet] at hw
    by_cases e : k = "VSS"
    · simp only [e, if_true, Option.some.injEq] at hw
      subst hw
      exact h2 e
    · simp only [e, if_false] at hw
      exact h.2 w hw

theorem declareInput_forced (pis : List String) (st : EncState) (input : String)
    (h : Forced st.solver.clauses st.varMap ∧ Forced st.solver.clauses st.globalInputMap) :
    (Forced (declareInput pis st input).solver.clauses (declareInput pis st input).varMap ∧
      Forced (declareInput pis st input).solver.clauses
        (declareInput pis st input).globalInputMap) ∧
    ∀ c ∈ st.solver.clauses, c ∈ (declareInput pis st input).solver.clauses := by
  unfold declareInput
  by_cases hp : input ∈ pis
  · simp only [hp, if_true]
    cases hg : mapFind st.globalInputMap input with
    | some gv =>
      simp only [mapGet, hg, Option.getD_some]
      refine ⟨⟨?_, h.2⟩, fun c hc => hc⟩
      exact Forced_mapSet _ _ _ _ h.1 (fun e => h.2.1 gv (e ▸ hg)) (fun e => h.2.2 gv (e ▸ hg))
    | none =>
      simp only [mapGet, mapFind_mapSet_self, Option.getD_some]
      obtain ⟨f1, f2, f3⟩ := getOrCreateVar_forced input st.solver st.varMap h.1
      refine ⟨⟨Forced_mapSet _ _ _ _ f1 f2 f3, ?_⟩, getOrCreateVar_clauses_sub _ _ _⟩
      exact Forced_mapSet _ _ _ _
        (Forced_mono _ _ _ (getOrCreateVar_clauses_sub _ _ _) h.2) f2 f3
  · simp only [hp, if_false]
    obtain ⟨f1, _, _⟩ := getOrCreateVar_forced input st.solver st.varMap h.1
    exact ⟨⟨f1, Forced_mono _ _ _ (getOrCreateVar_clauses_sub _ _ _) h.2⟩,
      getOrCreateVar_clauses_sub _ _ _⟩

theorem declareOutput_forced (st : EncState) (output : String)
    (h : Forced st.solver.clauses st.varMap ∧ Forced st.solver.clauses st.globalInputMap) :
    (Forced (declareOutput st output).solver.clauses (declareOutput st output).varMap ∧
      Forced (declareOutput st output).solver.clauses
        (declareOutput st output).globalInputMap) ∧
    ∀ c ∈ st.solver.clauses, c ∈ (declareOutput st output).solver.clauses := by
  unfold declareOutput
  obtain ⟨f1, _, _⟩ := getOrCreateVar_forced output st.solver st.varMap h.1
  exact ⟨⟨f1, Forced_mono _ _ _ (getOrCreateVar_clauses_sub _ _ _) h.2⟩,
    getOrCreateVar_clauses_sub _ _ _⟩

theorem foldl_declareInput_forced (pis : List String) (ins : List String) (st : EncState)
    (h : Forced st.solver.clauses st.varMap ∧ Forced st.solver.clauses st.globalInputMap) :
    (Forced (ins.foldl (declareInput pis) st).solver.clauses
        (ins.foldl (declareInput pis) st).varMap ∧
      Forced (ins.foldl (declareInput pis) st).solver.clauses
        (ins.foldl (declareInput pis) st).globalInputMap) ∧
    ∀ c ∈ st.solver.clauses, c ∈ (ins.foldl (declareInput pis) st).solver.clauses := by
  induction ins generalizing st with
  | nil => exact ⟨h, fun c hc => hc⟩
  | cons i ins ih =>
    obtain ⟨a, b⟩ := declareInput_forced pis st i h
    obtain ⟨a2, b2⟩ := ih (declareInput pis st i) a
    exact ⟨a2, fun c hc => b2 c (b c hc)⟩

theorem foldl_declareOutput_forced (outs : List String) (st : EncState)
    (h : Forced st.solver.clauses st.varMap ∧ Forced st.solver.clauses st.globalInputMap) :
    (Forced (outs.foldl declareOutput st).solver.clauses (outs.foldl declareOutput st).varMap ∧
      Forced (outs.foldl declareOutput st).solver.clauses
        (outs.foldl declareOutput st).globalInputMap) ∧
    ∀ c ∈ st.solver.clauses, c ∈ (outs.foldl declareOutput st).solver.clauses := by
  induction outs generalizing st with
  | nil => exact ⟨h, fun c hc => hc⟩
  | cons o outs ih =>
    obtain ⟨a, b⟩ := declareOutput_forced st o h
    obtain ⟨a2, b2⟩ := ih (declareOutput st o) a
    exact ⟨a2, fun c hc => b2 c (b c hc)⟩

theorem processGate_forced (pis : List String) (st st2 : EncState) (g : Gate)
    (h : Forced st.solver.clauses st.varMap ∧ Forced st.solver.clauses st.globalInputMap)
    (hp : processGate pis st g = some st2) :
    (Forced st2.solver.clauses st2.varMap ∧ Forced st2.solver.clauses st2.globalInputMap) ∧
    ∀ c ∈ st.solver.clauses, c ∈ st2.solver.clauses := by
  cases hi : g.inputs with
  | nil =>
    simp only [processGate, hi, Option.some.injEq] at hp
    subst hp
    exact ⟨h, fun c hc => hc⟩
  | cons i is =>
    cases ho : g.outputs with
    | nil =>
      simp only [processGate, hi, ho, Option.some.injEq] at hp
      subst hp
      exact ⟨h, fun c hc => hc⟩
    | cons o os =>
      rw [processGate_cons pis st g i is o os hi ho] at hp
      simp only [Option.map_eq_some'] at hp
      obtain ⟨cls, _, rfl⟩ := hp
      obtain ⟨a, b⟩ := foldl_declareInput_forced pis g.inputs st h
      obtain ⟨a2, b2⟩ := foldl_declareOutput_forced g.outputs _ a
      have hsub : ∀ c ∈ (declarePorts pis st g).solver.clauses,
          c ∈ ((declarePorts pis st g).solver.addClauses cls).clauses := by
        intro c hc
        rw [addClauses_clauses]
        exact List.mem_append_left _ hc
      exact ⟨⟨Forced_mono _ _ _ hsub a2.1, Forced_mono _ _ _ hsub a2.2⟩,
        fun c hc => hsub c (b2 c (b c hc))⟩

theorem encodeGates_forced (pis : List String) (gs : List Gate) (st st2 : EncState)
    (h : Forced st.solver.clauses st.varMap ∧ Forced st.solver.clauses st.globalInputMap)
    (hp : encodeGates pis st gs = some st2) :
    (Forced st2.solver.clauses st2.varMap ∧ Forced st2.solver.clauses st2.globalInputMap) ∧
    ∀ c ∈ st.solver.clauses, c ∈ st2.solver.clauses := by
  induction gs generalizing st with
  | nil =>
    simp only [encodeGates, Option.some.injEq] at hp
    subst hp
    exact ⟨h, fun c hc => hc⟩
  | cons g gs ih =>
    cases h1 : processGate pis st g with
    | none => simp [encodeGates, h1] at hp
    | some st1 =>
      simp only [encodeGates, h1] at hp
      obtain ⟨a, b⟩ := processGate_forced pis st st1 g h h1
      obtain ⟨a2, b2⟩ := ih st1 a hp
      exact ⟨a2, fun c hc => b2 c (b c hc)⟩

theorem Forced_nil (cl : List Clause) : Forced cl [] :=
  ⟨fun v hv => by simp [mapFind] at hv, fun v hv => by simp [mapFind] at hv⟩

/-! ## The miter clauses -/

theorem miterLoop_eq (mS mI : VarMap) (os os2 : List String) (s : Solver) (ds : List Var) :
    miterLoop mS mI os os2 s ds =
      (alignedPairs mS mI os os2).map (fun ps =>
        ((⟨s.nVars + ps.length, s.clauses ++ pairClauses s.nVars ps⟩ : Solver),
          ds ++ List.range' s.nVars ps.length)) := by
  induction os generalizing os2 s ds with
  | nil => simp [miterLoop, alignedPairs, pairClauses]
  | cons o os ih =>
    cases os2 with
    | nil => simp [miterLoop, alignedPairs]
    | cons o2 os2 =>
      cases h1 : mapFind mS o with
      | none => simp [miterLoop, alignedPairs, h1]
      | some a =>
        cases h2 : mapFind mI o2 with
        | none => simp [miterLoop, alignedPairs, h1, h2]
        | some b =>
          simp only [miterLoop, alignedPairs, h1, h2, ih, Option.map_map]
          cases alignedPairs mS mI os os2 with
          | none => rfl
          | some ps =>
            simp only [Option.map_some', Function.comp, Solver.newVar, addClauses_clauses,
              addClauses_nVars, List.length_cons, pairClauses, List.append_assoc,
              List.range'_succ, List.singleton_append, Option.some.injEq, Prod.mk.injEq,
              Solver.mk.injEq, and_true]
            omega

theorem addMiter_eq (s : Solver) (os os2 : List String) (mS mI : VarMap) :
    addMiter s os os2 mS mI =
      (alignedPairs mS mI os os2).map (fun ps =>
        (⟨s.nVars + ps.length,
          s.clauses ++ pairClauses s.nVars ps ++
            [(List.range' s.nVars ps.length).map mkLit]⟩ : Solver)) := by
  unfold addMiter
  rw [miterLoop_eq]
  cases alignedPairs mS mI os os2 with
  | none => rfl
  | some ps => simp [Solver.addClause]

theorem alignedPairs_length (mS mI : VarMap) (os os2 : List String) (ps : List (Var × Var))
    (h : alignedPairs mS mI os os2 = some ps) : ps.length = os.length := by
  induction os generalizing os2 ps with
  | nil =>
    simp only [alignedPairs, Option.some.injEq] at h
    subst h
    rfl
  | cons o os ih =>
    cases os2 with
    | nil => simp [alignedPairs] at h
    | cons o2 os2 =>
      cases h1 : mapFind mS o with
      | none => simp [alignedPairs, h1] at h
      | some a =>
        cases h2 : mapFind mI o2 with
        | none => simp [alignedPairs, h1, h2] at h
        | some b =>
          simp only [alignedPairs, h1, h2, Option.map_eq_some'] at h
          obtain ⟨qs, hq, rfl⟩ := h
          simp [ih os2 qs hq]

theorem xorClauses_iff (σ : Var → Bool) (s t d : Var) :
    cnfTrue σ (xorClauses s t d) = true ↔ σ d = xor (σ s) (σ t) := by
  cases h1 : σ s <;> cases h2 : σ t <;> cases h3 : σ d <;> simp [xorClauses, h1, h2, h3]

theorem pairClauses_iff (σ : Var → Bool) (d : Nat) (ps : List (Var × Var)) :
    cnfTrue σ (pairClauses d ps) = true ↔
      ∀ i s t, ps[i]? = some (s, t) → σ (d + i) = xor (σ s) (σ t) := by
  induction ps generalizing d with
  | nil => simp [pairClauses]
  | cons p ps ih =>
    obtain ⟨a, b⟩ := p
    simp only [pairClauses, cnfTrue_append, Bool.and_eq_true, xorClauses_iff, ih]
    constructor
    · rintro ⟨h0, hr⟩ i s t hi
      cases i with
      | zero =>
        simp only [List.getElem?_cons_zero, Option.some.injEq, Prod.mk.injEq] at hi
        obtain ⟨rfl, rfl⟩ := hi
        exact h0
      | succ j =>
        simp only [List.getElem?_cons_succ] at hi
        have := hr j s t hi
        rwa [Nat.add_assoc, Nat.add_comm 1 j] at this
    · intro h
      refine ⟨h 0 a b (by simp), fun i s t hi => ?_⟩
      have := h (i + 1) s t (by simpa using hi)
      rwa [Nat.add_comm i 1, ← Nat.add_assoc] at this

theorem pairClauses_length (d : Var) (ps : List (Var × Var)) :
    (pairClauses d ps).length = 4 * ps.length := by
  induction ps generalizing d with
  | nil => rfl
  | cons p ps ih =>
    obtain ⟨a, b⟩ := p
    simp only [pairClauses, List.length_append, ih, List.length_cons]
    simp only [xorClauses, List.length_cons, List.length_nil]
    omega

theorem diffClause_iff (σ : Var → Bool) (d n : Nat) :
    clauseTrue σ ((List.range' d n).map mkLit) = true ↔ ∃ i, i < n ∧ σ (d + i) = true := by
  rw [clauseTrue_map]
  simp only [litTrue_mkLit, List.any_eq_true, List.mem_range'_1]
  constructor
  · rintro ⟨x, ⟨h1, h2⟩, hx⟩
    exact ⟨x - d, by omega, by rwa [show d + (x - d) = x by omega]⟩
  · rintro ⟨i, hi, hx⟩
    exact ⟨d + i, ⟨by omega, by omega⟩, hx⟩

theorem cnfTrue_mem (σ : Var → Bool) (cl : List Clause) (c : Clause)
    (h : cnfTrue σ cl = true) (hc : c ∈ cl) : clauseTrue σ c = true := by
  simp only [cnfTrue, List.all_eq_true] at h
  exact h c hc

theorem addMiter_clauses_sub (s inst : Solver) (os os2 : List String) (mS mI : VarMap)
    (h : addMiter s os os2 mS mI = some inst) : ∀ c ∈ s.clauses, c ∈ inst.clauses := by
  rw [addMiter_eq] at h
  simp only [Option.map_eq_some'] at h
  obtain ⟨ps, _, rfl⟩ := h
  intro c hc
  simp [hc]

theorem encodeBoth_forced (spec imp : Cell) (pis : List String) (solver : Solver)
    (mS mI G : VarMap) (h : encodeBoth spec imp pis = some (solver, mS, mI, G)) :
    Forced solver.clauses mS ∧ Forced solver.clauses mI := by
  unfold encodeBoth generateCNF at h
  cases h1 : encodeGates pis ⟨Solver.empty, [], []⟩ spec.instances with
  | none => simp [h1] at h
  | some st1 =>
    cases h2 : encodeGates pis ⟨st1.solver, [], st1.globalInputMap⟩ imp.instances with
    | none => simp [h1, h2] at h
    | some st2 =>
      simp only [h1, h2, Option.some.injEq, Prod.mk.injEq] at h
      obtain ⟨rfl, rfl, rfl, rfl⟩ := h
      obtain ⟨a, _⟩ := encodeGates_forced pis spec.instances
        ⟨Solver.empty, [], []⟩ st1 ⟨Forced_nil _, Forced_nil _⟩ h1
      obtain ⟨b, hsub⟩ := encodeGates_forced pis imp.instances
        ⟨st1.solver, [], st1.globalInputMap⟩ st2 ⟨Forced_nil _, a.2⟩ h2
      exact ⟨Forced_mono _ _ _ hsub a.1, b.1⟩

/-- C10: constant forcing. After both encoding passes (and also after the miter
clauses have been added), for each netlist whose variable map contains "VDD"
(respectively "VSS") the instance contains the unit clause asserting that variable
true (respectively false), so every satisfying assignment of the instance makes the
VDD variable true and the VSS variable false. -/
theorem constant_forcing (spec imp : Cell) (pis : List String) (solver : Solver)
    (mS mI G : VarMap) (h : encodeBoth spec imp pis = some (solver, mS, mI, G))
    (inst : Solver)
    (hinst : inst = solver ∨ ∃ oS oI, addMiter solver oS oI mS mI = some inst) :
    (∀ v, mapFind mS "VDD" = some v ∨ mapFind mI "VDD" = some v →
      [mkLit v] ∈ inst.clauses ∧
        ∀ σ : Var → Bool, cnfTrue σ inst.clauses = true → σ v = true) ∧
    (∀ v, mapFind mS "VSS" = some v ∨ mapFind mI "VSS" = some v →
      [(mkLit v).neg] ∈ inst.clauses ∧
        ∀ σ : Var → Bool, cnfTrue σ inst.clauses = true → σ v = false) := by
  obtain ⟨fS, fI⟩ := encodeBoth_forced spec imp pis solver mS mI G h
  have hsub : ∀ c ∈ solver.clauses, c ∈ inst.clauses := by
    rcases hinst with rfl | ⟨oS, oI, hm⟩
    · exact fun c hc => hc
    · exact addMiter_clauses_sub _ _ _ _ _ _ hm
  constructor
  · intro v hv
    have hmem : [mkLit v] ∈ inst.clauses := by
      rcases hv with hv | hv
      · exact hsub _ (fS.1 v hv)
      · exact hsub _ (fI.1 v hv)
    refine ⟨hmem, fun σ hσ => ?_⟩
    simpa using cnfTrue_mem σ _ _ hσ hmem
  · intro v hv
    have hmem : [(mkLit v).neg] ∈ inst.clauses := by
      rcases hv with hv | hv
      · exact hsub _ (fS.2 v hv)
      · exact hsub _ (fI.2 v hv)
    refine ⟨hmem, fun σ hσ => ?_⟩
    simpa using cnfTrue_mem σ _ _ hσ hmem

theorem constant_forcing_witness :
    [mkLit 1] ∈
        (⟨5, [[mkLit 1], [mkLit 0, (mkLit 2).neg], [mkLit 1, (mkLit 2).neg],
              [mkLit 2, (mkLit 0).neg, (mkLit 1).neg], [(mkLit 3).neg],
              [(mkLit 0).neg, mkLit 4], [(mkLit 3).neg, mkLit 4],
              [(mkLit 4).neg, mkLit 0, mkLit 3]]⟩ : Solver).clauses ∧
      ∀ σ : Var → Bool,
        cnfTrue σ (⟨5, [[mkLit 1], [mkLit 0, (mkLit 2).neg], [mkLit 1, (mkLit 2).neg],
              [mkLit 2, (mkLit 0).neg, (mkLit 1).neg], [(mkLit 3).neg],
              [(mkLit 0).neg, mkLit 4], [(mkLit 3).neg, mkLit 4],
              [(mkLit 4).neg, mkLit 0, mkLit 3]]⟩ : Solver).clauses = true → σ 1 = true :=
  (constant_forcing ⟨["A"], ["Z"], [⟨"and2", ["A", "VDD"], ["Z"]⟩]⟩
    ⟨["A"], ["Z"], [⟨"or2", ["A", "VSS"], ["Z"]⟩]⟩ ["A"] _
    [("A", 0), ("VDD", 1), ("Z", 2)] [("A", 0), ("VSS", 3), ("Z", 4)] [("A", 0)]
    rfl _ (Or.inl rfl)).1 1 (Or.inl (by decide))

/-! ## The miter is satisfied exactly by assignments with a differing output pair -/

/-- C6: for the aligned output pairs `(s_i, t_i)` that `checkEquivalence` looks up and
the difference variables `d_i` it allocates (the `i`-th is `solver.nVars + i`), the
clauses it appends are the four clauses per pair followed by one final clause; the
per-pair clauses are satisfied by a total assignment if and only if
`d_i = s_i XOR t_i` for every `i`, and together with the final clause if and only if
additionally `s_i` differs from `t_i` for at least one `i`. Holds for any number of
pairs. -/
theorem miter_clauses_iff (solver : Solver) (outsS outsI : List String) (mS mI : VarMap)
    (inst : Solver) (h : addMiter solver outsS outsI mS mI = some inst) :
    ∃ (pairs : List (Var × Var)) (xorCls : List Clause) (final : Clause),
      alignedPairs mS mI outsS outsI = some pairs ∧ pairs.length = outsS.length ∧
      inst.clauses = solver.clauses ++ xorCls ++ [final] ∧
      xorCls.length = 4 * outsS.length ∧
      ∀ σ : Var → Bool,
        (cnfTrue σ xorCls = true ↔
          ∀ (i : Nat) (s t : Var), pairs[i]? = some (s, t) → σ (solver.nVars + i) = xor (σ s) (σ t)) ∧
        (cnfTrue σ (xorCls ++ [final]) = true ↔
          (∀ (i : Nat) (s t : Var), pairs[i]? = some (s, t) → σ (solver.nVars + i) = xor (σ s) (σ t)) ∧
          ∃ (i : Nat) (s t : Var), pairs[i]? = some (s, t) ∧ σ s ≠ σ t) := by
  rw [addMiter_eq] at h
  simp only [Option.map_eq_some'] at h
  obtain ⟨ps, hps, rfl⟩ := h
  have hlen := alignedPairs_length _ _ _ _ _ hps
  refine ⟨ps, pairClauses solver.nVars ps, (List.range' solver.nVars ps.length).map mkLit,
    hps, hlen, rfl, by rw [pairClauses_length, hlen], fun σ => ⟨pairClauses_iff σ _ ps, ?_⟩⟩
  simp only [cnfTrue_append, cnfTrue_cons, cnfTrue_nil, Bool.and_true, Bool.and_eq_true,
    pairClauses_iff, diffClause_iff]
  constructor
  · rintro ⟨hx, i, hi, hd⟩
    refine ⟨hx, ?_⟩
    obtain ⟨⟨a, b⟩, hab⟩ : ∃ p, ps[i]? = some p := ⟨ps[i], List.getElem?_eq_getElem hi⟩
    refine ⟨i, a, b, hab, ?_⟩
    have := hx i a b hab
    rw [hd] at this
    intro e
    rw [e] at this
    simp at this
  · rintro ⟨hx, i, a, b, hab, hne⟩
    refine ⟨hx, i, ?_, ?_⟩
    · exact (List.getElem?_eq_some_iff.1 hab).1
    · rw [hx i a b hab]
      cases h1 : σ a <;> cases h2 : σ b <;> simp_all

theorem miter_clauses_iff_witness :
    ∃ (pairs : List (Var × Var)) (xorCls : List Clause) (final : Clause),
      alignedPairs [("Z", 0)] [("Z", 1)] ["Z"] ["Z"] = some pairs ∧ pairs.length = 1 ∧
      (⟨3, xorClauses 0 1 2 ++ [[mkLit 2]]⟩ : Solver).clauses = [] ++ xorCls ++ [final] ∧
      xorCls.length = 4 * 1 ∧
      ∀ σ : Var → Bool,
        (cnfTrue σ xorCls = true ↔
          ∀ (i : Nat) (s t : Var), pairs[i]? = some (s, t) → σ (2 + i) = xor (σ s) (σ t)) ∧
        (cnfTrue σ (xorCls ++ [final]) = true ↔
          (∀ (i : Nat) (s t : Var), pairs[i]? = some (s, t) → σ (2 + i) = xor (σ s) (σ t)) ∧
          ∃ (i : Nat) (s t : Var), pairs[i]? = some (s, t) ∧ σ s ≠ σ t) :=
  miter_clauses_iff ⟨2, []⟩ ["Z"] ["Z"] [("Z", 0)] [("Z", 1)] ⟨3, xorClauses 0 1 2 ++ [[mkLit 2]]⟩
    (by decide)

/-! ## The end-to-end scenario -/

/-- C8: with the AND cell as specification and as implementation the combined instance
is unsatisfiable and `checkEquivalence` returns true; with the OR cell as implementation
the combined instance is satisfiable, `checkEquivalence` returns false, and every
satisfying assignment gives the variables of A and B different values. -/
theorem and_or_scenario :
    (∃ inst, combinedInstance andCell andCell ["A", "B"] ["Z"] ["Z"] = some inst ∧
      ¬ Satisfiable inst.clauses) ∧
    runCheck andCell andCell ["A", "B"] ["Z"] ["Z"] = some (true, []) ∧
    (∃ solver mS mI G a b inst,
      encodeBoth andCell orCell ["A", "B"] = some (solver, mS, mI, G) ∧
      mapFind G "A" = some a ∧ mapFind mS "A" = some a ∧ mapFind mI "A" = some a ∧
      mapFind G "B" = some b ∧ mapFind mS "B" = some b ∧ mapFind mI "B" = some b ∧
      combinedInstance andCell orCell ["A", "B"] ["Z"] ["Z"] = some inst ∧
      Satisfiable inst.clauses ∧
      ∀ σ : Var → Bool, cnfTrue σ inst.clauses = true → σ a ≠ σ b) ∧
    (runCheck andCell orCell ["A", "B"] ["Z"] ["Z"]).map Prod.fst = some false := by
  have e1 : combinedInstance andCell andCell ["A", "B"] ["Z"] ["Z"] = some ⟨5,
      [[mkLit 0, (mkLit 2).neg],
        [mkLit 1, (mkLit 2).neg],
        [mkLit 2, (mkLit 0).neg, (mkLit 1).neg],
        [mkLit 0, (mkLit 3).neg],
        [mkLit 1, (mkLit 3).neg],
        [mkLit 3, (mkLit 0).neg, (mkLit 1).neg],
        [(mkLit 2).neg, mkLit 3, mkLit 4],
        [mkLit 2, (mkLit 3).neg, mkLit 4],
        [mkLit 2, mkLit 3, (mkLit 4).neg],
        [(mkLit 2).neg, (mkLit 3).neg, (mkLit 4).neg],
        [mkLit 4]]⟩ := by decide
  have e2 : combinedInstance andCell orCell ["A", "B"] ["Z"] ["Z"] = some ⟨5,
      [[mkLit 0, (mkLit 2).neg],
        [mkLit 1, (mkLit 2).neg],
        [mkLit 2, (mkLit 0).neg, (mkLit 1).neg],
        [(mkLit 0).neg, mkLit 3],
        [(mkLit 1).neg, mkLit 3],
        [(mkLit 3).neg, mkLit 0, mkLit 1],
        [(mkLit 2).neg, mkLit 3, mkLit 4],
        [mkLit 2, (mkLit 3).neg, mkLit 4],
        [mkLit 2, mkLit 3, (mkLit 4).neg],
        [(mkLit 2).neg, (mkLit 3).neg, (mkLit 4).neg],
        [mkLit 4]]⟩ := by decide
  have e3 : encodeBoth andCell orCell ["A", "B"] = some (⟨4,
      [[mkLit 0, (mkLit 2).neg],
        [mkLit 1, (mkLit 2).neg],
        [mkLit 2, (mkLit 0).neg, (mkLit 1).neg],
        [(mkLit 0).neg, mkLit 3],
        [(mkLit 1).neg, mkLit 3],
        [(mkLit 3).neg, mkLit 0, mkLit 1]]⟩, [("A", 0), ("B", 1), ("Z", 2)], [("A", 0), ("B", 1), ("Z", 3)],
      [("A", 0), ("B", 1)]) := rfl
  refine ⟨⟨_, e1, ?_⟩, by decide, ⟨_, _, _, _, 0, 1, _, e3, rfl, rfl, rfl, rfl, rfl, rfl,
    e2, ⟨fun v => decide (v = 0 ∨ v = 3 ∨ v = 4), by decide⟩, ?_⟩, by decide⟩
  · rintro ⟨σ, h⟩
    revert h
    simp only [cnfTrue_cons, clauseTrue_cons, litTrue_mkLit, litTrue_neg_mkLit,
      clauseTrue_nil, cnfTrue_nil]
    cases σ 0 <;> cases σ 1 <;> cases σ 2 <;> cases σ 3 <;> cases σ 4 <;> simp
  · intro σ
    simp only [cnfTrue_cons, clauseTrue_cons, litTrue_mkLit, litTrue_neg_mkLit,
      clauseTrue_nil, cnfTrue_nil]
    cases σ 0 <;> cases σ 1 <;> cases σ 2 <;> cases σ 3 <;> cases σ 4 <;> simp

/-! ## Preservation of the pass invariant -/

theorem MapExt_refl (m : VarMap) : MapExt m m := fun _ _ h => h

theorem MapExt_trans (m1 m2 m3 : VarMap) (h1 : MapExt m1 m2) (h2 : MapExt m2 m3) :
    MapExt m1 m3 := fun n v h => h2 n v (h1 n v h)

theorem MapExt_mapSet (m : VarMap) (n : String) (v : Var) (h : mapFind m n = none) :
    MapExt m (mapSet m n v) := by
  intro k w hk
  rw [mapFind_mapSet]
  by_cases e : n = k
  · subst e
    rw [h] at hk
    cases hk
  · simp [e, hk]

theorem mapGet_ext (m m2 : VarMap) (h : MapExt m m2) (n : String)
    (hn : ∃ v, mapFind m n = some v) : mapGet m2 n = mapGet m n := by
  obtain ⟨v, hv⟩ := hn
  simp [mapGet, hv, h n v hv]

theorem GateOK_ext (σ : Var → Bool) (m m2 : VarMap) (g : Gate) (h : MapExt m m2)
    (hd : Declared m g) : GateOK σ m2 g ↔ GateOK σ m g := by
  have hin : g.inputs.map (fun i => σ (mapGet m2 i)) = g.inputs.map (fun i => σ (mapGet m i)) := by
    apply List.map_congr_left
    intro i hi
    rw [mapGet_ext m m2 h i (hd i (Or.inl hi))]
  unfold GateOK
  rw [hin]
  constructor
  · intro hg o ho
    have ho2 : o ∈ g.outputs := List.mem_of_mem_head? ho
    rw [← mapGet_ext m m2 h o (hd o (Or.inr ho2))]
    exact hg o ho
  · intro hg o ho
    have ho2 : o ∈ g.outputs := List.mem_of_mem_head? ho
    rw [mapGet_ext m m2 h o (hd o (Or.inr ho2))]
    exact hg o ho

theorem Declared_ext (m m2 : VarMap) (g : Gate) (h : MapExt m m2) (hd : Declared m g) :
    Declared m2 g := by
  intro n hn
  obtain ⟨v, hv⟩ := hd n hn
  exact ⟨v, h n v hv⟩

theorem cnfTrue_constUnits (σ : Var → Bool) (n : String) (v : Var) :
    cnfTrue σ (constUnits n v) = true ↔
      (n = "VDD" → σ v = true) ∧ (n = "VSS" → σ v = false) := by
  unfold constUnits
  by_cases h1 : n = "VDD"
  · subst h1
    simp
  · by_cases h2 : n = "VSS"
    · subst h2
      simp
    · simp [h1, h2]

theorem ConstOK_mapSet (σ : Var → Bool) (m : VarMap) (n : String) (v : Var)
    (h : mapFind m n = none) :
    ConstOK σ (mapSet m n v) ↔
      ConstOK σ m ∧ (n = "VDD" → σ v = true) ∧ (n = "VSS" → σ v = false) := by
  unfold ConstOK
  simp only [mapFind_mapSet]
  constructor
  · rintro ⟨h1, h2⟩
    refine ⟨⟨fun w hw => h1 w ?_, fun w hw => h2 w ?_⟩, fun e => h1 v (by simp [e]),
      fun e => h2 v (by simp [e])⟩
    · have : n ≠ "VDD" := by
        rintro rfl
        rw [h] at hw
        cases hw
      simp [this, hw]
    · have : n ≠ "VSS" := by
        rintro rfl
        rw [h] at hw
        cases hw
      simp [this, hw]
  · rintro ⟨⟨h1, h2⟩, h3, h4⟩
    constructor
    · intro w hw
      by_cases e : n = "VDD"
      · simp only [e, if_true, Option.some.injEq] at hw
        subst hw
        exact h3 e
      · simp only [e, if_false] at hw
        exact h1 w hw
    · intro w hw
      by_cases e : n = "VSS"
      · simp only [e, if_true, Option.some.injEq] at hw
        subst hw
        exact h4 e
      · simp only [e, if_false] at hw
        exact h2 w hw

theorem mapFind_mapSet_some (m : VarMap) (n : String) (v : Var) (k : String) (w : Var)
    (h : mapFind (mapSet m n v) k = some w) :
    (k = n ∧ w = v) ∨ (k ≠ n ∧ mapFind m k = some w) := by
  rw [mapFind_mapSet] at h
  by_cases e : n = k
  · simp only [e, if_true, Option.some.injEq] at h
    exact Or.inl ⟨e.symm, h.symm⟩
  · simp only [e, if_false] at h
    exact Or.inr ⟨fun e2 => e e2.symm, h⟩

theorem step_fresh_inv (pis : List String) (n0 : Nat) (g0 : VarMap) (cl0 : List Clause)
    (done : List Gate) (st : EncState) (n : String) (hn : n ∉ pis)
    (hm : mapFind st.varMap n = none) (I : Inv pis n0 g0 cl0 done st) :
    Inv pis n0 g0 cl0 done
      ⟨⟨st.solver.nVars + 1, st.solver.clauses ++ constUnits n st.solver.nVars⟩,
        mapSet st.varMap n st.solver.nVars, st.globalInputMap⟩ := by
  have hext := MapExt_mapSet st.varMap n st.solver.nVars hm
  refine ⟨?_, ?_, ?_, ?_, I.ginj, ?_, ?_, I.gkeys, I.g_mono, I.g_old, ?_, ?_, ?_, ?_⟩
  · exact Nat.le_succ_of_le I.n0_le
  · intro k w hk
    rcases mapFind_mapSet_some _ _ _ _ _ hk with ⟨_, rfl⟩ | ⟨_, hk2⟩
    · exact Nat.lt_succ_self _
    · exact Nat.lt_succ_of_lt (I.var_lt k w hk2)
  · intro k w hk
    exact Nat.lt_succ_of_lt (I.gvar_lt k w hk)
  · intro n1 n2 w h1 h2
    rcases mapFind_mapSet_some _ _ _ _ _ h1 with ⟨e1, rfl⟩ | ⟨_, h1b⟩
    · rcases mapFind_mapSet_some _ _ _ _ _ h2 with ⟨e2, _⟩ | ⟨_, h2b⟩
      · rw [e1, e2]
      · exact absurd (I.var_lt _ _ h2b) (Nat.lt_irrefl _)
    · rcases mapFind_mapSet_some _ _ _ _ _ h2 with ⟨_, rfl⟩ | ⟨_, h2b⟩
      · exact absurd (I.var_lt _ _ h1b) (Nat.lt_irrefl _)
      · exact I.inj n1 n2 w h1b h2b
  · intro k w hk hf
    rcases mapFind_mapSet_some _ _ _ _ _ hf with ⟨e, _⟩ | ⟨_, hfb⟩
    · exact absurd (e ▸ hk) hn
    · exact I.pi_shared k w hk hfb
  · intro k k2 w hg hf
    rcases mapFind_mapSet_some _ _ _ _ _ hf with ⟨_, rfl⟩ | ⟨_, hfb⟩
    · exact absurd (I.gvar_lt _ _ hg) (Nat.lt_irrefl _)
    · exact I.g_sep k k2 w hg hfb
  · intro k w hf hw
    rcases mapFind_mapSet_some _ _ _ _ _ hf with ⟨_, rfl⟩ | ⟨_, hfb⟩
    · exact absurd (Nat.lt_of_lt_of_le hw I.n0_le) (Nat.lt_irrefl _)
    · exact I.old_var k w hfb hw
  · intro g hg
    exact Declared_ext _ _ g hext (I.declared g hg)
  · intro σ
    simp only [cnfTrue_append, Bool.and_eq_true, I.sem σ, cnfTrue_constUnits,
      ConstOK_mapSet σ _ _ _ hm]
    have hgate : (∀ g ∈ done, GateOK σ (mapSet st.varMap n st.solver.nVars) g) ↔
        ∀ g ∈ done, GateOK σ st.varMap g :=
      forall₂_congr (fun g hg => GateOK_ext σ _ _ g hext (I.declared g hg))
    rw [hgate]
    tauto
  · intro σ hσ
    simp only [cnfTrue_append, Bool.and_eq_true] at hσ
    exact I.gconst σ hσ.1

theorem step_shared_inv (pis : List String) (n0 : Nat) (g0 : VarMap) (cl0 : List Clause)
    (done : List Gate) (st : EncState) (n : String) (hn : n ∈ pis)
    (hg : mapFind st.globalInputMap n = none) (hm : mapFind st.varMap n = none)
    (I : Inv pis n0 g0 cl0 done st) :
    Inv pis n0 g0 cl0 done
      ⟨⟨st.solver.nVars + 1, st.solver.clauses ++ constUnits n st.solver.nVars⟩,
        mapSet st.varMap n st.solver.nVars, mapSet st.globalInputMap n st.solver.nVars⟩ := by
  have hext := MapExt_mapSet st.varMap n st.solver.nVars hm
  have hgext := MapExt_mapSet st.globalInputMap n st.solver.nVars hg
  refine ⟨?_, ?_, ?_, ?_, ?_, ?_, ?_, ?_, ?_, ?_, ?_, ?_, ?_, ?_⟩
  · exact Nat.le_succ_of_le I.n0_le
  · intro k w hk
    rcases mapFind_mapSet_some _ _ _ _ _ hk with ⟨_, rfl⟩ | ⟨_, hk2⟩
    · exact Nat.lt_succ_self _
    · exact Nat.lt_succ_of_lt (I.var_lt k w hk2)
  · intro k w hk
    rcases mapFind_mapSet_some _ _ _ _ _ hk with ⟨_, rfl⟩ | ⟨_, hk2⟩
    · exact Nat.lt_succ_self _
    · exact Nat.lt_succ_of_lt (I.gvar_lt k w hk2)
  · intro n1 n2 w h1 h2
    rcases mapFind_mapSet_some _ _ _ _ _ h1 with ⟨e1, rfl⟩ | ⟨_, h1b⟩
    · rcases mapFind_mapSet_some _ _ _ _ _ h2 with ⟨e2, _⟩ | ⟨_, h2b⟩
      · rw [e1, e2]
      · exact absurd (I.var_lt _ _ h2b) (Nat.lt_irrefl _)
    · rcases mapFind_mapSet_some _ _ _ _ _ h2 with ⟨_, rfl⟩ | ⟨_, h2b⟩
      · exact absurd (I.var_lt _ _ h1b) (Nat.lt_irrefl _)
      · exact I.inj n1 n2 w h1b h2b
  · intro n1 n2 w h1 h2
    rcases mapFind_mapSet_some _ _ _ _ _ h1 with ⟨e1, rfl⟩ | ⟨_, h1b⟩
    · rcases mapFind_mapSet_some _ _ _ _ _ h2 with ⟨e2, _⟩ | ⟨_, h2b⟩
      · rw [e1, e2]
      · exact absurd (I.gvar_lt _ _ h2b) (Nat.lt_irrefl _)
    · rcases mapFind_mapSet_some _ _ _ _ _ h2 with ⟨_, rfl⟩ | ⟨_, h2b⟩
      · exact absurd (I.gvar_lt _ _ h1b) (Nat.lt_irrefl _)
      · exact I.ginj n1 n2 w h1b h2b
  · intro k w hk hf
    rcases mapFind_mapSet_some _ _ _ _ _ hf with ⟨e, rfl⟩ | ⟨hne, hfb⟩
    · rw [e]
      exact mapFind_mapSet_self _ _ _
    · exact hgext k w (I.pi_shared k w hk hfb)
  · intro k k2 w hgk hf
    rcases mapFind_mapSet_some _ _ _ _ _ hgk with ⟨e1, rfl⟩ | ⟨_, hgb⟩
    · rcases mapFind_mapSet_some _ _ _ _ _ hf with ⟨e2, _⟩ | ⟨_, hfb⟩
      · rw [e1, e2]
      · exact absurd (I.var_lt _ _ hfb) (Nat.lt_irrefl _)
    · rcases mapFind_mapSet_some _ _ _ _ _ hf with ⟨_, rfl⟩ | ⟨_, hfb⟩
      · exact absurd (I.gvar_lt _ _ hgb) (Nat.lt_irrefl _)
      · exact I.g_sep k k2 w hgb hfb
  · intro k w hk
    rcases mapFind_mapSet_some _ _ _ _ _ hk with ⟨e, _⟩ | ⟨_, hk2⟩
    · exact e ▸ hn
    · exact I.gkeys k w hk2
  · exact MapExt_trans _ _ _ I.g_mono hgext
  · intro k w hk hw
    rcases mapFind_mapSet_some _ _ _ _ _ hk with ⟨_, rfl⟩ | ⟨_, hk2⟩
    · exact absurd (Nat.lt_of_lt_of_le hw I.n0_le) (Nat.lt_irrefl _)
    · exact I.g_old k w hk2 hw
  · intro k w hf hw
    rcases mapFind_mapSet_some _ _ _ _ _ hf with ⟨_, rfl⟩ | ⟨_, hfb⟩
    · exact absurd (Nat.lt_of_lt_of_le hw I.n0_le) (Nat.lt_irrefl _)
    · exact I.old_var k w hfb hw
  · intro g hg
    exact Declared_ext _ _ g hext (I.declared g hg)
  · intro σ
    simp only [cnfTrue_append, Bool.and_eq_true, I.sem σ, cnfTrue_constUnits,
      ConstOK_mapSet σ _ _ _ hm]
    have hgate : (∀ g ∈ done, GateOK σ (mapSet st.varMap n st.solver.nVars) g) ↔
        ∀ g ∈ done, GateOK σ st.varMap g :=
      forall₂_congr (fun g hg => GateOK_ext σ _ _ g hext (I.declared g hg))
    rw [hgate]
    tauto
  · intro σ hσ
    simp only [cnfTrue_append, Bool.and_eq_true, cnfTrue_constUnits] at hσ
    rw [ConstOK_mapSet σ _ _ _ hg]
    exact ⟨I.gconst σ hσ.1, hσ.2⟩

theorem step_takeOver_inv (pis : List String) (n0 : Nat) (g0 : VarMap) (cl0 : List Clause)
    (done : List Gate) (st : EncState) (n : String) (gv : Var)
    (hg : mapFind st.globalInputMap n = some gv) (hm : mapFind st.varMap n = none)
    (I : Inv pis n0 g0 cl0 done st) :
    Inv pis n0 g0 cl0 done ⟨st.solver, mapSet st.varMap n gv, st.globalInputMap⟩ := by
  have hext := MapExt_mapSet st.varMap n gv hm
  refine ⟨I.n0_le, ?_, I.gvar_lt, ?_, I.ginj, ?_, ?_, I.gkeys, I.g_mono, I.g_old, ?_, ?_, ?_,
    I.gconst⟩
  · intro k w hk
    rcases mapFind_mapSet_some _ _ _ _ _ hk with ⟨_, rfl⟩ | ⟨_, hk2⟩
    · exact I.gvar_lt n _ hg
    · exact I.var_lt k w hk2
  · intro n1 n2 w h1 h2
    rcases mapFind_mapSet_some _ _ _ _ _ h1 with ⟨e1, rfl⟩ | ⟨_, h1b⟩
    · rcases mapFind_mapSet_some _ _ _ _ _ h2 with ⟨e2, _⟩ | ⟨_, h2b⟩
      · rw [e1, e2]
      · rw [e1]
        exact (I.g_sep n n2 _ hg h2b).symm
    · rcases mapFind_mapSet_some _ _ _ _ _ h2 with ⟨e2, rfl⟩ | ⟨_, h2b⟩
      · rw [e2]
        exact I.g_sep n n1 _ hg h1b
      · exact I.inj n1 n2 w h1b h2b
  · intro k w hk hf
    rcases mapFind_mapSet_some _ _ _ _ _ hf with ⟨e, rfl⟩ | ⟨_, hfb⟩
    · rw [e]
      exact hg
    · exact I.pi_shared k w hk hfb
  · intro k k2 w hgk hf
    rcases mapFind_mapSet_some _ _ _ _ _ hf with ⟨e, rfl⟩ | ⟨_, hfb⟩
    · rw [e]
      exact I.ginj n k _ hg hgk
    · exact I.g_sep k k2 w hgk hfb
  · intro k w hf hw
    rcases mapFind_mapSet_some _ _ _ _ _ hf with ⟨e, rfl⟩ | ⟨_, hfb⟩
    · rw [e]
      exact I.g_old n _ hg hw
    · exact I.old_var k w hfb hw
  · intro g hg2
    exact Declared_ext _ _ g hext (I.declared g hg2)
  · intro σ
    have hgate : (∀ g ∈ done, GateOK σ (mapSet st.varMap n gv) g) ↔
        ∀ g ∈ done, GateOK σ st.varMap g :=
      forall₂_congr (fun g hg => GateOK_ext σ _ _ g hext (I.declared g hg))
    rw [hgate, ConstOK_mapSet σ _ _ _ hm]
    constructor
    · intro hσ
      obtain ⟨a, b, c⟩ := (I.sem σ).1 hσ
      have gc := I.gconst σ hσ
      exact ⟨a, b, c, fun e => gc.1 gv (e ▸ hg), fun e => gc.2 gv (e ▸ hg)⟩
    · rintro ⟨a, b, c, _⟩
      exact (I.sem σ).2 ⟨a, b, c⟩

theorem step_inv (pis : List String) (n0 : Nat) (g0 : VarMap) (cl0 : List Clause)
    (done : List Gate) (st st2 : EncState) (hs : Step pis st st2)
    (I : Inv pis n0 g0 cl0 done st) :
    Inv pis n0 g0 cl0 done st2 ∧ MapExt st.varMap st2.varMap := by
  cases hs with
  | fresh n hn hm => exact ⟨step_fresh_inv _ _ _ _ _ _ n hn hm I, MapExt_mapSet _ _ _ hm⟩
  | shared n hn hg hm =>
    exact ⟨step_shared_inv _ _ _ _ _ _ n hn hg hm I, MapExt_mapSet _ _ _ hm⟩
  | takeOver n gv hn hg hm =>
    exact ⟨step_takeOver_inv _ _ _ _ _ _ n gv hg hm I, MapExt_mapSet _ _ _ hm⟩

theorem declareInput_step (pis : List String) (st : EncState) (input : String)
    (hshared : ∀ n v, n ∈ pis → mapFind st.varMap n = some v →
      mapFind st.globalInputMap n = some v) :
    (declareInput pis st input = st ∨ Step pis st (declareInput pis st input)) ∧
    ∃ v, mapFind (declareInput pis st input).varMap input = some v := by
  unfold declareInput
  by_cases hp : input ∈ pis
  · simp only [hp, if_true]
    cases hg : mapFind st.globalInputMap input with
    | none =>
      have hm : mapFind st.varMap input = none := by
        cases hm : mapFind st.varMap input with
        | none => rfl
        | some v =>
          rw [hshared input v hp hm] at hg
          cases hg
      simp only [getOrCreateVar_fresh _ _ _ hm, mapGet, mapFind_mapSet_self, Option.getD_some,
        mapSet_same _ _ _ (mapFind_mapSet_self st.varMap input st.solver.nVars)]
      exact ⟨Or.inr (Step.shared st input hp hg hm), _, rfl⟩
    | some gv =>
      simp only [mapGet, hg, Option.getD_some]
      refine ⟨?_, gv, mapFind_mapSet_self _ _ _⟩
      cases hm : mapFind st.varMap input with
      | none => exact Or.inr (Step.takeOver st input gv hp hg hm)
      | some v =>
        have e : v = gv := by
          have := hshared input v hp hm
          rw [hg] at this
          exact (Option.some.inj this).symm
        subst e
        rw [mapSet_same _ _ _ hm]
        exact Or.inl rfl
  · simp only [hp, if_false]
    cases hm : mapFind st.varMap input with
    | none =>
      simp only [getOrCreateVar_fresh _ _ _ hm]
      exact ⟨Or.inr (Step.fresh st input hp hm), _, mapFind_mapSet_self _ _ _⟩
    | some v =>
      simp only [getOrCreateVar_found _ _ _ _ hm]
      exact ⟨Or.inl trivial, v, hm⟩

theorem declareOutput_step (pis : List String) (st : EncState) (output : String)
    (hp : output ∉ pis) :
    (declareOutput st output = st ∨ Step pis st (declareOutput st output)) ∧
    ∃ v, mapFind (declareOutput st output).varMap output = some v := by
  unfold declareOutput
  cases hm : mapFind st.varMap output with
  | none =>
    simp only [getOrCreateVar_fresh _ _ _ hm]
    exact ⟨Or.inr (Step.fresh st output hp hm), _, mapFind_mapSet_self _ _ _⟩
  | some v =>
    simp only [getOrCreateVar_found _ _ _ _ hm]
    exact ⟨Or.inl trivial, v, hm⟩

theorem foldl_declareInput_inv (pis : List String) (n0 : Nat) (g0 : VarMap)
    (cl0 : List Clause) (done : List Gate) (ins : List String) (st : EncState)
    (I : Inv pis n0 g0 cl0 done st) :
    Inv pis n0 g0 cl0 done (ins.foldl (declareInput pis) st) ∧
    MapExt st.varMap (ins.foldl (declareInput pis) st).varMap ∧
    ∀ i ∈ ins, ∃ v, mapFind (ins.foldl (declareInput pis) st).varMap i = some v := by
  induction ins generalizing st with
  | nil => exact ⟨I, MapExt_refl _, fun i hi => by cases hi⟩
  | cons a ins ih =>
    obtain ⟨hstep, v, hv⟩ := declareInput_step pis st a I.pi_shared
    have h1 : Inv pis n0 g0 cl0 done (declareInput pis st a) ∧
        MapExt st.varMap (declareInput pis st a).varMap := by
      rcases hstep with e | hs
      · rw [e]
        exact ⟨I, MapExt_refl _⟩
      · exact step_inv _ _ _ _ _ _ _ hs I
    obtain ⟨I2, hext, hdecl⟩ := ih (declareInput pis st a) h1.1
    refine ⟨I2, MapExt_trans _ _ _ h1.2 hext, ?_⟩
    intro i hi
    rcases List.mem_cons.1 hi with rfl | hi2
    · exact ⟨v, hext _ _ hv⟩
    · exact hdecl i hi2

theorem foldl_declareOutput_inv (pis : List String) (n0 : Nat) (g0 : VarMap)
    (cl0 : List Clause) (done : List Gate) (outs : List String) (st : EncState)
    (hp : ∀ o ∈ outs, o ∉ pis) (I : Inv pis n0 g0 cl0 done st) :
    Inv pis n0 g0 cl0 done (outs.foldl declareOutput st) ∧
    MapExt st.varMap (outs.foldl declareOutput st).varMap ∧
    ∀ o ∈ outs, ∃ v, mapFind (outs.foldl declareOutput st).varMap o = some v := by
  induction outs generalizing st with
  | nil => exact ⟨I, MapExt_refl _, fun i hi => by cases hi⟩
  | cons a outs ih =>
    obtain ⟨hstep, v, hv⟩ := declareOutput_step pis st a (hp a (List.mem_cons_self _ _))
    have h1 : Inv pis n0 g0 cl0 done (declareOutput st a) ∧
        MapExt st.varMap (declareOutput st a).varMap := by
      rcases hstep with e | hs
      · rw [e]
        exact ⟨I, MapExt_refl _⟩
      · exact step_inv _ _ _ _ _ _ _ hs I
    obtain ⟨I2, hext, hdecl⟩ := ih (declareOutput st a)
      (fun o ho => hp o (List.mem_cons_of_mem _ ho)) h1.1
    refine ⟨I2, MapExt_trans _ _ _ h1.2 hext, ?_⟩
    intro i hi
    rcases List.mem_cons.1 hi with rfl | hi2
    · exact ⟨v, hext _ _ hv⟩
    · exact hdecl i hi2

theorem declarePorts_inv (pis : List String) (n0 : Nat) (g0 : VarMap)
    (cl0 : List Clause) (done : List Gate) (g : Gate) (st : EncState)
    (hp : ∀ o ∈ g.outputs, o ∉ pis) (I : Inv pis n0 g0 cl0 done st) :
    Inv pis n0 g0 cl0 done (declarePorts pis st g) ∧
    MapExt st.varMap (declarePorts pis st g).varMap ∧
    Declared (declarePorts pis st g).varMap g := by
  obtain ⟨I1, e1, d1⟩ := foldl_declareInput_inv pis n0 g0 cl0 done g.inputs st I
  obtain ⟨I2, e2, d2⟩ := foldl_declareOutput_inv pis n0 g0 cl0 done g.outputs _ hp I1
  refine ⟨I2, MapExt_trans _ _ _ e1 e2, ?_⟩
  rintro n (hn | hn)
  · obtain ⟨v, hv⟩ := d1 n hn
    exact ⟨v, e2 _ _ hv⟩
  · exact d2 n hn

/-! ## Encoding a supported gate -/

theorem SupportedGate_inputs (g : Gate) (hs : SupportedGate g) : 1 ≤ g.inputs.length := by
  obtain ⟨_, h⟩ := hs
  cases hc : classify g.gateType <;> simp only [hc] at h <;> omega

theorem all_map_eval (σ : Var → Bool) (m : VarMap) (ins : List String) :
    (ins.map (mapGet m)).all σ = (ins.map (fun i => σ (mapGet m i))).all id := by
  induction ins with
  | nil => rfl
  | cons a l ih => simp [ih]

theorem any_map_eval (σ : Var → Bool) (m : VarMap) (ins : List String) :
    (ins.map (mapGet m)).any σ = (ins.map (fun i => σ (mapGet m i))).any id := by
  induction ins with
  | nil => rfl
  | cons a l ih => simp [ih]

/-- For a supported gate the emitted clauses exist and are equivalent to the truth
table of the gate, read through the variable map. -/
theorem encodeGate_supported (g : Gate) (hs : SupportedGate g) (m : VarMap) (o : String)
    (ho : g.outputs.head? = some o) :
    ∃ cls, encodeGate g.gateType (g.inputs.map (mapGet m)) (mapGet m o) = some cls ∧
      ∀ σ : Var → Bool, cnfTrue σ cls = true ↔ GateOK σ m g := by
  have hG : ∀ σ : Var → Bool, GateOK σ m g ↔
      σ (mapGet m o) = gateValue g.gateType (g.inputs.map (fun i => σ (mapGet m i))) := by
    intro σ
    constructor
    · intro h
      exact h o ho
    · intro h o2 ho2
      rw [ho] at ho2
      cases ho2
      exact h
  obtain ⟨_, h⟩ := hs
  cases hc : classify g.gateType <;> simp only [hc] at h
  · obtain ⟨i, hi⟩ := List.length_eq_one.1 h
    refine ⟨_, by simp only [encodeGate, hc, hi, List.map]; rfl, fun σ => ?_⟩
    rw [hG, buffer_clauses_iff]
    simp [gateValue, hc, hi]
  · obtain ⟨i, hi⟩ := List.length_eq_one.1 h
    refine ⟨_, by simp only [encodeGate, hc, hi, List.map]; rfl, fun σ => ?_⟩
    rw [hG, inverter_clauses_iff]
    simp [gateValue, hc, hi]
  · refine ⟨_, by simp only [encodeGate, hc]; rfl, fun σ => ?_⟩
    rw [hG, nor_clauses_iff, any_map_eval]
    simp [gateValue, hc]
  · refine ⟨_, by simp only [encodeGate, hc]; rfl, fun σ => ?_⟩
    rw [hG, or_clauses_iff, any_map_eval]
    simp [gateValue, hc]
  · refine ⟨_, by simp only [encodeGate, hc]; rfl, fun σ => ?_⟩
    rw [hG, nand_clauses_iff, all_map_eval]
    simp [gateValue, hc]
  · refine ⟨_, by simp only [encodeGate, hc]; rfl, fun σ => ?_⟩
    rw [hG, and_clauses_iff, all_map_eval]
    simp [gateValue, hc]
  · obtain ⟨a, b, hi⟩ := List.length_eq_two.1 h
    refine ⟨_, by simp only [encodeGate, hc, hi, List.map]; rfl, fun σ => ?_⟩
    rw [hG, xor_clauses_iff]
    simp [gateValue, hc, hi]

theorem Inv_congr (pis : List String) (n0 : Nat) (g0 : VarMap) (cl0 : List Clause)
    (done done2 : List Gate) (st : EncState) (h : ∀ g, g ∈ done2 ↔ g ∈ done)
    (I : Inv pis n0 g0 cl0 done st) : Inv pis n0 g0 cl0 done2 st := by
  refine ⟨I.n0_le, I.var_lt, I.gvar_lt, I.inj, I.ginj, I.pi_shared, I.g_sep, I.gkeys, I.g_mono,
    I.g_old, I.old_var, fun g hg => I.declared g ((h g).1 hg), fun σ => ?_, I.gconst⟩
  rw [I.sem σ]
  have : (∀ g ∈ done2, GateOK σ st.varMap g) ↔ ∀ g ∈ done, GateOK σ st.varMap g :=
    ⟨fun a g hg => a g ((h g).2 hg), fun a g hg => a g ((h g).1 hg)⟩
  rw [this]

theorem processGate_inv (pis : List String) (n0 : Nat) (g0 : VarMap) (cl0 : List Clause)
    (done : List Gate) (g : Gate) (st : EncState) (hs : SupportedGate g)
    (hp : ∀ o ∈ g.outputs, o ∉ pis) (I : Inv pis n0 g0 cl0 done st) :
    ∃ st2, processGate pis st g = some st2 ∧ Inv pis n0 g0 cl0 (g :: done) st2 ∧
      MapExt st.varMap st2.varMap := by
  obtain ⟨o, hout⟩ := List.length_eq_one.1 hs.1
  obtain ⟨i, is, hin⟩ : ∃ i is, g.inputs = i :: is := by
    have := SupportedGate_inputs g hs
    cases h : g.inputs with
    | nil => simp [h] at this
    | cons i is => exact ⟨i, is, rfl⟩
  obtain ⟨I2, hext, hdecl⟩ := declarePorts_inv pis n0 g0 cl0 done g st hp I
  obtain ⟨cls, hcls, hsem⟩ := encodeGate_supported g hs (declarePorts pis st g).varMap o
    (by simp [hout])
  refine ⟨{ declarePorts pis st g with
    solver := (declarePorts pis st g).solver.addClauses cls }, ?_, ?_, hext⟩
  · rw [processGate_cons pis st g i is o [] hin hout, hcls]
    rfl
  · refine ⟨?_, ?_, ?_, I2.inj, I2.ginj, I2.pi_shared, I2.g_sep, I2.gkeys, I2.g_mono,
      I2.g_old, I2.old_var, ?_, ?_, ?_⟩
    · simpa [addClauses_nVars] using I2.n0_le
    · simpa [addClauses_nVars] using I2.var_lt
    · simpa [addClauses_nVars] using I2.gvar_lt
    · intro g2 hg2
      rcases List.mem_cons.1 hg2 with rfl | h2
      · exact hdecl
      · exact I2.declared g2 h2
    · intro σ
      simp only [addClauses_clauses, cnfTrue_append, Bool.and_eq_true, I2.sem σ, hsem σ,
        List.forall_mem_cons]
      tauto
    · intro σ hσ
      simp only [addClauses_clauses, cnfTrue_append, Bool.and_eq_true] at hσ
      exact I2.gconst σ hσ.1

theorem encodeGates_inv (pis : List String) (n0 : Nat) (g0 : VarMap) (cl0 : List Clause)
    (gs : List Gate) (done : List Gate) (st : EncState)
    (hs : ∀ g ∈ gs, SupportedGate g) (hp : ∀ g ∈ gs, ∀ o ∈ g.outputs, o ∉ pis)
    (I : Inv pis n0 g0 cl0 done st) :
    ∃ st2, encodeGates pis st gs = some st2 ∧ Inv pis n0 g0 cl0 (gs.reverse ++ done) st2 ∧
      MapExt st.varMap st2.varMap := by
  induction gs generalizing done st with
  | nil => exact ⟨st, rfl, I, MapExt_refl _⟩
  | cons g gs ih =>
    obtain ⟨st1, h1, I1, e1⟩ := processGate_inv pis n0 g0 cl0 done g st
      (hs g (List.mem_cons_self _ _)) (hp g (List.mem_cons_self _ _)) I
    obtain ⟨st2, h2, I2, e2⟩ := ih (g :: done) st1
      (fun x hx => hs x (List.mem_cons_of_mem _ hx))
      (fun x hx => hp x (List.mem_cons_of_mem _ hx)) I1
    refine ⟨st2, ?_, ?_, MapExt_trans _ _ _ e1 e2⟩
    · simp only [encodeGates, h1, h2]
    · simpa using I2

theorem Inv_start (pis : List String) (s : Solver) (g : VarMap)
    (hlt : ∀ n v, mapFind g n = some v → v < s.nVars)
    (hinj : ∀ n1 n2 v, mapFind g n1 = some v → mapFind g n2 = some v → n1 = n2)
    (hkeys : ∀ n v, mapFind g n = some v → n ∈ pis)
    (hconst : ∀ σ : Var → Bool, cnfTrue σ s.clauses = true → ConstOK σ g) :
    Inv pis s.nVars g s.clauses [] ⟨s, [], g⟩ := by
  refine ⟨Nat.le_refl _, ?_, hlt, ?_, hinj, ?_, ?_, hkeys, MapExt_refl _, fun n v h _ => h,
    ?_, ?_, ?_, hconst⟩
  · intro n v h
    simp [mapFind] at h
  · intro n1 n2 v h
    simp [mapFind] at h
  · intro n v _ h
    simp [mapFind] at h
  · intro n n2 v _ h
    simp [mapFind] at h
  · intro n v h
    simp [mapFind] at h
  · intro g hg
    cases hg
  · intro σ
    simp [ConstOK, mapFind]

/-! ## Gate evaluation of an acyclic netlist -/

theorem filter_length_le {α : Type} (l : List α) (p q : α → Bool)
    (h : ∀ x ∈ l, p x = true → q x = true) : (l.filter p).length ≤ (l.filter q).length := by
  induction l with
  | nil => simp
  | cons a l ih =>
    have ih2 := ih (fun x hx => h x (List.mem_cons_of_mem _ hx))
    have ha := h a (List.mem_cons_self _ _)
    cases hp : p a
    · cases hq : q a
      · simpa [List.filter, hp, hq] using ih2
      · simp only [List.filter, hp, hq, List.length_cons]
        omega
    · simp only [List.filter, hp, ha hp, List.length_cons]
      omega

theorem filter_length_lt {α : Type} (l : List α) (p q : α → Bool)
    (h : ∀ x ∈ l, p x = true → q x = true) (hx : ∃ x ∈ l, q x = true ∧ p x = false) :
    (l.filter p).length < (l.filter q).length := by
  induction l with
  | nil =>
    obtain ⟨x, hx, _⟩ := hx
    cases hx
  | cons a l ih =>
    have hle := filter_length_le l p q (fun x hx => h x (List.mem_cons_of_mem _ hx))
    have ha := h a (List.mem_cons_self _ _)
    obtain ⟨x, hxm, hq, hp⟩ := hx
    rcases List.mem_cons.1 hxm with rfl | hxl
    · simp only [List.filter, hp, hq, List.length_cons]
      omega
    · have ih2 := ih (fun x hx => h x (List.mem_cons_of_mem _ hx)) ⟨x, hxl, hq, hp⟩
      cases hpa : p a
      · cases hqa : q a
        · simpa [List.filter, hpa, hqa] using ih2
        · simp only [List.filter, hpa, hqa, List.length_cons]
          omega
      · simp only [List.filter, hpa, ha hpa, List.length_cons]
        omega

theorem level_le (rank : String → Nat) (gates : List Gate) (n : String) :
    level rank gates n ≤ gates.length := List.length_filter_le _ _

theorem level_lt (rank : String → Nat) (gates : List Gate)
    (hr : ∀ g ∈ gates, ∀ i ∈ g.inputs, ∀ o ∈ g.outputs, rank i < rank o)
    (g : Gate) (hg : g ∈ gates) (i : String) (hi : i ∈ g.inputs) (o : String)
    (ho : o ∈ g.outputs) : level rank gates i < level rank gates o := by
  have hio := hr g hg i hi o ho
  apply filter_length_lt
  · intro x _ hx
    simp only [List.any_eq_true, decide_eq_true_eq] at hx ⊢
    obtain ⟨o2, ho2, hle⟩ := hx
    exact ⟨o2, ho2, by omega⟩
  · refine ⟨g, hg, ?_, ?_⟩
    · simp only [List.any_eq_true, decide_eq_true_eq]
      exact ⟨o, ho, Nat.le_refl _⟩
    · rw [Bool.eq_false_iff]
      intro hx
      simp only [List.any_eq_true, decide_eq_true_eq] at hx
      obtain ⟨o2, ho2, hle⟩ := hx
      have := hr g hg i hi o2 ho2
      omega

theorem driver_some (gates : List Gate) (n : String) (g : Gate)
    (h : driver gates n = some g) : g ∈ gates ∧ g.outputs.head? = some n := by
  unfold driver at h
  refine ⟨List.mem_of_find?_eq_some h, ?_⟩
  have := List.find?_some h
  simpa using this

theorem driver_exists (gates : List Gate) (n : String) (g : Gate) (hg : g ∈ gates)
    (ho : g.outputs.head? = some n) : ∃ g2, driver gates n = some g2 := by
  unfold driver
  cases h : gates.find? (fun g => decide (g.outputs.head? = some n)) with
  | some g2 => exact ⟨g2, rfl⟩
  | none =>
    rw [List.find?_eq_none] at h
    have := h g hg
    simp [ho] at this

theorem evalNet_stable (gates : List Gate) (pis : List String) (pi : String → Bool)
    (lvl : String → Nat)
    (hl : ∀ g ∈ gates, ∀ i ∈ g.inputs, ∀ o ∈ g.outputs, lvl i < lvl o)
    (f1 : Nat) : ∀ (f2 : Nat) (n : String), lvl n < f1 → lvl n < f2 →
      evalNet gates pis pi f1 n = evalNet gates pis pi f2 n := by
  induction f1 with
  | zero => intro f2 n h; omega
  | succ k ih =>
    intro f2 n h1 h2
    cases f2 with
    | zero => omega
    | succ j =>
      simp only [evalNet]
      by_cases e1 : n = "VDD"
      · simp [e1]
      · by_cases e2 : n = "VSS"
        · simp [e2]
        · by_cases e3 : n ∈ pis
          · simp [e1, e2, e3]
          · simp only [e1, e2, e3, if_false]
            cases hd : driver gates n with
            | none => rfl
            | some g =>
              obtain ⟨hg, ho⟩ := driver_some gates n g hd
              have hn : n ∈ g.outputs := List.mem_of_mem_head? ho
              simp only
              congr 1
              apply List.map_congr_left
              intro i hi
              have := hl g hg i hi n hn
              exact ih j i (by omega) (by omega)

theorem single_driver_unique (gates : List Gate)
    (h : (gates.flatMap Gate.outputs).Nodup) (a b : Gate) (ha : a ∈ gates) (hb : b ∈ gates)
    (x : String) (hxa : x ∈ a.outputs) (hxb : x ∈ b.outputs) : a = b := by
  induction gates with
  | nil => cases ha
  | cons c l ih =>
    simp only [List.flatMap_cons, List.nodup_append] at h
    obtain ⟨_, hl, hdisj⟩ := h
    rcases List.mem_cons.1 ha with rfl | ha2
    · rcases List.mem_cons.1 hb with rfl | hb2
      · rfl
      · exact absurd (List.mem_flatMap.2 ⟨b, hb2, hxb⟩) (fun hm => hdisj hxa hm)
    · rcases List.mem_cons.1 hb with rfl | hb2
      · exact absurd (List.mem_flatMap.2 ⟨a, ha2, hxa⟩) (fun hm => hdisj hxb hm)
      · exact ih hl ha2 hb2

/-- In a combinational netlist the nets can be levelled below the number of gates. -/
theorem exists_level (cell : Cell) (pis pos : List String) (h : Combinational cell pis pos) :
    ∃ lvl : String → Nat,
      (∀ g ∈ cell.instances, ∀ i ∈ g.inputs, ∀ o ∈ g.outputs, lvl i < lvl o) ∧
      ∀ n, lvl n ≤ cell.instances.length := by
  obtain ⟨rank, hr⟩ := h.acyclic
  exact ⟨level rank cell.instances, fun g hg i hi o ho => level_lt rank _ hr g hg i hi o ho,
    fun n => level_le rank _ n⟩

/-- Gate evaluation of a combinational netlist respects every gate. -/
theorem circuitValue_consistent (cell : Cell) (pis pos : List String) (pi : String → Bool)
    (h : Combinational cell pis pos) :
    Consistent cell.instances pis pi (circuitValue cell pis pi) := by
  obtain ⟨lvl, hl, hb⟩ := exists_level cell pis pos h
  refine ⟨by simp [circuitValue, evalNet], by simp [circuitValue, evalNet], ?_, ?_⟩
  · intro n hn h1 h2
    simp [circuitValue, evalNet, h1, h2, hn]
  · intro g hg o ho
    have hom : o ∈ g.outputs := List.mem_of_mem_head? ho
    obtain ⟨h1, h2, h3⟩ := h.outputs_internal g hg o hom
    obtain ⟨g2, hd⟩ := driver_exists cell.instances o g hg ho
    obtain ⟨hg2, ho2⟩ := driver_some _ _ _ hd
    have e : g2 = g := single_driver_unique _ h.single_driver g2 g hg2 hg o
      (List.mem_of_mem_head? ho2) hom
    subst e
    simp only [circuitValue, evalNet, h1, h2, h3, if_false, hd]
    congr 1
    apply List.map_congr_left
    intro i hi
    have := hl g2 hg i hi o hom
    have := hb o
    exact evalNet_stable _ pis pi lvl hl _ _ i (by omega) (by omega)

theorem consistent_unique_aux (cell : Cell) (pis pos : List String) (pi : String → Bool)
    (h : Combinational cell pis pos) (val : String → Bool)
    (hc : Consistent cell.instances pis pi val) (lvl : String → Nat)
    (hl : ∀ g ∈ cell.instances, ∀ i ∈ g.inputs, ∀ o ∈ g.outputs, lvl i < lvl o)
    (f : Nat) : ∀ n : String, lvl n < f → Determined cell.instances pis n →
      val n = evalNet cell.instances pis pi f n := by
  induction f with
  | zero => intro n hn; omega
  | succ k ih =>
    intro n hn hdet
    simp only [evalNet]
    by_cases e1 : n = "VDD"
    · simp [e1, hc.1]
    · by_cases e2 : n = "VSS"
      · simp [e2, hc.2.1]
      · by_cases e3 : n ∈ pis
        · simp [e1, e2, e3, hc.2.2.1 n e3 e1 e2]
        · simp only [e1, e2, e3, if_false]
          obtain ⟨g, hg, hng⟩ : ∃ g ∈ cell.instances, n ∈ g.outputs := by
            rcases hdet with a | a | a | a
            · exact absurd a e3
            · exact absurd a e1
            · exact absurd a e2
            · exact a
          have hhead : g.outputs.head? = some n := by
            obtain ⟨o, ho⟩ := List.length_eq_one.1 (h.supported g hg).1
            rw [ho] at hng ⊢
            simp only [List.mem_singleton] at hng
            simp [hng]
          obtain ⟨g2, hd⟩ := driver_exists cell.instances n g hg hhead
          obtain ⟨hg2, ho2⟩ := driver_some _ _ _ hd
          rw [hd]
          simp only
          rw [hc.2.2.2 g2 hg2 n ho2]
          congr 1
          apply List.map_congr_left
          intro i hi
          have := hl g2 hg2 i hi n (List.mem_of_mem_head? ho2)
          apply ih i (by omega)
          rcases h.inputs_driven g2 hg2 i hi with a | a | a | a
          · exact Or.inl a
          · exact Or.inr (Or.inl a)
          · exact Or.inr (Or.inr (Or.inl a))
          · exact Or.inr (Or.inr (Or.inr a))

/-- Every valuation that respects the gates, the constants and the primary inputs
agrees with gate evaluation on every gate output. -/
theorem consistent_unique (cell : Cell) (pis pos : List String) (pi : String → Bool)
    (h : Combinational cell pis pos) (val : String → Bool)
    (hc : Consistent cell.instances pis pi val) (n : String)
    (hn : ∃ g ∈ cell.instances, n ∈ g.outputs) : val n = circuitValue cell pis pi n := by
  obtain ⟨lvl, hl, hb⟩ := exists_level cell pis pos h
  have := hb n
  exact consistent_unique_aux cell pis pos pi h val hc lvl hl _ n (by omega)
    (Or.inr (Or.inr (Or.inr hn)))

/-! ## Assignments and valuations -/

theorem mapFind_mem_keys (m : VarMap) (n : String) (v : Var) (h : mapFind m n = some v) :
    n ∈ m.map Prod.fst := by
  induction m with
  | nil => simp [mapFind] at h
  | cons p m ih =>
    obtain ⟨k, w⟩ := p
    by_cases e : k = n
    · simp [e]
    · simp only [mapFind, e, if_false] at h
      simp [ih h]

theorem revFind_some (m : VarMap) (v : Var) (n : String) (h : revFind m v = some n) :
    mapFind m n = some v := by
  unfold revFind at h
  simpa using List.find?_some h

theorem revFind_of_mapFind (m : VarMap) (v : Var) (n : String)
    (hinj : ∀ n1 n2 v, mapFind m n1 = some v → mapFind m n2 = some v → n1 = n2)
    (h : mapFind m n = some v) : revFind m v = some n := by
  cases hr : revFind m v with
  | some k => rw [hinj k n v (revFind_some m v k hr) h]
  | none =>
    unfold revFind at hr
    rw [List.find?_eq_none] at hr
    have := hr n (mapFind_mem_keys m n v h)
    simp [h] at this

theorem revFind_none (m : VarMap) (v : Var) (h : revFind m v = none) (n : String) :
    mapFind m n ≠ some v := by
  intro hn
  unfold revFind at h
  rw [List.find?_eq_none] at h
  have := h n (mapFind_mem_keys m n v hn)
  simp [hn] at this

theorem mapGet_of_find (m : VarMap) (n : String) (v : Var) (h : mapFind m n = some v) :
    mapGet m n = v := by
  simp [mapGet, h]

theorem GateOK_of_agrees (σ : Var → Bool) (m : VarMap) (val : String → Bool) (g : Gate)
    (ha : Agrees σ m val) (hd : Declared m g) :
    GateOK σ m g ↔
      ∀ o, g.outputs.head? = some o → val o = gateValue g.gateType (g.inputs.map val) := by
  have hin : g.inputs.map (fun i => σ (mapGet m i)) = g.inputs.map val := by
    apply List.map_congr_left
    intro i hi
    obtain ⟨v, hv⟩ := hd i (Or.inl hi)
    rw [mapGet_of_find m i v hv]
    exact ha i v hv
  unfold GateOK
  rw [hin]
  constructor
  · intro h o ho
    obtain ⟨v, hv⟩ := hd o (Or.inr (List.mem_of_mem_head? ho))
    rw [← ha o v hv, ← mapGet_of_find m o v hv]
    exact h o ho
  · intro h o ho
    obtain ⟨v, hv⟩ := hd o (Or.inr (List.mem_of_mem_head? ho))
    rw [mapGet_of_find m o v hv, ha o v hv]
    exact h o ho

theorem valOf_agrees (σ : Var → Bool) (m : VarMap) (pi : String → Bool) :
    Agrees σ m (valOf σ m pi) := by
  intro n v h
  simp [valOf, h]

/-- The valuation induced by a model of the clauses of a pass respects the netlist. -/
theorem valOf_consistent (σ : Var → Bool) (m : VarMap) (pi : String → Bool)
    (gates : List Gate) (pis : List String)
    (hd : ∀ g ∈ gates, Declared m g) (hg : ∀ g ∈ gates, GateOK σ m g) (hc : ConstOK σ m)
    (hpi : ∀ n v, n ∈ pis → mapFind m n = some v → pi n = σ v) :
    Consistent gates pis pi (valOf σ m pi) := by
  refine ⟨?_, ?_, ?_, ?_⟩
  · cases h : mapFind m "VDD" with
    | none => simp [valOf, h]
    | some v => simp [valOf, h, hc.1 v h]
  · cases h : mapFind m "VSS" with
    | none => simp [valOf, h]
    | some v => simp [valOf, h, hc.2 v h]
  · intro n hn h1 h2
    cases h : mapFind m n with
    | none => simp [valOf, h, h1, h2]
    | some v => simp [valOf, h, hpi n v hn h]
  · intro g hgm
    exact (GateOK_of_agrees σ m _ g (valOf_agrees σ m pi) (hd g hgm)).1 (hg g hgm)

theorem ConstOK_of_agrees (σ : Var → Bool) (m : VarMap) (val : String → Bool)
    (ha : Agrees σ m val) (h1 : val "VDD" = true) (h2 : val "VSS" = false) : ConstOK σ m :=
  ⟨fun v hv => by rw [ha _ v hv, h1], fun v hv => by rw [ha _ v hv, h2]⟩

theorem circuitValue_pi (cell : Cell) (pis : List String) (pi : String → Bool) (n : String)
    (hn : n ∈ pis) :
    circuitValue cell pis pi n =
      if n = "VDD" then true else if n = "VSS" then false else pi n := by
  simp [circuitValue, evalNet, hn]

/-! ## The combined instance of two combinational netlists -/

theorem generateCNF_inv (cell : Cell) (pis pos : List String) (s : Solver) (g : VarMap)
    (hC : Combinational cell pis pos)
    (hlt : ∀ n v, mapFind g n = some v → v < s.nVars)
    (hinj : ∀ n1 n2 v, mapFind g n1 = some v → mapFind g n2 = some v → n1 = n2)
    (hkeys : ∀ n v, mapFind g n = some v → n ∈ pis)
    (hconst : ∀ σ : Var → Bool, cnfTrue σ s.clauses = true → ConstOK σ g) :
    ∃ st2, generateCNF cell s [] pis g = some st2 ∧
      Inv pis s.nVars g s.clauses cell.instances st2 := by
  obtain ⟨st2, h2, I2, _⟩ := encodeGates_inv pis s.nVars g s.clauses cell.instances []
    ⟨s, [], g⟩ hC.supported (fun x hx o ho => (hC.outputs_internal x hx o ho).1)
    (Inv_start pis s g hlt hinj hkeys hconst)
  exact ⟨st2, h2, Inv_congr _ _ _ _ _ _ _ (by simp) I2⟩

theorem encodeBoth_inv (spec imp : Cell) (pis posS posI : List String)
    (hS : Combinational spec pis posS) (hI : Combinational imp pis posI) :
    ∃ st1 st2 : EncState,
      encodeBoth spec imp pis =
        some (st2.solver, st1.varMap, st2.varMap, st2.globalInputMap) ∧
      Inv pis 0 [] [] spec.instances st1 ∧
      Inv pis st1.solver.nVars st1.globalInputMap st1.solver.clauses imp.instances st2 := by
  obtain ⟨st1, h1, I1⟩ := generateCNF_inv spec pis posS Solver.empty [] hS
    (fun n v h => by simp [mapFind] at h) (fun n1 n2 v h => by simp [mapFind] at h)
    (fun n v h => by simp [mapFind] at h) (fun σ _ => by simp [ConstOK, mapFind])
  obtain ⟨st2, h2, I2⟩ := generateCNF_inv imp pis posI st1.solver st1.globalInputMap hI
    I1.gvar_lt I1.ginj I1.gkeys I1.gconst
  refine ⟨st1, st2, ?_, I1, I2⟩
  simp only [encodeBoth, h1, h2]

theorem alignedPairs_same (mS mI : VarMap) (os : List String)
    (h : ∀ o ∈ os, (∃ s, mapFind mS o = some s) ∧ ∃ t, mapFind mI o = some t) :
    alignedPairs mS mI os os = some (os.map (fun o => (mapGet mS o, mapGet mI o))) := by
  induction os with
  | nil => rfl
  | cons o os ih =>
    obtain ⟨⟨a, ha⟩, b, hb⟩ := h o (List.mem_cons_self _ _)
    simp only [alignedPairs, ha, hb, ih (fun x hx => h x (List.mem_cons_of_mem _ hx)),
      Option.map_some', List.map_cons, mapGet, Option.getD_some]

theorem miter_sem (σ : Var → Bool) (d : Nat) (ps : List (Var × Var)) :
    cnfTrue σ (pairClauses d ps ++ [(List.range' d ps.length).map mkLit]) = true ↔
      (∀ (i : Nat) (s t : Var), ps[i]? = some (s, t) → σ (d + i) = xor (σ s) (σ t)) ∧
      ∃ (i : Nat) (s t : Var), ps[i]? = some (s, t) ∧ σ s ≠ σ t := by
  simp only [cnfTrue_append, cnfTrue_cons, cnfTrue_nil, Bool.and_true, Bool.and_eq_true,
    pairClauses_iff, diffClause_iff]
  constructor
  · rintro ⟨hx, i, hi, hd⟩
    refine ⟨hx, ?_⟩
    obtain ⟨⟨a, b⟩, hab⟩ : ∃ p, ps[i]? = some p := ⟨ps[i], List.getElem?_eq_getElem hi⟩
    refine ⟨i, a, b, hab, ?_⟩
    have := hx i a b hab
    rw [hd] at this
    intro e
    rw [e] at this
    simp at this
  · rintro ⟨hx, i, a, b, hab, hne⟩
    refine ⟨hx, i, ?_, ?_⟩
    · exact (List.getElem?_eq_some_iff.1 hab).1
    · rw [hx i a b hab]
      cases h1 : σ a <;> cases h2 : σ b <;> simp_all

/-- The primary outputs of a combinational netlist have variables after its pass. -/
theorem outputs_declared (cell : Cell) (pis pos : List String) (hC : Combinational cell pis pos)
    (m : VarMap) (hd : ∀ g ∈ cell.instances, Declared m g) (o : String) (ho : o ∈ pos) :
    ∃ v, mapFind m o = some v := by
  obtain ⟨g, hg, hog⟩ := hC.outputs_driven o ho
  exact hd g hg o (Or.inr hog)

theorem pairs_getElem (mS mI : VarMap) (pos : List String) (i : Nat) (s t : Var)
    (h : (pos.map (fun o => (mapGet mS o, mapGet mI o)))[i]? = some (s, t)) :
    ∃ o, o ∈ pos ∧ pos[i]? = some o ∧ s = mapGet mS o ∧ t = mapGet mI o := by
  rw [List.getElem?_map] at h
  cases ho : pos[i]? with
  | none => simp [ho] at h
  | some o =>
    simp only [ho, Option.map_some', Option.some.injEq, Prod.mk.injEq] at h
    obtain ⟨hi, he⟩ := List.getElem?_eq_some_iff.1 ho
    exact ⟨o, he ▸ List.getElem_mem hi, rfl, h.1.symm, h.2.symm⟩

/-- Soundness of a reported difference: a model of the combined instance, read on the
primary-input variables, makes the two circuits differ on some primary output. -/
theorem model_gives_difference (spec imp : Cell) (pis pos : List String)
    (hS : Combinational spec pis pos) (hI : Combinational imp pis pos)
    (st1 st2 : EncState) (I1 : Inv pis 0 [] [] spec.instances st1)
    (I2 : Inv pis st1.solver.nVars st1.globalInputMap st1.solver.clauses imp.instances st2)
    (σ : Var → Bool)
    (hσ : cnfTrue σ (st2.solver.clauses ++
      pairClauses st2.solver.nVars (pos.map (fun o => (mapGet st1.varMap o, mapGet st2.varMap o)))
      ++ [(List.range' st2.solver.nVars
        (pos.map (fun o => (mapGet st1.varMap o, mapGet st2.varMap o))).length).map mkLit])
      = true)
    (pi : String → Bool) (hpi : ∀ n v, mapFind st2.globalInputMap n = some v → pi n = σ v) :
    ∃ o ∈ pos, circuitValue spec pis pi o ≠ circuitValue imp pis pi o := by
  rw [List.append_assoc, cnfTrue_append, Bool.and_eq_true] at hσ
  obtain ⟨h2, hm⟩ := hσ
  obtain ⟨h1, hgI, hcI⟩ := (I2.sem σ).1 h2
  obtain ⟨_, hgS, hcS⟩ := (I1.sem σ).1 h1
  have consS := valOf_consistent σ st1.varMap pi spec.instances pis I1.declared hgS hcS
    (fun n v hn h => hpi n v (I2.g_mono n v (I1.pi_shared n v hn h)))
  have consI := valOf_consistent σ st2.varMap pi imp.instances pis I2.declared hgI hcI
    (fun n v hn h => hpi n v (I2.pi_shared n v hn h))
  obtain ⟨_, i, s, t, hi, hne⟩ := (miter_sem σ _ _).1 hm
  obtain ⟨o, ho, _, rfl, rfl⟩ := pairs_getElem _ _ _ _ _ _ hi
  refine ⟨o, ho, ?_⟩
  rw [← consistent_unique spec pis pos pi hS _ consS o (hS.outputs_driven o ho),
    ← consistent_unique imp pis pos pi hI _ consI o (hI.outputs_driven o ho)]
  obtain ⟨a, ha⟩ := outputs_declared spec pis pos hS _ I1.declared o ho
  obtain ⟨b, hb⟩ := outputs_declared imp pis pos hI _ I2.declared o ho
  simpa [valOf, mapGet, ha, hb] using hne

/-- Completeness: primary-input values on which the circuits differ on some primary
output extend to a model of the combined instance. -/
theorem difference_gives_model (spec imp : Cell) (pis pos : List String)
    (hS : Combinational spec pis pos) (hI : Combinational imp pis pos)
    (st1 st2 : EncState) (I1 : Inv pis 0 [] [] spec.instances st1)
    (I2 : Inv pis st1.solver.nVars st1.globalInputMap st1.solver.clauses imp.instances st2)
    (pi : String → Bool) (o : String) (ho : o ∈ pos)
    (hne : circuitValue spec pis pi o ≠ circuitValue imp pis pi o) :
    Satisfiable (st2.solver.clauses ++
      pairClauses st2.solver.nVars (pos.map (fun o => (mapGet st1.varMap o, mapGet st2.varMap o)))
      ++ [(List.range' st2.solver.nVars
        (pos.map (fun o => (mapGet st1.varMap o, mapGet st2.varMap o))).length).map mkLit]) := by
  have consS := circuitValue_consistent spec pis pos pi hS
  have consI := circuitValue_consistent imp pis pos pi hI
  have hbS : Agrees (baseModel st1.varMap st2.varMap (circuitValue spec pis pi)
      (circuitValue imp pis pi)) st1.varMap (circuitValue spec pis pi) := by
    intro n v h
    simp [baseModel, revFind_of_mapFind _ _ _ I1.inj h]
  have hbI : Agrees (baseModel st1.varMap st2.varMap (circuitValue spec pis pi)
      (circuitValue imp pis pi)) st2.varMap (circuitValue imp pis pi) := by
    intro n v h
    cases hr : revFind st1.varMap v with
    | some k =>
      have hk := revFind_some _ _ _ hr
      have hg := I2.old_var n v h (I1.var_lt k v hk)
      have e : k = n := I1.g_sep n k v hg hk
      subst e
      have hp := I1.gkeys k v hg
      simp [baseModel, hr, circuitValue_pi, hp]
    | none => simp [baseModel, hr, revFind_of_mapFind _ _ _ I2.inj h]
  have hσS : Agrees (miterModel st2.solver.nVars
      (pos.map (fun o => (mapGet st1.varMap o, mapGet st2.varMap o)))
      (baseModel st1.varMap st2.varMap (circuitValue spec pis pi) (circuitValue imp pis pi)))
      st1.varMap (circuitValue spec pis pi) := by
    intro n v h
    have : v < st2.solver.nVars := Nat.lt_of_lt_of_le (I1.var_lt n v h) I2.n0_le
    simp only [miterModel, this, if_true]
    exact hbS n v h
  have hσI : Agrees (miterModel st2.solver.nVars
      (pos.map (fun o => (mapGet st1.varMap o, mapGet st2.varMap o)))
      (baseModel st1.varMap st2.varMap (circuitValue spec pis pi) (circuitValue imp pis pi)))
      st2.varMap (circuitValue imp pis pi) := by
    intro n v h
    have : v < st2.solver.nVars := I2.var_lt n v h
    simp only [miterModel, this, if_true]
    exact hbI n v h
  refine ⟨miterModel st2.solver.nVars
      (pos.map (fun o => (mapGet st1.varMap o, mapGet st2.varMap o)))
      (baseModel st1.varMap st2.varMap (circuitValue spec pis pi) (circuitValue imp pis pi)),
    ?_⟩
  rw [List.append_assoc, cnfTrue_append, Bool.and_eq_true]
  refine ⟨(I2.sem _).2 ⟨(I1.sem _).2 ⟨rfl, ?_, ?_⟩, ?_, ?_⟩, (miter_sem _ _ _).2 ⟨?_, ?_⟩⟩
  · intro g hg
    exact (GateOK_of_agrees _ _ _ g hσS (I1.declared g hg)).2 (consS.2.2.2 g hg)
  · exact ConstOK_of_agrees _ _ _ hσS consS.1 consS.2.1
  · intro g hg
    exact (GateOK_of_agrees _ _ _ g hσI (I2.declared g hg)).2 (consI.2.2.2 g hg)
  · exact ConstOK_of_agrees _ _ _ hσI consI.1 consI.2.1
  · intro i s t hi
    obtain ⟨o2, ho2, _, rfl, rfl⟩ := pairs_getElem _ _ _ _ _ _ hi
    obtain ⟨a, ha⟩ := outputs_declared spec pis pos hS _ I1.declared o2 ho2
    obtain ⟨b, hb⟩ := outputs_declared imp pis pos hI _ I2.declared o2 ho2
    rw [mapGet_of_find _ _ _ ha, mapGet_of_find _ _ _ hb, hσS _ _ ha, hσI _ _ hb]
    rw [mapGet_of_find _ _ _ ha, mapGet_of_find _ _ _ hb] at hi
    simp only [miterModel, Nat.not_lt.2 (Nat.le_add_right _ _), if_false,
      Nat.add_sub_cancel_left, hi, hbS _ _ ha, hbI _ _ hb]
  · obtain ⟨i, hi, he⟩ := List.getElem_of_mem ho
    obtain ⟨a, ha⟩ := outputs_declared spec pis pos hS _ I1.declared o ho
    obtain ⟨b, hb⟩ := outputs_declared imp pis pos hI _ I2.declared o ho
    refine ⟨i, a, b, ?_, ?_⟩
    · rw [List.getElem?_map, List.getElem?_eq_getElem hi, he]
      simp [mapGet, ha, hb]
    · rw [hσS _ _ ha, hσI _ _ hb]
      exact hne

theorem combinedInstance_form (spec imp : Cell) (pis pos : List String)
    (hS : Combinational spec pis pos) (hI : Combinational imp pis pos) :
    ∃ st1 st2 : EncState,
      encodeBoth spec imp pis =
        some (st2.solver, st1.varMap, st2.varMap, st2.globalInputMap) ∧
      Inv pis 0 [] [] spec.instances st1 ∧
      Inv pis st1.solver.nVars st1.globalInputMap st1.solver.clauses imp.instances st2 ∧
      addMiter st2.solver pos pos st1.varMap st2.varMap = some
        ⟨st2.solver.nVars +
            (pos.map (fun o => (mapGet st1.varMap o, mapGet st2.varMap o))).length,
          st2.solver.clauses ++
            pairClauses st2.solver.nVars
              (pos.map (fun o => (mapGet st1.varMap o, mapGet st2.varMap o)))
            ++ [(List.range' st2.solver.nVars
              (pos.map (fun o => (mapGet st1.varMap o, mapGet st2.varMap o))).length).map
                mkLit]⟩ ∧
      combinedInstance spec imp pis pos pos = some
        ⟨st2.solver.nVars +
            (pos.map (fun o => (mapGet st1.varMap o, mapGet st2.varMap o))).length,
          st2.solver.clauses ++
            pairClauses st2.solver.nVars
              (pos.map (fun o => (mapGet st1.varMap o, mapGet st2.varMap o)))
            ++ [(List.range' st2.solver.nVars
              (pos.map (fun o => (mapGet st1.varMap o, mapGet st2.varMap o))).length).map
                mkLit]⟩ := by
  obtain ⟨st1, st2, he, I1, I2⟩ := encodeBoth_inv spec imp pis pos pos hS hI
  have hm : addMiter st2.solver pos pos st1.varMap st2.varMap = some
        ⟨st2.solver.nVars +
            (pos.map (fun o => (mapGet st1.varMap o, mapGet st2.varMap o))).length,
          st2.solver.clauses ++
            pairClauses st2.solver.nVars
              (pos.map (fun o => (mapGet st1.varMap o, mapGet st2.varMap o)))
            ++ [(List.range' st2.solver.nVars
              (pos.map (fun o => (mapGet st1.varMap o, mapGet st2.varMap o))).length).map
                mkLit]⟩ := by
    rw [addMiter_eq, alignedPairs_same st1.varMap st2.varMap pos
      (fun o ho => ⟨outputs_declared spec pis pos hS _ I1.declared o ho,
        outputs_declared imp pis pos hI _ I2.declared o ho⟩)]
    rfl
  refine ⟨st1, st2, he, I1, I2, hm, ?_⟩
  simp only [combinedInstance, he, hm]

theorem searchModel_sound (s : Solver) (a : List Bool) (h : s.searchModel = some a) :
    cnfTrue (assignmentOf a) s.clauses = true := by
  unfold Solver.searchModel at h
  have := List.find?_some h
  exact this

theorem andCell_combinational : Combinational andCell ["A", "B"] ["Z"] := by
  refine ⟨?_, ?_, ?_, ?_, ?_, ⟨fun n => if n = "Z" then 1 else 0, ?_⟩⟩
  · intro g hg
    simp only [andCell, List.mem_singleton] at hg
    subst hg
    have hc : classify "and2" = GateKind.andFamily := by decide
    refine ⟨rfl, ?_⟩
    simp only [hc]
    decide
  · intro g hg o ho
    simp only [andCell, List.mem_singleton] at hg
    subst hg
    simp only [List.mem_singleton] at ho
    subst ho
    decide
  · decide
  · intro g hg i hi
    simp only [andCell, List.mem_singleton] at hg
    subst hg
    exact Or.inl hi
  · intro o ho
    exact ⟨_, List.mem_singleton.2 rfl, ho⟩
  · intro g hg i hi o ho
    simp only [andCell, List.mem_singleton] at hg
    subst hg
    simp only [List.mem_singleton] at ho
    subst ho
    simp only [List.mem_cons, List.mem_singleton, List.not_mem_nil, or_false] at hi
    rcases hi with rfl | rfl <;> decide

theorem orCell_combinational : Combinational orCell ["A", "B"] ["Z"] := by
  refine ⟨?_, ?_, ?_, ?_, ?_, ⟨fun n => if n = "Z" then 1 else 0, ?_⟩⟩
  · intro g hg
    simp only [orCell, List.mem_singleton] at hg
    subst hg
    have hc : classify "or2" = GateKind.orFamily := by decide
    refine ⟨rfl, ?_⟩
    simp only [hc]
    decide
  · intro g hg o ho
    simp only [orCell, List.mem_singleton] at hg
    subst hg
    simp only [List.mem_singleton] at ho
    subst ho
    decide
  · decide
  · intro g hg i hi
    simp only [orCell, List.mem_singleton] at hg
    subst hg
    exact Or.inl hi
  · intro o ho
    exact ⟨_, List.mem_singleton.2 rfl, ho⟩
  · intro g hg i hi o ho
    simp only [orCell, List.mem_singleton] at hg
    subst hg
    simp only [List.mem_singleton] at ho
    subst ho
    simp only [List.mem_cons, List.mem_singleton, List.not_mem_nil, or_false] at hi
    rcases hi with rfl | rfl <;> decide

/-! ## Equivalence checking reduces to unsatisfiability -/

/-- C1: for two flattened combinational netlists over the same primary inputs `pis` and
primary outputs `pos` (supported gates, primary inputs and VDD/VSS undriven, every other
net driven by exactly one gate, no combinational cycle), both encoding passes and the
miter succeed, and the combined instance is unsatisfiable if and only if the two
circuits produce equal values on every primary output for every assignment of the
primary inputs. -/
theorem miter_unsat_iff_equivalent (spec imp : Cell) (pis pos : List String)
    (hS : Combinational spec pis pos) (hI : Combinational imp pis pos) :
    ∃ inst, combinedInstance spec imp pis pos pos = some inst ∧
      (¬ Satisfiable inst.clauses ↔ CircuitsEquivalent spec imp pis pos) := by
  obtain ⟨st1, st2, he, I1, I2, _, hc⟩ := combinedInstance_form spec imp pis pos hS hI
  refine ⟨_, hc, ?_⟩
  constructor
  · intro hunsat pi o ho
    by_contra hne
    exact hunsat (difference_gives_model spec imp pis pos hS hI st1 st2 I1 I2 pi o ho hne)
  · rintro heq ⟨σ, hσ⟩
    obtain ⟨o, ho, hne⟩ := model_gives_difference spec imp pis pos hS hI st1 st2 I1 I2 σ hσ
      (fun n => match mapFind st2.globalInputMap n with
        | some v => σ v
        | none => false)
      (fun n v h => by simp [h])
    exact hne (heq _ o ho)

theorem miter_unsat_iff_equivalent_witness :
    ∃ inst, combinedInstance andCell orCell ["A", "B"] ["Z"] ["Z"] = some inst ∧
      (¬ Satisfiable inst.clauses ↔ CircuitsEquivalent andCell orCell ["A", "B"] ["Z"]) :=
  miter_unsat_iff_equivalent andCell orCell ["A", "B"] ["Z"] andCell_combinational
    orCell_combinational

/-- C2: for two combinational netlists as in C1, every satisfying assignment `σ` of the
combined instance is a genuine counterexample: for every primary-input assignment `pi`
that gives each primary input with a variable the value `σ` gives that variable, gate
evaluation of the two circuits differs on at least one primary output. -/
theorem counterexample_genuine (spec imp : Cell) (pis pos : List String)
    (hS : Combinational spec pis pos) (hI : Combinational imp pis pos)
    (solver : Solver) (mS mI G : VarMap) (inst : Solver)
    (he : encodeBoth spec imp pis = some (solver, mS, mI, G))
    (hm : addMiter solver pos pos mS mI = some inst)
    (σ : Var → Bool) (hσ : cnfTrue σ inst.clauses = true)
    (pi : String → Bool) (hpi : ∀ n v, mapFind G n = some v → pi n = σ v) :
    ∃ o ∈ pos, circuitValue spec pis pi o ≠ circuitValue imp pis pi o := by
  obtain ⟨st1, st2, he2, I1, I2, hm2, _⟩ := combinedInstance_form spec imp pis pos hS hI
  rw [he] at he2
  simp only [Option.some.injEq, Prod.mk.injEq] at he2
  obtain ⟨rfl, rfl, rfl, rfl⟩ := he2
  rw [hm] at hm2
  simp only [Option.some.injEq] at hm2
  subst hm2
  exact model_gives_difference spec imp pis pos hS hI st1 st2 I1 I2 σ hσ pi hpi

theorem counterexample_genuine_witness :
    ∃ o ∈ ["Z"], circuitValue andCell ["A", "B"] (fun n => decide (n = "A")) o ≠
      circuitValue orCell ["A", "B"] (fun n => decide (n = "A")) o :=
  counterexample_genuine andCell orCell ["A", "B"] ["Z"] andCell_combinational
    orCell_combinational
    ⟨4, [[mkLit 0, (mkLit 2).neg], [mkLit 1, (mkLit 2).neg],
      [mkLit 2, (mkLit 0).neg, (mkLit 1).neg], [(mkLit 0).neg, mkLit 3],
      [(mkLit 1).neg, mkLit 3], [(mkLit 3).neg, mkLit 0, mkLit 1]]⟩
    [("A", 0), ("B", 1), ("Z", 2)] [("A", 0), ("B", 1), ("Z", 3)] [("A", 0), ("B", 1)]
    ⟨5, [[mkLit 0, (mkLit 2).neg], [mkLit 1, (mkLit 2).neg],
      [mkLit 2, (mkLit 0).neg, (mkLit 1).neg], [(mkLit 0).neg, mkLit 3],
      [(mkLit 1).neg, mkLit 3], [(mkLit 3).neg, mkLit 0, mkLit 1]] ++
      xorClauses 2 3 4 ++ [[mkLit 4]]⟩
    rfl (by decide) (fun v => decide (v = 0 ∨ v = 3 ∨ v = 4)) (by decide)
    (fun n => decide (n = "A"))
    (by
      intro n v h
      simp only [mapFind] at h
      split at h
      · cases h
        subst_vars
        decide
      · split at h
        · cases h
          subst_vars
          decide
        · cases h)

/-! ## Identical netlists -/

/-- C7, as stated, fails for netlists with a primary output that the inputs do not
settle through combinational gates. Encoding the one-flip-flop netlist as
specification and as implementation gives a satisfiable instance, and
`checkEquivalence` returns false; it also returns false for an AND gate with a
floating input net against itself and for a latch of two cross-coupled NOR gates
against itself. For a netlist whose XOR instance has one input only, the dispatch
reads `inputs[1]` out of range and no instance is built. -/
theorem identical_dff_not_equivalent :
    ((∃ inst, combinedInstance dffCell dffCell ["D"] ["Q"] ["Q"] = some inst ∧
        Satisfiable inst.clauses) ∧
      (runCheck dffCell dffCell ["D"] ["Q"] ["Q"]).map Prod.fst = some false) ∧
    runCheck floatingNetCell floatingNetCell ["A"] ["Z"] ["Z"] =
      some (false, [("A", LBool.l_True)]) ∧
    runCheck latchCell latchCell ["R", "S"] ["Q"] ["Q"] =
      some (false, [("R", LBool.l_False), ("S", LBool.l_False)]) ∧
    runCheck shortXorCell shortXorCell ["A"] ["Z"] ["Z"] = none := by
  have e : combinedInstance dffCell dffCell ["D"] ["Q"] ["Q"] =
      some ⟨4, xorClauses 1 2 3 ++ [[mkLit 3]]⟩ := by decide
  exact ⟨⟨⟨_, e, fun v => decide (v = 1 ∨ v = 3), by decide⟩, by decide⟩, by decide, by decide,
    by decide⟩

/-! ## Skipped instances -/

/-- C17: an instance with no input signals or no output signals, whatever its gate
type, leaves the encoding state untouched: `generateCNF` goes on with the same solver
(no variable allocated, no clause added), the same local map and the same shared
map. -/
theorem skipped_instance_untouched (pis : List String) (st : EncState) (g : Gate)
    (h : g.inputs = [] ∨ g.outputs = []) :
    processGate pis st g = some st ∧
    ∀ rest, encodeGates pis st (g :: rest) = encodeGates pis st rest := by
  have hp : processGate pis st g = some st := by
    unfold processGate
    rcases h with h | h
    · rw [h]
    · rw [h]
      cases g.inputs <;> rfl
  exact ⟨hp, fun rest => by simp only [encodeGates, hp]⟩

theorem skipped_instance_untouched_witness :
    processGate ["A"] ⟨⟨2, [[mkLit 0]]⟩, [("A", 0)], [("A", 0)]⟩ ⟨"and2", ["A", "B"], []⟩ =
      some ⟨⟨2, [[mkLit 0]]⟩, [("A", 0)], [("A", 0)]⟩ :=
  (skipped_instance_untouched ["A"] ⟨⟨2, [[mkLit 0]]⟩, [("A", 0)], [("A", 0)]⟩
    ⟨"and2", ["A", "B"], []⟩ (Or.inr rfl)).1

/-! ## Shared primary inputs -/

theorem getOrCreateVar_preserve (sig : String) (s : Solver) (m : VarMap) (k : String) (v : Var)
    (h : mapFind m k = some v) : mapFind (getOrCreateVar sig s m).2.2 k = some v := by
  cases hf : mapFind m sig with
  | some w => rw [getOrCreateVar_found _ _ _ _ hf]; exact h
  | none =>
    rw [getOrCreateVar_fresh _ _ _ hf]
    have hne : sig ≠ k := by
      rintro rfl
      rw [hf] at h
      cases h
    simp only [mapFind_mapSet, hne, if_false, h]

theorem declareInput_global_preserve (pis : List String) (st : EncState) (i k : String)
    (v : Var) (h : mapFind st.globalInputMap k = some v) :
    mapFind (declareInput pis st i).globalInputMap k = some v := by
  unfold declareInput
  by_cases hp : i ∈ pis
  · simp only [hp, if_true]
    cases hg : mapFind st.globalInputMap i with
    | some gv => exact h
    | none =>
      have hne : i ≠ k := by
        rintro rfl
        rw [hg] at h
        cases h
      simp only [mapFind_mapSet, hne, if_false, h]
  · simp only [hp, if_false]
    exact h

/-- Once a name has one variable in the shared map and in the local map, declaring
any input keeps it so. -/
theorem declareInput_pair (pis : List String) (st : EncState) (i a : String) (v : Var)
    (hg : mapFind st.globalInputMap a = some v) (hm : mapFind st.varMap a = some v) :
    mapFind (declareInput pis st i).globalInputMap a = some v ∧
    mapFind (declareInput pis st i).varMap a = some v := by
  refine ⟨declareInput_global_preserve pis st i a v hg, ?_⟩
  unfold declareInput
  by_cases hp : i ∈ pis
  · simp only [hp, if_true]
    cases hgi : mapFind st.globalInputMap i with
    | some gv =>
      simp only [mapGet, hgi, Option.getD_some, mapFind_mapSet]
      by_cases e : i = a
      · subst e
        rw [hg] at hgi
        simp only [if_true]
        exact hgi.symm
      · simp only [e, if_false, hm]
    | none =>
      have hne : i ≠ a := by
        rintro rfl
        rw [hgi] at hg
        cases hg
      simp only [mapFind_mapSet, hne, if_false]
      exact getOrCreateVar_preserve _ _ _ _ _ hm
  · simp only [hp, if_false]
    exact getOrCreateVar_preserve _ _ _ _ _ hm

/-- Declaring a primary input records one variable for it in both maps. -/
theorem declareInput_shares (pis : List String) (st : EncState) (a : String) (ha : a ∈ pis) :
    ∃ v, mapFind (declareInput pis st a).globalInputMap a = some v ∧
      mapFind (declareInput pis st a).varMap a = some v := by
  unfold declareInput
  simp only [ha, if_true]
  cases hg : mapFind st.globalInputMap a with
  | some gv =>
    exact ⟨gv, hg, by simp only [mapGet, hg, Option.getD_some, mapFind_mapSet_self]⟩
  | none =>
    exact ⟨_, mapFind_mapSet_self _ _ _,
      by simp only [mapGet, mapFind_mapSet_self, Option.getD_some]⟩

theorem foldl_declareInput_pair (pis : List String) (ins : List String) (st : EncState)
    (a : String) (v : Var)
    (hg : mapFind st.globalInputMap a = some v) (hm : mapFind st.varMap a = some v) :
    mapFind (ins.foldl (declareInput pis) st).globalInputMap a = some v ∧
    mapFind (ins.foldl (declareInput pis) st).varMap a = some v := by
  induction ins generalizing st with
  | nil => exact ⟨hg, hm⟩
  | cons i ins ih =>
    obtain ⟨h1, h2⟩ := declareInput_pair pis st i a v hg hm
    exact ih (declareInput pis st i) h1 h2

theorem foldl_declareInput_shares (pis : List String) (ins : List String) (st : EncState)
    (a : String) (ha : a ∈ pis) (hin : a ∈ ins) :
    ∃ v, mapFind (ins.foldl (declareInput pis) st).globalInputMap a = some v ∧
      mapFind (ins.foldl (declareInput pis) st).varMap a = some v := by
  induction ins generalizing st with
  | nil => cases hin
  | cons i ins ih =>
    rcases List.mem_cons.1 hin with rfl | h2
    · obtain ⟨v, h1, h2⟩ := declareInput_shares pis st a ha
      exact ⟨v, foldl_declareInput_pair pis ins _ a v h1 h2⟩
    · exact ih (declareInput pis st i) h2

theorem foldl_declareOutput_pair (outs : List String) (st : EncState) (a : String) (v : Var)
    (hg : mapFind st.globalInputMap a = some v) (hm : mapFind st.varMap a = some v) :
    mapFind (outs.foldl declareOutput st).globalInputMap a = some v ∧
    mapFind (outs.foldl declareOutput st).varMap a = some v := by
  induction outs generalizing st with
  | nil => exact ⟨hg, hm⟩
  | cons o outs ih =>
    exact ih (declareOutput st o) hg (getOrCreateVar_preserve _ _ _ _ _ hm)

theorem foldl_declareInput_global (pis : List String) (ins : List String) (st : EncState)
    (a : String) (v : Var) (hg : mapFind st.globalInputMap a = some v) :
    mapFind (ins.foldl (declareInput pis) st).globalInputMap a = some v := by
  induction ins generalizing st with
  | nil => exact hg
  | cons i ins ih => exact ih _ (declareInput_global_preserve pis st i a v hg)

theorem foldl_declareOutput_global (outs : List String) (st : EncState) (a : String) (v : Var)
    (hg : mapFind st.globalInputMap a = some v) :
    mapFind (outs.foldl declareOutput st).globalInputMap a = some v := by
  induction outs generalizing st with
  | nil => exact hg
  | cons o outs ih => exact ih (declareOutput st o) hg

/-- What `processGate` returns: the unchanged state for a skipped instance, else the
state after the port declarations with the clauses of the type dispatch added. -/
theorem processGate_result (pis : List String) (st st2 : EncState) (g : Gate)
    (h : processGate pis st g = some st2) :
    st2 = st ∨ (g.inputs ≠ [] ∧ g.outputs ≠ [] ∧ ∃ cls,
      st2 = { declarePorts pis st g with
              solver := (declarePorts pis st g).solver.addClauses cls }) := by
  cases hi : g.inputs with
  | nil =>
    simp only [processGate, hi, Option.some.injEq] at h
    exact Or.inl h.symm
  | cons i is =>
    cases ho : g.outputs with
    | nil =>
      simp only [processGate, hi, ho, Option.some.injEq] at h
      exact Or.inl h.symm
    | cons o os =>
      rw [processGate_cons pis st g i is o os hi ho] at h
      simp only [Option.map_eq_some'] at h
      obtain ⟨cls, _, rfl⟩ := h
      exact Or.inr ⟨by simp, by simp, cls, rfl⟩

theorem processGate_pair (pis : List String) (st st2 : EncState) (g : Gate) (a : String)
    (v : Var) (h : processGate pis st g = some st2)
    (hg : mapFind st.globalInputMap a = some v) (hm : mapFind st.varMap a = some v) :
    mapFind st2.globalInputMap a = some v ∧ mapFind st2.varMap a = some v := by
  rcases processGate_result pis st st2 g h with he | ⟨_, _, cls, he⟩
  · rw [he]
    exact ⟨hg, hm⟩
  · rw [he]
    obtain ⟨h1, h2⟩ := foldl_declareInput_pair pis g.inputs st a v hg hm
    exact foldl_declareOutput_pair g.outputs _ a v h1 h2

theorem processGate_global (pis : List String) (st st2 : EncState) (g : Gate) (a : String)
    (v : Var) (h : processGate pis st g = some st2)
    (hg : mapFind st.globalInputMap a = some v) : mapFind st2.globalInputMap a = some v := by
  rcases processGate_result pis st st2 g h with he | ⟨_, _, cls, he⟩
  · rw [he]
    exact hg
  · rw [he]
    exact foldl_declareOutput_global g.outputs _ a v
      (foldl_declareInput_global pis g.inputs st a v hg)

theorem processGate_shares (pis : List String) (st st2 : EncState) (g : Gate) (a : String)
    (h : processGate pis st g = some st2) (ha : a ∈ pis) (hin : a ∈ g.inputs)
    (hout : g.outputs ≠ []) :
    ∃ v, mapFind st2.globalInputMap a = some v ∧ mapFind st2.varMap a = some v := by
  cases hi : g.inputs with
  | nil => rw [hi] at hin; cases hin
  | cons i is =>
    cases ho : g.outputs with
    | nil => exact absurd ho hout
    | cons o os =>
      rw [processGate_cons pis st g i is o os hi ho] at h
      simp only [Option.map_eq_some'] at h
      obtain ⟨cls, _, he⟩ := h
      rw [← he]
      obtain ⟨v, h1, h2⟩ := foldl_declareInput_shares pis g.inputs st a ha hin
      exact ⟨v, foldl_declareOutput_pair g.outputs _ a v h1 h2⟩

theorem encodeGates_global (pis : List String) (gs : List Gate) (st st2 : EncState)
    (a : String) (v : Var) (h : encodeGates pis st gs = some st2)
    (hg : mapFind st.globalInputMap a = some v) : mapFind st2.globalInputMap a = some v := by
  induction gs generalizing st with
  | nil =>
    simp only [encodeGates, Option.some.injEq] at h
    rw [← h]
    exact hg
  | cons g gs ih =>
    cases h1 : processGate pis st g with
    | none => simp [encodeGates, h1] at h
    | some st1 =>
      simp only [encodeGates, h1] at h
      exact ih st1 h (processGate_global pis st st1 g a v h1 hg)

theorem encodeGates_pair (pis : List String) (gs : List Gate) (st st2 : EncState)
    (a : String) (v : Var) (h : encodeGates pis st gs = some st2)
    (hg : mapFind st.globalInputMap a = some v) (hm : mapFind st.varMap a = some v) :
    mapFind st2.globalInputMap a = some v ∧ mapFind st2.varMap a = some v := by
  induction gs generalizing st with
  | nil =>
    simp only [encodeGates, Option.some.injEq] at h
    rw [← h]
    exact ⟨hg, hm⟩
  | cons g gs ih =>
    cases h1 : processGate pis st g with
    | none => simp [encodeGates, h1] at h
    | some st1 =>
      simp only [encodeGates, h1] at h
      obtain ⟨a1, a2⟩ := processGate_pair pis st st1 g a v h1 hg hm
      exact ih st1 h a1 a2

theorem encodeGates_shares (pis : List String) (gs : List Gate) (st st2 : EncState)
    (a : String) (h : encodeGates pis st gs = some st2) (ha : a ∈ pis)
    (hin : ∃ g ∈ gs, g.outputs ≠ [] ∧ a ∈ g.inputs) :
    ∃ v, mapFind st2.globalInputMap a = some v ∧ mapFind st2.varMap a = some v := by
  induction gs generalizing st with
  | nil =>
    obtain ⟨g, hg, _⟩ := hin
    cases hg
  | cons g gs ih =>
    cases h1 : processGate pis st g with
    | none => simp [encodeGates, h1] at h
    | some st1 =>
      simp only [encodeGates, h1] at h
      obtain ⟨g2, hg2, hout, hing⟩ := hin
      rcases List.mem_cons.1 hg2 with rfl | hrest
      · obtain ⟨v, a1, a2⟩ := processGate_shares pis st st1 g2 a h1 ha hing hout
        exact ⟨v, encodeGates_pair pis gs st1 st2 a v h a1 a2⟩
      · exact ih st1 h ⟨g2, hrest, hout, hing⟩

/-- C11: shared primary-input identity. After `generateCNF` on the specification and
then on the implementation with the same `primaryInputs` and `globalInputMap`, every
primary-input name that is an input of a non-skipped gate (one with an output) in
both netlists has one and the same variable in `varMapSpec`, `varMapImp` and
`globalInputMap`. -/
theorem shared_primary_input (spec imp : Cell) (pis : List String) (solver : Solver)
    (mS mI G : VarMap) (h : encodeBoth spec imp pis = some (solver, mS, mI, G))
    (a : String) (ha : a ∈ pis)
    (hs : ∃ g ∈ spec.instances, g.outputs ≠ [] ∧ a ∈ g.inputs)
    (hi : ∃ g ∈ imp.instances, g.outputs ≠ [] ∧ a ∈ g.inputs) :
    ∃ v, mapFind mS a = some v ∧ mapFind mI a = some v ∧ mapFind G a = some v := by
  unfold encodeBoth generateCNF at h
  cases h1 : encodeGates pis ⟨Solver.empty, [], []⟩ spec.instances with
  | none => simp [h1] at h
  | some st1 =>
    cases h2 : encodeGates pis ⟨st1.solver, [], st1.globalInputMap⟩ imp.instances with
    | none => simp [h1, h2] at h
    | some st2 =>
      simp only [h1, h2, Option.some.injEq, Prod.mk.injEq] at h
      obtain ⟨rfl, rfl, rfl, rfl⟩ := h
      obtain ⟨v, g1, m1⟩ := encodeGates_shares pis _ _ st1 a h1 ha hs
      obtain ⟨w, g2, m2⟩ := encodeGates_shares pis _ _ st2 a h2 ha hi
      have g3 := encodeGates_global pis imp.instances
        ⟨st1.solver, [], st1.globalInputMap⟩ st2 a v h2 g1
      rw [g2] at g3
      have e : w = v := Option.some.inj g3
      rw [e] at m2 g2
      exact ⟨v, m1, m2, g2⟩

theorem shared_primary_input_witness :
    ∃ v, mapFind [("A", 0), ("B", 1), ("Z", 2)] "B" = some v ∧
      mapFind [("A", 0), ("B", 1), ("Z", 3)] "B" = some v ∧
      mapFind [("A", 0), ("B", 1)] "B" = some v :=
  shared_primary_input andCell orCell ["A", "B"]
    ⟨4, [[mkLit 0, (mkLit 2).neg], [mkLit 1, (mkLit 2).neg],
      [mkLit 2, (mkLit 0).neg, (mkLit 1).neg], [(mkLit 0).neg, mkLit 3],
      [(mkLit 1).neg, mkLit 3], [(mkLit 3).neg, mkLit 0, mkLit 1]]⟩
    [("A", 0), ("B", 1), ("Z", 2)] [("A", 0), ("B", 1), ("Z", 3)] [("A", 0), ("B", 1)]
    rfl "B" (by decide) ⟨_, List.mem_singleton.2 rfl, by decide, by decide⟩
    ⟨_, List.mem_singleton.2 rfl, by decide, by decide⟩

/-! ## The interface check of `main` -/

theorem sortNames_eq_iff (l1 l2 : List String) : sortNames l1 = sortNames l2 ↔ l1.Perm l2 := by
  haveI : IsTotal String (fun a b => a.toList ≤ b.toList) :=
    ⟨fun a b => by simpa only [← String.le_iff_toList_le] using le_total a b⟩
  haveI : IsTrans String (fun a b => a.toList ≤ b.toList) :=
    ⟨fun a b c h1 h2 => by
      simp only [← String.le_iff_toList_le] at h1 h2 ⊢
      exact le_trans h1 h2⟩
  haveI : IsAntisymm String (fun a b => a.toList ≤ b.toList) :=
    ⟨fun a b h1 h2 => by
      simp only [← String.le_iff_toList_le] at h1 h2
      exact le_antisymm h1 h2⟩
  unfold sortNames
  constructor
  · intro h
    have p1 := List.perm_insertionSort (fun a b : String => a.toList ≤ b.toList) l1
    have p2 := List.perm_insertionSort (fun a b : String => a.toList ≤ b.toList) l2
    rw [h] at p1
    exact p1.symm.trans p2
  · intro h
    have p1 := List.perm_insertionSort (fun a b : String => a.toList ≤ b.toList) l1
    have p2 := List.perm_insertionSort (fun a b : String => a.toList ≤ b.toList) l2
    exact List.eq_of_perm_of_sorted ((p1.trans h).trans p2.symm)
      (List.sorted_insertionSort _ l1) (List.sorted_insertionSort _ l2)

theorem encodeAndCheck_ne_mismatch (spec imp : Cell) (a b c : List String) (s : Solver)
    (n : Nat) : encodeAndCheck spec imp a b c ≠ MainOutcome.mismatch s n := by
  unfold encodeAndCheck
  cases encodeBoth spec imp a with
  | none => simp
  | some r =>
    obtain ⟨solver, mS, mI, G⟩ := r
    simp only
    cases checkEquivalence solver a b c mS mI with
    | none => simp
    | some v =>
      cases addMiter solver b c mS mI with
      | none => simp
      | some inst => simp

/-- C12: interface-mismatch short-circuit. For cells whose port names are pairwise
distinct, `main` goes on to the encoding (lines 317-341) if and only if the set of
primary-input names and the set of primary-output names of the specification equal
those of the implementation; whenever they differ `main` reports the mismatch and
returns with the solver still fresh (no variable, no clause) and no `solve` call. -/
theorem interface_mismatch_short_circuit (spec imp : Cell)
    (hSi : spec.inputs.Nodup) (hSo : spec.outputs.Nodup)
    (hIi : imp.inputs.Nodup) (hIo : imp.outputs.Nodup) :
    (((∀ n, n ∈ spec.inputs ↔ n ∈ imp.inputs) ∧ (∀ n, n ∈ spec.outputs ↔ n ∈ imp.outputs)) ↔
      mainFlow spec imp = encodeAndCheck spec imp (sortNames spec.inputs)
        (sortNames spec.outputs) (sortNames imp.outputs)) ∧
    (¬ ((∀ n, n ∈ spec.inputs ↔ n ∈ imp.inputs) ∧
        (∀ n, n ∈ spec.outputs ↔ n ∈ imp.outputs)) →
      mainFlow spec imp = MainOutcome.mismatch Solver.empty 0 ∧
      Solver.empty.nVars = 0 ∧ Solver.empty.clauses = []) := by
  have hcond : (sortNames spec.inputs ≠ sortNames imp.inputs ∨
      sortNames spec.outputs ≠ sortNames imp.outputs) ↔
      ¬ ((∀ n, n ∈ spec.inputs ↔ n ∈ imp.inputs) ∧
        (∀ n, n ∈ spec.outputs ↔ n ∈ imp.outputs)) := by
    rw [← List.perm_ext_iff_of_nodup hSi hIi, ← List.perm_ext_iff_of_nodup hSo hIo,
      ← sortNames_eq_iff, ← sortNames_eq_iff]
    tauto
  constructor
  · constructor
    · intro h
      have : ¬ (sortNames spec.inputs ≠ sortNames imp.inputs ∨
          sortNames spec.outputs ≠ sortNames imp.outputs) := fun hc => hcond.1 hc h
      simp only [mainFlow, this, if_false]
    · intro h
      by_contra hne
      have hc := hcond.2 hne
      simp only [mainFlow, hc, if_true] at h
      exact encodeAndCheck_ne_mismatch _ _ _ _ _ _ _ h.symm
  · intro hne
    have hc := hcond.2 hne
    refine ⟨?_, rfl, rfl⟩
    simp only [mainFlow, hc, if_true]

theorem interface_mismatch_short_circuit_witness :
    mainFlow andCell ⟨["A", "B"], ["Y"], [⟨"and2", ["A", "B"], ["Y"]⟩]⟩ =
      MainOutcome.mismatch Solver.empty 0 ∧
    Solver.empty.nVars = 0 ∧ Solver.empty.clauses = [] :=
  (interface_mismatch_short_circuit andCell ⟨["A", "B"], ["Y"], [⟨"and2", ["A", "B"], ["Y"]⟩]⟩
    (by decide) (by decide) (by decide) (by decide)).2 (by
      intro h
      have := (h.2 "Z").1 (by decide)
      revert this
      decide)

/-! ## The counterexample report -/

/-- C13 fails on a primary input that no gate of the specification reads: the buffer
cell (inputs A and B, B unused) against the AND cell passes the interface check and
the miter instance is satisfiable, but `varMapSpec` has no entry for B, so the
lookup `varMapSpec.at(in)` of line 209 throws and `checkEquivalence` returns nothing. -/
theorem unused_input_lookup_fails :
    mainFlow bufferCell andCell = MainOutcome.aborted ∧
    ∃ solver mS mI G inst,
      encodeBoth bufferCell andCell ["A", "B"] = some (solver, mS, mI, G) ∧
      addMiter solver ["Z"] ["Z"] mS mI = some inst ∧
      inst.solve = true ∧ mapFind mS "B" = none ∧
      checkEquivalence solver ["A", "B"] ["Z"] ["Z"] mS mI = none := by
  refine ⟨by decide, _, _, _, _, _, rfl, rfl, by decide, by decide, by decide⟩

/-! ## The verdict of `checkEquivalence` -/

/-- C19, as stated, fails: for a 2-input NAND the clause over all inputs that
`generateCNF` emits has the output negated, (¬O ∨ ¬I₀ ∨ ¬I₁), not the clause
(O ∨ ¬I₀ ∨ ¬I₁) of the spec's table; the assignment with all three variables true
satisfies the table's clauses and not the emitted ones. -/
theorem nand_table_mismatch :
    processGate ["A", "B"] ⟨Solver.empty, [], []⟩ ⟨"nand2", ["A", "B"], ["Z"]⟩ =
      some ⟨⟨3, [[mkLit 0, mkLit 2], [mkLit 1, mkLit 2],
          [(mkLit 2).neg, (mkLit 0).neg, (mkLit 1).neg]]⟩,
        [("A", 0), ("B", 1), ("Z", 2)], [("A", 0), ("B", 1)]⟩ ∧
    specTableNand [0, 1] 2 =
      [[mkLit 0, mkLit 2], [mkLit 1, mkLit 2], [mkLit 2, (mkLit 0).neg, (mkLit 1).neg]] ∧
    [mkLit 2, (mkLit 0).neg, (mkLit 1).neg] ∉
      [[mkLit 0, mkLit 2], [mkLit 1, mkLit 2], [(mkLit 2).neg, (mkLit 0).neg, (mkLit 1).neg]] ∧
    cnfTrue (fun _ => true) (specTableNand [0, 1] 2) = true ∧
    cnfTrue (fun _ => true) [[mkLit 0, mkLit 2], [mkLit 1, mkLit 2],
      [(mkLit 2).neg, (mkLit 0).neg, (mkLit 1).neg]] = false := by
  refine ⟨rfl, rfl, by decide, by decide, by decide⟩

/-- C19, amended: for every NAND-family instance with inputs I_0..I_{n-1} (n ≥ 1) and
output O the clauses `generateCNF` emits are, in this order, for each k the clause
(I_k ∨ O), then the single clause (¬O ∨ ¬I_0 ∨ ¬I_1 ∨ ...). -/
theorem nand_clauses_exact (pis : List String) (st : EncState) (g : Gate)
    (o : String) (os : List String)
    (hty : rfindAtZero g.gateType "nand" = true)
    (hin : 1 ≤ g.inputs.length) (hout : g.outputs = o :: os) :
    processGate pis st g = some { declarePorts pis st g with
      solver := (declarePorts pis st g).solver.addClauses
        ((g.inputs.map (mapGet (declarePorts pis st g).varMap)).map
            (fun i => [mkLit i, mkLit (mapGet (declarePorts pis st g).varMap o)]) ++
          [(mkLit (mapGet (declarePorts pis st g).varMap o)).neg ::
            (g.inputs.map (mapGet (declarePorts pis st g).varMap)).map
              (fun i => (mkLit i).neg)]) } := by
  obtain ⟨i, is, hi⟩ : ∃ i is, g.inputs = i :: is := by
    cases h : g.inputs with
    | nil => simp [h] at hin
    | cons i is => exact ⟨i, is, rfl⟩
  rw [processGate_cons pis st g i is o os hi hout]
  simp [encodeGate, classify_of_nand _ hty]

theorem nand_clauses_exact_witness :
    processGate ["A", "B"] ⟨Solver.empty, [], []⟩ ⟨"nand2", ["A", "B"], ["Z"]⟩ =
      some ⟨⟨3, [[mkLit 0, mkLit 2], [mkLit 1, mkLit 2],
          [(mkLit 2).neg, (mkLit 0).neg, (mkLit 1).neg]]⟩,
        [("A", 0), ("B", 1), ("Z", 2)], [("A", 0), ("B", 1)]⟩ :=
  (nand_clauses_exact ["A", "B"] ⟨Solver.empty, [], []⟩ ⟨"nand2", ["A", "B"], ["Z"]⟩ "Z" []
    (by decide) (by decide) rfl).trans rfl

/-- C20, as stated, fails: for an inverter the two clauses `generateCNF` emits are
(¬I₀ ∨ ¬O) and (I₀ ∨ O), not the two implications (¬I₀→¬O), (¬O→¬I₀) of the spec's
table; the assignment with both variables true satisfies the table's clauses and
not the emitted ones. -/
theorem inverter_table_mismatch :
    processGate ["A"] ⟨Solver.empty, [], []⟩ ⟨"inv", ["A"], ["Z"]⟩ =
      some ⟨⟨2, [[(mkLit 0).neg, (mkLit 1).neg], [mkLit 0, mkLit 1]]⟩,
        [("A", 0), ("Z", 1)], [("A", 0)]⟩ ∧
    processGate ["A"] ⟨Solver.empty, [], []⟩ ⟨"not", ["A"], ["Z"]⟩ =
      some ⟨⟨2, [[(mkLit 0).neg, (mkLit 1).neg], [mkLit 0, mkLit 1]]⟩,
        [("A", 0), ("Z", 1)], [("A", 0)]⟩ ∧
    cnfTrue (fun _ => true) (specTableInverter 0 1) = true ∧
    cnfTrue (fun _ => true) [[(mkLit 0).neg, (mkLit 1).neg], [mkLit 0, mkLit 1]] = false := by
  refine ⟨rfl, rfl, by decide, by decide⟩

/-- C20, amended: for every inverter instance ("inv" or "not") with first input I_0
and output O the two clauses `generateCNF` emits are (¬I_0 ∨ ¬O) and (I_0 ∨ O), that
is, the implications (I_0 → ¬O) and (¬I_0 → O). -/
theorem inverter_clauses_exact (pis : List String) (st : EncState) (g : Gate)
    (i0 : String) (is : List String) (o : String) (os : List String)
    (hty : g.gateType = "inv" ∨ g.gateType = "not")
    (hin : g.inputs = i0 :: is) (hout : g.outputs = o :: os) :
    processGate pis st g = some { declarePorts pis st g with
      solver := (declarePorts pis st g).solver.addClauses
        [[(mkLit (mapGet (declarePorts pis st g).varMap i0)).neg,
            (mkLit (mapGet (declarePorts pis st g).varMap o)).neg],
          [mkLit (mapGet (declarePorts pis st g).varMap i0),
            mkLit (mapGet (declarePorts pis st g).varMap o)]] } ∧
    ∀ σ : Var → Bool,
      cnfTrue σ [[(mkLit (mapGet (declarePorts pis st g).varMap i0)).neg,
            (mkLit (mapGet (declarePorts pis st g).varMap o)).neg],
          [mkLit (mapGet (declarePorts pis st g).varMap i0),
            mkLit (mapGet (declarePorts pis st g).varMap o)]] = true ↔
        ((σ (mapGet (declarePorts pis st g).varMap i0) = true →
            σ (mapGet (declarePorts pis st g).varMap o) = false) ∧
          (σ (mapGet (declarePorts pis st g).varMap i0) = false →
            σ (mapGet (declarePorts pis st g).varMap o) = true)) := by
  constructor
  · rw [processGate_cons pis st g i0 is o os hin hout, hin]
    rcases hty with h | h <;> simp [encodeGate, classify, h]
  · intro σ
    cases h1 : σ (mapGet (declarePorts pis st g).varMap i0) <;>
      cases h2 : σ (mapGet (declarePorts pis st g).varMap o) <;> simp [h1, h2]

theorem inverter_clauses_exact_witness :
    processGate ["A"] ⟨Solver.empty, [], []⟩ ⟨"not", ["A"], ["Z"]⟩ =
      some ⟨⟨2, [[(mkLit 0).neg, (mkLit 1).neg], [mkLit 0, mkLit 1]]⟩,
        [("A", 0), ("Z", 1)], [("A", 0)]⟩ :=
  (inverter_clauses_exact ["A"] ⟨Solver.empty, [], []⟩ ⟨"not", ["A"], ["Z"]⟩ "A" [] "Z" []
    (Or.inr rfl) rfl rfl).1.trans rfl

/-! ## Port declarations add unit clauses of constants only -/

theorem UnitsExt_refl (names : List String) (s : Solver) : UnitsExt names s s :=
  ⟨[], by simp, Nat.le_refl _, fun c hc => absurd hc (List.not_mem_nil c), fun _ _ => rfl⟩

theorem UnitsExt_trans (n1 n2 n : List String) (s s1 s2 : Solver)
    (h1 : UnitsExt n1 s s1) (h2 : UnitsExt n2 s1 s2)
    (hn1 : ∀ x ∈ n1, x ∈ n) (hn2 : ∀ x ∈ n2, x ∈ n) : UnitsExt n s s2 := by
  obtain ⟨u1, e1, l1, c1, z1⟩ := h1
  obtain ⟨u2, e2, l2, c2, z2⟩ := h2
  refine ⟨u1 ++ u2, by rw [e2, e1, List.append_assoc], Nat.le_trans l1 l2, ?_, ?_⟩
  · intro c hc
    rcases List.mem_append.1 hc with hc | hc
    · obtain ⟨v, a, b, d⟩ := c1 c hc
      exact ⟨v, a, Nat.lt_of_lt_of_le b l2, d⟩
    · obtain ⟨v, a, b, d⟩ := c2 c hc
      exact ⟨v, Nat.le_trans l1 a, b, d⟩
  · intro a b
    rw [z1 (fun h => a (hn1 _ h)) (fun h => b (hn1 _ h)),
      z2 (fun h => a (hn2 _ h)) (fun h => b (hn2 _ h))]
    rfl

theorem getOrCreateVar_unitsExt (sig : String) (s : Solver) (m : VarMap) :
    UnitsExt [sig] s (getOrCreateVar sig s m).2.1 := by
  cases hf : mapFind m sig with
  | some v =>
    rw [getOrCreateVar_found _ _ _ _ hf]
    exact UnitsExt_refl _ _
  | none =>
    rw [getOrCreateVar_fresh _ _ _ hf]
    refine ⟨constUnits sig s.nVars, rfl, Nat.le_succ _, ?_, ?_⟩
    · intro c hc
      refine ⟨s.nVars, Nat.le_refl _, Nat.lt_succ_self _, ?_⟩
      unfold constUnits at hc
      by_cases h1 : sig = "VDD"
      · rw [if_pos h1] at hc
        exact Or.inl (List.mem_singleton.1 hc)
      · rw [if_neg h1] at hc
        by_cases h2 : sig = "VSS"
        · rw [if_pos h2] at hc
          exact Or.inr (List.mem_singleton.1 hc)
        · rw [if_neg h2] at hc
          cases hc
    · intro a b
      have h1 : sig ≠ "VDD" := fun e => a (by simp [e])
      have h2 : sig ≠ "VSS" := fun e => b (by simp [e])
      simp [constUnits, h1, h2]

theorem declareInput_unitsExt (pis : List String) (st : EncState) (i : String) :
    UnitsExt [i] st.solver (declareInput pis st i).solver := by
  unfold declareInput
  by_cases hp : i ∈ pis
  · simp only [hp, if_true]
    cases hg : mapFind st.globalInputMap i with
    | some gv => exact UnitsExt_refl _ _
    | none => exact getOrCreateVar_unitsExt i st.solver st.varMap
  · simp only [hp, if_false]
    exact getOrCreateVar_unitsExt i st.solver st.varMap

theorem foldl_declareInput_unitsExt (pis : List String) (ins : List String) (st : EncState) :
    UnitsExt ins st.solver (ins.foldl (declareInput pis) st).solver := by
  induction ins generalizing st with
  | nil => exact UnitsExt_refl _ _
  | cons i ins ih =>
    exact UnitsExt_trans [i] ins (i :: ins) _ _ _ (declareInput_unitsExt pis st i)
      (ih (declareInput pis st i)) (fun x hx => by simpa using Or.inl (List.mem_singleton.1 hx))
      (fun x hx => List.mem_cons_of_mem _ hx)

theorem foldl_declareOutput_unitsExt (outs : List String) (st : EncState) :
    UnitsExt outs st.solver (outs.foldl declareOutput st).solver := by
  induction outs generalizing st with
  | nil => exact UnitsExt_refl _ _
  | cons o outs ih =>
    exact UnitsExt_trans [o] outs (o :: outs) _ _ _
      (getOrCreateVar_unitsExt o st.solver st.varMap)
      (ih (declareOutput st o)) (fun x hx => by simpa using Or.inl (List.mem_singleton.1 hx))
      (fun x hx => List.mem_cons_of_mem _ hx)

theorem declarePorts_unitsExt (pis : List String) (st : EncState) (g : Gate) :
    UnitsExt (g.inputs ++ g.outputs) st.solver (declarePorts pis st g).solver :=
  UnitsExt_trans g.inputs g.outputs _ _ _ _ (foldl_declareInput_unitsExt pis g.inputs st)
    (foldl_declareOutput_unitsExt g.outputs _) (fun _ hx => List.mem_append_left _ hx)
    (fun _ hx => List.mem_append_right _ hx)

/-! ## Sequential storage -/

/-- C15: for every "dff" instance with at least one input and one output, the type
dispatch of `generateCNF` emits no clause, so every assignment is consistent with
what the instance contributes, and the iteration only declares the ports: the state
after it is the state after the port declarations, whose clauses are those before
plus unit clauses on new variables (the unit clause of a VDD/VSS port that had no
variable yet), none at all when no port is "VDD" or "VSS". No clause mentions two
variables, so none ties the output to an input. -/
theorem dff_unconstrained (pis : List String) (st : EncState) (g : Gate)
    (i : String) (is : List String) (o : String) (os : List String)
    (hty : g.gateType = "dff") (hin : g.inputs = i :: is) (hout : g.outputs = o :: os) :
    processGate pis st g = some (declarePorts pis st g) ∧
    (∀ (ins : List Var) (out : Var), encodeGate g.gateType ins out = some []) ∧
    (∀ σ : Var → Bool, cnfTrue σ ([] : List Clause) = true) ∧
    UnitsExt (g.inputs ++ g.outputs) st.solver (declarePorts pis st g).solver := by
  have he : ∀ (ins : List Var) (out : Var), encodeGate g.gateType ins out = some [] := by
    intro ins out
    rw [hty]
    have hc : classify "dff" = GateKind.dff := by decide
    simp only [encodeGate, hc]
  refine ⟨?_, he, fun σ => rfl, declarePorts_unitsExt pis st g⟩
  rw [processGate_cons pis st g i is o os hin hout, he]
  rfl

theorem dff_unconstrained_witness :
    processGate ["D"] ⟨Solver.empty, [], []⟩ ⟨"dff", ["D"], ["Q"]⟩ =
      some ⟨⟨2, []⟩, [("D", 0), ("Q", 1)], [("D", 0)]⟩ :=
  (dff_unconstrained ["D"] ⟨Solver.empty, [], []⟩ ⟨"dff", ["D"], ["Q"]⟩ "D" [] "Q" []
    rfl rfl rfl).1.trans rfl

/-! ## The encoding described by names, for arbitrary gate types -/

theorem mem_constUnits (c : Clause) (n : String) (v : Var) :
    c ∈ constUnits n v ↔
      (n = "VDD" ∧ c = [mkLit v]) ∨ (n = "VSS" ∧ c = [(mkLit v).neg]) := by
  unfold constUnits
  by_cases h1 : n = "VDD"
  · subst h1
    simp
  · by_cases h2 : n = "VSS"
    · subst h2
      simp
    · simp [h1, h2]

theorem unit_mapSet (m : VarMap) (n : String) (w : Var) (hm : mapFind m n = none)
    (n0 : Nat) (key : String) (c : Clause) (f : Var → Clause) :
    (∃ v, n0 ≤ v ∧ mapFind (mapSet m n w) key = some v ∧ c = f v) ↔
      ((∃ v, n0 ≤ v ∧ mapFind m key = some v ∧ c = f v) ∨ (n = key ∧ n0 ≤ w ∧ c = f w)) := by
  constructor
  · rintro ⟨v, h1, h2, h3⟩
    rcases mapFind_mapSet_some _ _ _ _ _ h2 with ⟨e, rfl⟩ | ⟨_, h2b⟩
    · exact Or.inr ⟨e.symm, h1, h3⟩
    · exact Or.inl ⟨v, h1, h2b, h3⟩
  · rintro (⟨v, h1, h2, h3⟩ | ⟨e, h1, h3⟩)
    · exact ⟨v, h1, MapExt_mapSet m n w hm _ _ h2, h3⟩
    · exact ⟨w, h1, by rw [e]; exact mapFind_mapSet_self _ _ _, h3⟩

theorem gateClausesOf_ext (m m2 : VarMap) (g : Gate) (h : MapExt m m2) (ha : Active g)
    (hd : ∀ n, n ∈ g.inputs ∨ n ∈ g.outputs → ∃ v, mapFind m n = some v) :
    gateClausesOf m2 g = gateClausesOf m g := by
  have hin : g.inputs.map (mapGet m2) = g.inputs.map (mapGet m) := by
    apply List.map_congr_left
    intro i hi
    exact mapGet_ext m m2 h i (hd i (Or.inl hi))
  have hout : mapGet m2 (g.outputs.headD "") = mapGet m (g.outputs.headD "") := by
    apply mapGet_ext m m2 h
    apply hd
    right
    cases ho : g.outputs with
    | nil => exact absurd ho ha.2
    | cons o os => simp
  unfold gateClausesOf
  rw [hin, hout]

theorem gate_mem_ext (m m2 : VarMap) (done : List Gate) (ns : List String) (c : Clause)
    (h : MapExt m m2) (hk : ∀ n, (∃ v, mapFind m n = some v) ↔ n ∈ ns)
    (hp : ∀ g ∈ done, ∀ n, n ∈ g.inputs ∨ n ∈ g.outputs → n ∈ ns)
    (ha : ∀ g ∈ done, Active g) :
    (∃ g ∈ done, c ∈ gateClausesOf m2 g) ↔ (∃ g ∈ done, c ∈ gateClausesOf m g) := by
  constructor
  · rintro ⟨g, hg, hc⟩
    rw [gateClausesOf_ext m m2 g h (ha g hg) (fun n hn => (hk n).2 (hp g hg n hn))] at hc
    exact ⟨g, hg, hc⟩
  · rintro ⟨g, hg, hc⟩
    rw [← gateClausesOf_ext m m2 g h (ha g hg) (fun n hn => (hk n).2 (hp g hg n hn))] at hc
    exact ⟨g, hg, hc⟩

theorem keys_mapSet (m : VarMap) (n : String) (w : Var) (ns : List String)
    (hk : ∀ k, (∃ v, mapFind m k = some v) ↔ k ∈ ns) :
    ∀ k, (∃ v, mapFind (mapSet m n w) k = some v) ↔ k ∈ n :: ns := by
  intro k
  rw [mapFind_mapSet, List.mem_cons, ← hk k]
  by_cases e : n = k
  · simp [e]
  · simp only [e, if_false]
    constructor
    · exact fun h => Or.inr h
    · rintro (h | h)
      · exact absurd h.symm e
      · exact h

theorem units_added (A G U1 U2 X Y X2 Y2 P : Prop) (hP : P) :
    ((A ∨ G ∨ U1 ∨ U2) ∨ ((X ∧ Y) ∨ (X2 ∧ Y2))) ↔
      (A ∨ G ∨ (U1 ∨ (X ∧ P ∧ Y)) ∨ (U2 ∨ (X2 ∧ P ∧ Y2))) := by
  simp only [hP, true_and]
  tauto

theorem units_kept (A G U1 U2 X Y X2 Y2 P : Prop) (hP : ¬ P) :
    (A ∨ G ∨ U1 ∨ U2) ↔
      (A ∨ G ∨ (U1 ∨ (X ∧ P ∧ Y)) ∨ (U2 ∨ (X2 ∧ P ∧ Y2))) := by
  simp only [hP, false_and, and_false, or_false]

theorem syn_fresh (pis : List String) (n0 : Nat) (g0 : VarMap) (cl0 : List Clause)
    (done : List Gate) (ns : List String) (st : EncState) (n : String) (hn : n ∉ pis)
    (hm : mapFind st.varMap n = none) (I : Syn pis n0 g0 cl0 done ns st) :
    Syn pis n0 g0 cl0 done (n :: ns)
      ⟨⟨st.solver.nVars + 1, st.solver.clauses ++ constUnits n st.solver.nVars⟩,
        mapSet st.varMap n st.solver.nVars, st.globalInputMap⟩ := by
  have hext := MapExt_mapSet st.varMap n st.solver.nVars hm
  refine ⟨?_, ?_, ?_, ?_, I.ginj, ?_, ?_, I.gkeys, I.g_mono, I.g_old, ?_,
    keys_mapSet _ _ _ _ I.keys, ?_, ?_, ?_, I.done_active, ?_⟩
  · exact Nat.le_succ_of_le I.n0_le
  · intro k w hk
    rcases mapFind_mapSet_some _ _ _ _ _ hk with ⟨_, rfl⟩ | ⟨_, hk2⟩
    · exact Nat.lt_succ_self _
    · exact Nat.lt_succ_of_lt (I.var_lt k w hk2)
  · intro k w hk
    exact Nat.lt_succ_of_lt (I.gvar_lt k w hk)
  · intro n1 n2 w h1 h2
    rcases mapFind_mapSet_some _ _ _ _ _ h1 with ⟨e1, rfl⟩ | ⟨_, h1b⟩
    · rcases mapFind_mapSet_some _ _ _ _ _ h2 with ⟨e2, _⟩ | ⟨_, h2b⟩
      · rw [e1, e2]
      · exact absurd (I.var_lt _ _ h2b) (Nat.lt_irrefl _)
    · rcases mapFind_mapSet_some _ _ _ _ _ h2 with ⟨_, rfl⟩ | ⟨_, h2b⟩
      · exact absurd (I.var_lt _ _ h1b) (Nat.lt_irrefl _)
      · exact I.inj n1 n2 w h1b h2b
  · intro k w hk hf
    rcases mapFind_mapSet_some _ _ _ _ _ hf with ⟨e, _⟩ | ⟨_, hfb⟩
    · exact absurd (e ▸ hk) hn
    · exact I.pi_shared k w hk hfb
  · intro k k2 w hg hf
    rcases mapFind_mapSet_some _ _ _ _ _ hf with ⟨_, rfl⟩ | ⟨_, hfb⟩
    · exact absurd (I.gvar_lt _ _ hg) (Nat.lt_irrefl _)
    · exact I.g_sep k k2 w hg hfb
  · intro k w hf hw
    rcases mapFind_mapSet_some _ _ _ _ _ hf with ⟨_, rfl⟩ | ⟨_, hfb⟩
    · exact absurd (Nat.lt_of_lt_of_le hw I.n0_le) (Nat.lt_irrefl _)
    · exact I.old_var k w hfb hw
  · intro k w hg hw
    exact hext _ _ (I.gnew k w hg hw)
  · intro v hv hlt
    rcases Nat.lt_succ_iff_lt_or_eq.1 hlt with h | h
    · obtain ⟨k, hk⟩ := I.alloc v hv h
      exact ⟨k, hext _ _ hk⟩
    · exact ⟨n, by rw [h]; exact mapFind_mapSet_self _ _ _⟩
  · intro g hg k hk
    exact List.mem_cons_of_mem _ (I.done_ports g hg k hk)
  · intro c
    have hN : n0 ≤ st.solver.nVars := I.n0_le
    have u1 := unit_mapSet st.varMap n st.solver.nVars hm n0 "VDD" c (fun v => [mkLit v])
    have u2 := unit_mapSet st.varMap n st.solver.nVars hm n0 "VSS" c
      (fun v => [(mkLit v).neg])
    simp only at u1 u2
    rw [List.mem_append, I.mem c, mem_constUnits,
      gate_mem_ext _ _ done ns c hext I.keys I.done_ports I.done_active, u1, u2]
    exact units_added _ _ _ _ _ _ _ _ _ hN

theorem syn_shared (pis : List String) (n0 : Nat) (g0 : VarMap) (cl0 : List Clause)
    (done : List Gate) (ns : List String) (st : EncState) (n : String) (hn : n ∈ pis)
    (hg : mapFind st.globalInputMap n = none) (hm : mapFind st.varMap n = none)
    (I : Syn pis n0 g0 cl0 done ns st) :
    Syn pis n0 g0 cl0 done (n :: ns)
      ⟨⟨st.solver.nVars + 1, st.solver.clauses ++ constUnits n st.solver.nVars⟩,
        mapSet st.varMap n st.solver.nVars, mapSet st.globalInputMap n st.solver.nVars⟩ := by
  have hext := MapExt_mapSet st.varMap n st.solver.nVars hm
  have hgext := MapExt_mapSet st.globalInputMap n st.solver.nVars hg
  refine ⟨?_, ?_, ?_, ?_, ?_, ?_, ?_, ?_, ?_, ?_, ?_, keys_mapSet _ _ _ _ I.keys, ?_, ?_, ?_,
    I.done_active, ?_⟩
  · exact Nat.le_succ_of_le I.n0_le
  · intro k w hk
    rcases mapFind_mapSet_some _ _ _ _ _ hk with ⟨_, rfl⟩ | ⟨_, hk2⟩
    · exact Nat.lt_succ_self _
    · exact Nat.lt_succ_of_lt (I.var_lt k w hk2)
  · intro k w hk
    rcases mapFind_mapSet_some _ _ _ _ _ hk with ⟨_, rfl⟩ | ⟨_, hk2⟩
    · exact Nat.lt_succ_self _
    · exact Nat.lt_succ_of_lt (I.gvar_lt k w hk2)
  · intro n1 n2 w h1 h2
    rcases mapFind_mapSet_some _ _ _ _ _ h1 with ⟨e1, rfl⟩ | ⟨_, h1b⟩
    · rcases mapFind_mapSet_some _ _ _ _ _ h2 with ⟨e2, _⟩ | ⟨_, h2b⟩
      · rw [e1, e2]
      · exact absurd (I.var_lt _ _ h2b) (Nat.lt_irrefl _)
    · rcases mapFind_mapSet_some _ _ _ _ _ h2 with ⟨_, rfl⟩ | ⟨_, h2b⟩
      · exact absurd (I.var_lt _ _ h1b) (Nat.lt_irrefl _)
      · exact I.inj n1 n2 w h1b h2b
  · intro n1 n2 w h1 h2
    rcases mapFind_mapSet_some _ _ _ _ _ h1 with ⟨e1, rfl⟩ | ⟨_, h1b⟩
    · rcases mapFind_mapSet_some _ _ _ _ _ h2 with ⟨e2, _⟩ | ⟨_, h2b⟩
      · rw [e1, e2]
      · exact absurd (I.gvar_lt _ _ h2b) (Nat.lt_irrefl _)
    · rcases mapFind_mapSet_some _ _ _ _ _ h2 with ⟨_, rfl⟩ | ⟨_, h2b⟩
      · exact absurd (I.gvar_lt _ _ h1b) (Nat.lt_irrefl _)
      · exact I.ginj n1 n2 w h1b h2b
  · intro k w hk hf
    rcases mapFind_mapSet_some _ _ _ _ _ hf with ⟨e, rfl⟩ | ⟨hne, hfb⟩
    · rw [e]
      exact mapFind_mapSet_self _ _ _
    · exact hgext k w (I.pi_shared k w hk hfb)
  · intro k k2 w hgk hf
    rcases mapFind_mapSet_some _ _ _ _ _ hgk with ⟨e1, rfl⟩ | ⟨_, hgb⟩
    · rcases mapFind_mapSet_some _ _ _ _ _ hf with ⟨e2, _⟩ | ⟨_, hfb⟩
      · rw [e1, e2]
      · exact absurd (I.var_lt _ _ hfb) (Nat.lt_irrefl _)
    · rcases mapFind_mapSet_some _ _ _ _ _ hf with ⟨_, rfl⟩ | ⟨_, hfb⟩
      · exact absurd (I.gvar_lt _ _ hgb) (Nat.lt_irrefl _)
      · exact I.g_sep k k2 w hgb hfb
  · intro k w hk
    rcases mapFind_mapSet_some _ _ _ _ _ hk with ⟨e, _⟩ | ⟨_, hk2⟩
    · exact e ▸ hn
    · exact I.gkeys k w hk2
  · exact MapExt_trans _ _ _ I.g_mono hgext
  · intro k w hk hw
    rcases mapFind_mapSet_some _ _ _ _ _ hk with ⟨_, rfl⟩ | ⟨_, hk2⟩
    · exact absurd (Nat.lt_of_lt_of_le hw I.n0_le) (Nat.lt_irrefl _)
    · exact I.g_old k w hk2 hw
  · intro k w hf hw
    rcases mapFind_mapSet_some _ _ _ _ _ hf with ⟨_, rfl⟩ | ⟨_, hfb⟩
    · exact absurd (Nat.lt_of_lt_of_le hw I.n0_le) (Nat.lt_irrefl _)
    · exact I.old_var k w hfb hw
  · intro k w hgk hw
    rcases mapFind_mapSet_some _ _ _ _ _ hgk with ⟨e, rfl⟩ | ⟨_, hgb⟩
    · rw [e]
      exact mapFind_mapSet_self _ _ _
    · exact hext _ _ (I.gnew k w hgb hw)
  · intro v hv hlt
    rcases Nat.lt_succ_iff_lt_or_eq.1 hlt with h | h
    · obtain ⟨k, hk⟩ := I.alloc v hv h
      exact ⟨k, hext _ _ hk⟩
    · exact ⟨n, by rw [h]; exact mapFind_mapSet_self _ _ _⟩
  · intro g hg2 k hk
    exact List.mem_cons_of_mem _ (I.done_ports g hg2 k hk)
  · intro c
    have hN : n0 ≤ st.solver.nVars := I.n0_le
    have u1 := unit_mapSet st.varMap n st.solver.nVars hm n0 "VDD" c (fun v => [mkLit v])
    have u2 := unit_mapSet st.varMap n st.solver.nVars hm n0 "VSS" c
      (fun v => [(mkLit v).neg])
    simp only at u1 u2
    rw [List.mem_append, I.mem c, mem_constUnits,
      gate_mem_ext _ _ done ns c hext I.keys I.done_ports I.done_active, u1, u2]
    exact units_added _ _ _ _ _ _ _ _ _ hN

theorem syn_takeOver (pis : List String) (n0 : Nat) (g0 : VarMap) (cl0 : List Clause)
    (done : List Gate) (ns : List String) (st : EncState) (n : String) (gv : Var)
    (hg : mapFind st.globalInputMap n = some gv) (hm : mapFind st.varMap n = none)
    (I : Syn pis n0 g0 cl0 done ns st) :
    Syn pis n0 g0 cl0 done (n :: ns) ⟨st.solver, mapSet st.varMap n gv, st.globalInputMap⟩ := by
  have hext := MapExt_mapSet st.varMap n gv hm
  have hgv : ¬ n0 ≤ gv := by
    intro h
    rw [I.gnew n gv hg h] at hm
    cases hm
  refine ⟨I.n0_le, ?_, I.gvar_lt, ?_, I.ginj, ?_, ?_, I.gkeys, I.g_mono, I.g_old, ?_,
    keys_mapSet _ _ _ _ I.keys, ?_, ?_, ?_, I.done_active, ?_⟩
  · intro k w hk
    rcases mapFind_mapSet_some _ _ _ _ _ hk with ⟨_, rfl⟩ | ⟨_, hk2⟩
    · exact I.gvar_lt n _ hg
    · exact I.var_lt k w hk2
  · intro n1 n2 w h1 h2
    rcases mapFind_mapSet_some _ _ _ _ _ h1 with ⟨e1, rfl⟩ | ⟨_, h1b⟩
    · rcases mapFind_mapSet_some _ _ _ _ _ h2 with ⟨e2, _⟩ | ⟨_, h2b⟩
      · rw [e1, e2]
      · rw [e1]
        exact (I.g_sep n n2 _ hg h2b).symm
    · rcases mapFind_mapSet_some _ _ _ _ _ h2 with ⟨e2, rfl⟩ | ⟨_, h2b⟩
      · rw [e2]
        exact I.g_sep n n1 _ hg h1b
      · exact I.inj n1 n2 w h1b h2b
  · intro k w hk hf
    rcases mapFind_mapSet_some _ _ _ _ _ hf with ⟨e, rfl⟩ | ⟨_, hfb⟩
    · rw [e]
      exact hg
    · exact I.pi_shared k w hk hfb
  · intro k k2 w hgk hf
    rcases mapFind_mapSet_some _ _ _ _ _ hf with ⟨e, rfl⟩ | ⟨_, hfb⟩
    · rw [e]
      exact I.ginj n k _ hg hgk
    · exact I.g_sep k k2 w hgk hfb
  · intro k w hf hw
    rcases mapFind_mapSet_some _ _ _ _ _ hf with ⟨e, rfl⟩ | ⟨_, hfb⟩
    · rw [e]
      exact I.g_old n _ hg hw
    · exact I.old_var k w hfb hw
  · intro k w hgk hw
    exact hext _ _ (I.gnew k w hgk hw)
  · intro v hv hlt
    obtain ⟨k, hk⟩ := I.alloc v hv hlt
    exact ⟨k, hext _ _ hk⟩
  · intro g hg2 k hk
    exact List.mem_cons_of_mem _ (I.done_ports g hg2 k hk)
  · intro c
    have u1 := unit_mapSet st.varMap n gv hm n0 "VDD" c (fun v => [mkLit v])
    have u2 := unit_mapSet st.varMap n gv hm n0 "VSS" c (fun v => [(mkLit v).neg])
    simp only at u1 u2
    rw [I.mem c, gate_mem_ext _ _ done ns c hext I.keys I.done_ports I.done_active, u1, u2]
    exact units_kept _ _ _ _ _ _ _ _ _ hgv

/-- A name that already has a variable may be listed again. -/
theorem syn_again (pis : List String) (n0 : Nat) (g0 : VarMap) (cl0 : List Clause)
    (done : List Gate) (ns : List String) (st : EncState) (n : String) (v : Var)
    (hm : mapFind st.varMap n = some v) (I : Syn pis n0 g0 cl0 done ns st) :
    Syn pis n0 g0 cl0 done (n :: ns) st := by
  have hn : n ∈ ns := (I.keys n).1 ⟨v, hm⟩
  refine ⟨I.n0_le, I.var_lt, I.gvar_lt, I.inj, I.ginj, I.pi_shared, I.g_sep, I.gkeys, I.g_mono,
    I.g_old, I.old_var, ?_, I.gnew, I.alloc, ?_, I.done_active, I.mem⟩
  · intro k
    rw [I.keys k, List.mem_cons]
    constructor
    · exact fun h => Or.inr h
    · rintro (h | h)
      · rw [h]
        exact hn
      · exact h
  · intro g hg k hk
    exact List.mem_cons_of_mem _ (I.done_ports g hg k hk)

/-! ## Port declarations and gates preserve the description by names -/

theorem Syn_congr (pis : List String) (n0 : Nat) (g0 : VarMap) (cl0 : List Clause)
    (done : List Gate) (ns ns2 : List String) (st : EncState)
    (h : ∀ n, n ∈ ns ↔ n ∈ ns2) (I : Syn pis n0 g0 cl0 done ns st) :
    Syn pis n0 g0 cl0 done ns2 st :=
  ⟨I.n0_le, I.var_lt, I.gvar_lt, I.inj, I.ginj, I.pi_shared, I.g_sep, I.gkeys, I.g_mono,
    I.g_old, I.old_var, fun n => (I.keys n).trans (h n), I.gnew, I.alloc,
    fun g hg n hn => (h n).1 (I.done_ports g hg n hn), I.done_active, I.mem⟩

theorem declareInput_syn (pis : List String) (n0 : Nat) (g0 : VarMap) (cl0 : List Clause)
    (done : List Gate) (ns : List String) (st : EncState) (input : String)
    (I : Syn pis n0 g0 cl0 done ns st) :
    Syn pis n0 g0 cl0 done (input :: ns) (declareInput pis st input) := by
  unfold declareInput
  by_cases hp : input ∈ pis
  · simp only [hp, if_true]
    cases hg : mapFind st.globalInputMap input with
    | none =>
      have hm : mapFind st.varMap input = none := by
        cases hm : mapFind st.varMap input with
        | none => rfl
        | some v =>
          rw [I.pi_shared input v hp hm] at hg
          cases hg
      simp only [getOrCreateVar_fresh _ _ _ hm, mapGet, mapFind_mapSet_self, Option.getD_some,
        mapSet_same _ _ _ (mapFind_mapSet_self st.varMap input st.solver.nVars)]
      exact syn_shared _ _ _ _ _ _ st input hp hg hm I
    | some gv =>
      simp only [mapGet, hg, Option.getD_some]
      cases hm : mapFind st.varMap input with
      | none => exact syn_takeOver _ _ _ _ _ _ st input gv hg hm I
      | some v =>
        have e : v = gv := by
          have := I.pi_shared input v hp hm
          rw [hg] at this
          exact (Option.some.inj this).symm
        subst e
        rw [mapSet_same _ _ _ hm]
        exact syn_again _ _ _ _ _ _ st input v hm I
  · simp only [hp, if_false]
    cases hm : mapFind st.varMap input with
    | none =>
      simp only [getOrCreateVar_fresh _ _ _ hm]
      exact syn_fresh _ _ _ _ _ _ st input hp hm I
    | some v =>
      simp only [getOrCreateVar_found _ _ _ _ hm]
      exact syn_again _ _ _ _ _ _ st input v hm I

theorem declareOutput_syn (pis : List String) (n0 : Nat) (g0 : VarMap) (cl0 : List Clause)
    (done : List Gate) (ns : List String) (st : EncState) (output : String)
    (hp : output ∉ pis) (I : Syn pis n0 g0 cl0 done ns st) :
    Syn pis n0 g0 cl0 done (output :: ns) (declareOutput st output) := by
  unfold declareOutput
  cases hm : mapFind st.varMap output with
  | none =>
    simp only [getOrCreateVar_fresh _ _ _ hm]
    exact syn_fresh _ _ _ _ _ _ st output hp hm I
  | some v =>
    simp only [getOrCreateVar_found _ _ _ _ hm]
    exact syn_again _ _ _ _ _ _ st output v hm I

theorem foldl_declareInput_syn (pis : List String) (n0 : Nat) (g0 : VarMap)
    (cl0 : List Clause) (done : List Gate) (ins : List String) (ns : List String)
    (st : EncState) (I : Syn pis n0 g0 cl0 done ns st) :
    Syn pis n0 g0 cl0 done (ins ++ ns) (ins.foldl (declareInput pis) st) := by
  induction ins generalizing st ns with
  | nil => exact I
  | cons a ins ih =>
    have h := ih (a :: ns) _ (declareInput_syn pis n0 g0 cl0 done ns st a I)
    refine Syn_congr _ _ _ _ _ _ _ _ ?_ h
    intro n
    simp only [List.mem_append, List.mem_cons]
    tauto

theorem foldl_declareOutput_syn (pis : List String) (n0 : Nat) (g0 : VarMap)
    (cl0 : List Clause) (done : List Gate) (outs : List String) (ns : List String)
    (st : EncState) (hp : ∀ o ∈ outs, o ∉ pis) (I : Syn pis n0 g0 cl0 done ns st) :
    Syn pis n0 g0 cl0 done (outs ++ ns) (outs.foldl declareOutput st) := by
  induction outs generalizing st ns with
  | nil => exact I
  | cons a outs ih =>
    have h := ih (a :: ns) _ (fun o ho => hp o (List.mem_cons_of_mem _ ho))
      (declareOutput_syn pis n0 g0 cl0 done ns st a (hp a (List.mem_cons_self _ _)) I)
    refine Syn_congr _ _ _ _ _ _ _ _ ?_ h
    intro n
    simp only [List.mem_append, List.mem_cons]
    tauto

theorem declarePorts_syn (pis : List String) (n0 : Nat) (g0 : VarMap)
    (cl0 : List Clause) (done : List Gate) (ns : List String) (st : EncState) (g : Gate)
    (hp : ∀ o ∈ g.outputs, o ∉ pis) (I : Syn pis n0 g0 cl0 done ns st) :
    Syn pis n0 g0 cl0 done (g.inputs ++ g.outputs ++ ns) (declarePorts pis st g) := by
  unfold declarePorts
  have h := foldl_declareOutput_syn pis n0 g0 cl0 done g.outputs _ _ hp
    (foldl_declareInput_syn pis n0 g0 cl0 done g.inputs ns st I)
  refine Syn_congr _ _ _ _ _ _ _ _ ?_ h
  intro n
  simp only [List.mem_append]
  tauto

theorem gateClausesOf_eq (m : VarMap) (g : Gate) (o : String) (os : List String)
    (cls : List Clause) (ho : g.outputs = o :: os)
    (h : encodeGate g.gateType (g.inputs.map (mapGet m)) (mapGet m o) = some cls) :
    gateClausesOf m g = cls := by
  unfold gateClausesOf
  rw [ho]
  simp only [List.headD_cons, h, Option.getD_some]

theorem addGate_syn (pis : List String) (n0 : Nat) (g0 : VarMap)
    (cl0 : List Clause) (done : List Gate) (ns : List String) (st : EncState) (g : Gate)
    (ha : Active g) (hp : ∀ n, n ∈ g.inputs ∨ n ∈ g.outputs → n ∈ ns)
    (I : Syn pis n0 g0 cl0 done ns st) :
    Syn pis n0 g0 cl0 (g :: done) ns
      { st with solver := st.solver.addClauses (gateClausesOf st.varMap g) } := by
  refine ⟨?_, ?_, ?_, I.inj, I.ginj, I.pi_shared, I.g_sep, I.gkeys, I.g_mono, I.g_old,
    I.old_var, I.keys, I.gnew, ?_, ?_, ?_, ?_⟩
  · simp only [addClauses_nVars]
    exact I.n0_le
  · simp only [addClauses_nVars]
    exact I.var_lt
  · simp only [addClauses_nVars]
    exact I.gvar_lt
  · simp only [addClauses_nVars]
    exact I.alloc
  · intro g2 hg2 n hn
    rcases List.mem_cons.1 hg2 with e | h
    · rw [e] at hn
      exact hp n hn
    · exact I.done_ports g2 h n hn
  · intro g2 hg2
    rcases List.mem_cons.1 hg2 with e | h
    · rw [e]
      exact ha
    · exact I.done_active g2 h
  · intro c
    simp only [addClauses_clauses, List.mem_append, I.mem c, List.exists_mem_cons_iff]
    constructor
    · rintro ((h | h | h) | h)
      · exact Or.inl h
      · exact Or.inr (Or.inl (Or.inr h))
      · exact Or.inr (Or.inr h)
      · exact Or.inr (Or.inl (Or.inl h))
    · rintro (h | (h | h) | h)
      · exact Or.inl (Or.inl h)
      · exact Or.inr h
      · exact Or.inl (Or.inr (Or.inl h))
      · exact Or.inl (Or.inr (Or.inr h))

theorem processGate_syn (pis : List String) (n0 : Nat) (g0 : VarMap)
    (cl0 : List Clause) (done : List Gate) (ns : List String) (st st2 : EncState) (g : Gate)
    (hp : ∀ o ∈ g.outputs, o ∉ pis) (I : Syn pis n0 g0 cl0 done ns st)
    (h : processGate pis st g = some st2) :
    (¬ Active g ∧ Syn pis n0 g0 cl0 done ns st2) ∨
    (Active g ∧ Syn pis n0 g0 cl0 (g :: done) (g.inputs ++ g.outputs ++ ns) st2) := by
  cases hi : g.inputs with
  | nil =>
    simp only [processGate, hi] at h
    have e : st2 = st := (Option.some.inj h).symm
    rw [e]
    exact Or.inl ⟨fun ha => ha.1 hi, I⟩
  | cons i is =>
    cases ho : g.outputs with
    | nil =>
      simp only [processGate, hi, ho] at h
      have e : st2 = st := (Option.some.inj h).symm
      rw [e]
      exact Or.inl ⟨fun ha => ha.2 ho, I⟩
    | cons o os =>
      have ha : Active g := ⟨by rw [hi]; exact List.cons_ne_nil _ _,
        by rw [ho]; exact List.cons_ne_nil _ _⟩
      rw [processGate_cons pis st g i is o os hi ho] at h
      cases he : encodeGate g.gateType (g.inputs.map (mapGet (declarePorts pis st g).varMap))
          (mapGet (declarePorts pis st g).varMap o) with
      | none =>
        rw [he] at h
        cases h
      | some cls =>
        rw [he] at h
        have e := (Option.some.inj h).symm
        have J := declarePorts_syn pis n0 g0 cl0 done ns st g hp I
        have K := addGate_syn pis n0 g0 cl0 done _ _ g ha
          (fun n hn => by
            simp only [List.mem_append]
            tauto) J
        rw [gateClausesOf_eq _ g o os cls ho he] at K
        rw [e, ← hi, ← ho]
        exact Or.inr ⟨ha, K⟩

theorem encodeGates_syn (pis : List String) (n0 : Nat) (g0 : VarMap)
    (cl0 : List Clause) (gs : List Gate) (done : List Gate) (ns : List String)
    (st st2 : EncState)
    (hp : ∀ g ∈ gs, ∀ o ∈ g.outputs, o ∉ pis) (I : Syn pis n0 g0 cl0 done ns st)
    (h : encodeGates pis st gs = some st2) :
    ∃ done2 ns2, Syn pis n0 g0 cl0 done2 ns2 st2 ∧
      (∀ g, g ∈ done2 ↔ (g ∈ done ∨ (g ∈ gs ∧ Active g))) ∧
      (∀ n, n ∈ ns2 ↔ (n ∈ ns ∨ IsPort gs n)) := by
  induction gs generalizing st done ns with
  | nil =>
    simp only [encodeGates] at h
    have e : st2 = st := (Option.some.inj h).symm
    rw [e]
    refine ⟨done, ns, I, ?_, ?_⟩
    · intro g
      simp
    · intro n
      simp [IsPort]
  | cons g gs ih =>
    simp only [encodeGates] at h
    cases hg : processGate pis st g with
    | none =>
      rw [hg] at h
      cases h
    | some st1 =>
      rw [hg] at h
      have hp2 : ∀ g ∈ gs, ∀ o ∈ g.outputs, o ∉ pis :=
        fun g2 h2 => hp g2 (List.mem_cons_of_mem _ h2)
      rcases processGate_syn pis n0 g0 cl0 done ns st st1 g
          (hp g (List.mem_cons_self _ _)) I hg with ⟨hna, J⟩ | ⟨ha, J⟩
      · obtain ⟨done2, ns2, K, k1, k2⟩ := ih done ns st1 hp2 J h
        refine ⟨done2, ns2, K, ?_, ?_⟩
        · intro g2
          rw [k1 g2, List.mem_cons]
          constructor
          · rintro (h1 | ⟨h1, h2⟩)
            · exact Or.inl h1
            · exact Or.inr ⟨Or.inr h1, h2⟩
          · rintro (h1 | ⟨h1 | h1, h2⟩)
            · exact Or.inl h1
            · rw [h1] at h2
              exact absurd h2 hna
            · exact Or.inr ⟨h1, h2⟩
        · intro n
          rw [k2 n]
          simp only [IsPort, List.exists_mem_cons_iff]
          constructor
          · rintro (h1 | h1)
            · exact Or.inl h1
            · exact Or.inr (Or.inr h1)
          · rintro (h1 | h1 | h1)
            · exact Or.inl h1
            · exact absurd h1.1 hna
            · exact Or.inr h1
      · obtain ⟨done2, ns2, K, k1, k2⟩ := ih (g :: done) _ st1 hp2 J h
        refine ⟨done2, ns2, K, ?_, ?_⟩
        · intro g2
          rw [k1 g2, List.mem_cons, List.mem_cons]
          constructor
          · rintro ((h1 | h1) | ⟨h1, h2⟩)
            · exact Or.inr ⟨Or.inl h1, h1 ▸ ha⟩
            · exact Or.inl h1
            · exact Or.inr ⟨Or.inr h1, h2⟩
          · rintro (h1 | ⟨h1 | h1, h2⟩)
            · exact Or.inl (Or.inr h1)
            · exact Or.inl (Or.inl h1)
            · exact Or.inr ⟨h1, h2⟩
        · intro n
          rw [k2 n]
          simp only [IsPort, List.exists_mem_cons_iff, List.mem_append]
          constructor
          · rintro (((h1 | h1) | h1) | h1)
            · exact Or.inr (Or.inl ⟨ha, Or.inl h1⟩)
            · exact Or.inr (Or.inl ⟨ha, Or.inr h1⟩)
            · exact Or.inl h1
            · exact Or.inr (Or.inr h1)
          · rintro (h1 | ⟨_, h1 | h1⟩ | h1)
            · exact Or.inl (Or.inr h1)
            · exact Or.inl (Or.inl (Or.inl h1))
            · exact Or.inl (Or.inl (Or.inr h1))
            · exact Or.inr h1

/-! ## The result of both passes, described by names -/

theorem Syn_start (pis : List String) (s : Solver) (g : VarMap)
    (hlt : ∀ n v, mapFind g n = some v → v < s.nVars)
    (hinj : ∀ n1 n2 v, mapFind g n1 = some v → mapFind g n2 = some v → n1 = n2)
    (hkeys : ∀ n v, mapFind g n = some v → n ∈ pis) :
    Syn pis s.nVars g s.clauses [] [] ⟨s, [], g⟩ := by
  refine ⟨Nat.le_refl _, ?_, hlt, ?_, hinj, ?_, ?_, hkeys, MapExt_refl _, ?_, ?_, ?_, ?_, ?_,
    ?_, ?_, ?_⟩
  · intro n v h
    cases h
  · intro n1 n2 v h
    cases h
  · intro n v _ h
    cases h
  · intro n n2 v _ h
    cases h
  · intro n v h _
    exact h
  · intro n v h
    cases h
  · intro n
    constructor
    · rintro ⟨v, h⟩
      cases h
    · intro h
      cases h
  · intro n v h hv
    exact absurd (hlt n v h) (Nat.not_lt.2 hv)
  · intro v h1 h2
    exact absurd h2 (Nat.not_lt.2 h1)
  · intro g hg
    cases hg
  · intro g hg
    cases hg
  · intro c
    constructor
    · exact fun h => Or.inl h
    · rintro (h | ⟨g, hg, _⟩ | ⟨v, _, h, _⟩ | ⟨v, _, h, _⟩)
      · exact h
      · cases hg
      · cases h
      · cases h

theorem encodeGate_isSome (t : String) (ins ins2 : List Var) (o o2 : Var)
    (h : ins.length = ins2.length) :
    (encodeGate t ins o).isSome = (encodeGate t ins2 o2).isSome := by
  unfold encodeGate
  cases classify t
  · cases ins with
    | nil =>
      cases ins2 with
      | nil => rfl
      | cons b l2 => cases h
    | cons a l =>
      cases ins2 with
      | nil => cases h
      | cons b l2 => rfl
  · cases ins with
    | nil =>
      cases ins2 with
      | nil => rfl
      | cons b l2 => cases h
    | cons a l =>
      cases ins2 with
      | nil => cases h
      | cons b l2 => rfl
  · rfl
  · rfl
  · rfl
  · rfl
  · cases ins with
    | nil =>
      cases ins2 with
      | nil => rfl
      | cons b l2 => cases h
    | cons a l =>
      cases ins2 with
      | nil => cases h
      | cons b l2 =>
        cases l with
        | nil =>
          cases l2 with
          | nil => rfl
          | cons b2 l3 => cases h
        | cons a2 l1 =>
          cases l2 with
          | nil => cases h
          | cons b2 l3 => rfl
  · rfl
  · rfl

theorem dispatchable_iff (g : Gate) (m : VarMap) (o : Var) :
    Dispatchable g ↔ ∃ cls, encodeGate g.gateType (g.inputs.map (mapGet m)) o = some cls := by
  unfold Dispatchable
  rw [encodeGate_isSome g.gateType (g.inputs.map (fun _ => 0)) (g.inputs.map (mapGet m)) 0 o
    (by simp), Option.isSome_iff_exists]

theorem processGate_some_iff (pis : List String) (st : EncState) (g : Gate) :
    (∃ st2, processGate pis st g = some st2) ↔ (Active g → Dispatchable g) := by
  cases hi : g.inputs with
  | nil =>
    simp only [processGate, hi]
    exact ⟨fun _ ha => absurd hi ha.1, fun _ => ⟨st, rfl⟩⟩
  | cons i is =>
    cases ho : g.outputs with
    | nil =>
      simp only [processGate, hi, ho]
      exact ⟨fun _ ha => absurd ho ha.2, fun _ => ⟨st, rfl⟩⟩
    | cons o os =>
      have ha : Active g := ⟨by rw [hi]; exact List.cons_ne_nil _ _,
        by rw [ho]; exact List.cons_ne_nil _ _⟩
      rw [processGate_cons pis st g i is o os hi ho,
        dispatchable_iff g (declarePorts pis st g).varMap (mapGet (declarePorts pis st g).varMap o)]
      constructor
      · rintro ⟨st2, h⟩ _
        cases he : encodeGate g.gateType (g.inputs.map (mapGet (declarePorts pis st g).varMap))
            (mapGet (declarePorts pis st g).varMap o) with
        | none =>
          rw [he] at h
          cases h
        | some cls => exact ⟨cls, rfl⟩
      · intro h
        obtain ⟨cls, he⟩ := h ha
        rw [he]
        exact ⟨_, rfl⟩

theorem encodeGates_some_iff (pis : List String) (st : EncState) (gs : List Gate) :
    (∃ st2, encodeGates pis st gs = some st2) ↔ ∀ g ∈ gs, Active g → Dispatchable g := by
  induction gs generalizing st with
  | nil =>
    simp only [encodeGates]
    exact ⟨fun _ g hg => (by cases hg), fun _ => ⟨st, rfl⟩⟩
  | cons g gs ih =>
    simp only [encodeGates, List.forall_mem_cons]
    cases hg : processGate pis st g with
    | none =>
      simp only
      constructor
      · rintro ⟨st2, h⟩
        cases h
      · rintro ⟨h, _⟩
        obtain ⟨st2, h2⟩ := (processGate_some_iff pis st g).2 h
        rw [hg] at h2
        cases h2
    | some st1 =>
      simp only
      rw [ih st1]
      constructor
      · intro h
        exact ⟨(processGate_some_iff pis st g).1 ⟨st1, hg⟩, h⟩
      · exact fun h => h.2

theorem encodeBoth_some_iff (spec imp : Cell) (pis : List String) :
    (∃ r, encodeBoth spec imp pis = some r) ↔
      ((∀ g ∈ spec.instances, Active g → Dispatchable g) ∧
        (∀ g ∈ imp.instances, Active g → Dispatchable g)) := by
  unfold encodeBoth generateCNF
  rw [← encodeGates_some_iff pis ⟨Solver.empty, [], []⟩ spec.instances]
  cases h1 : encodeGates pis ⟨Solver.empty, [], []⟩ spec.instances with
  | none =>
    simp only
    constructor
    · rintro ⟨r, h⟩
      cases h
    · rintro ⟨⟨st2, h⟩, _⟩
      cases h
  | some st1 =>
    simp only
    rw [← encodeGates_some_iff pis ⟨st1.solver, [], st1.globalInputMap⟩ imp.instances]
    cases h2 : encodeGates pis ⟨st1.solver, [], st1.globalInputMap⟩ imp.instances with
    | none =>
      simp only
      constructor
      · rintro ⟨r, h⟩
        cases h
      · rintro ⟨_, ⟨st2, h⟩⟩
        cases h
    | some st2 =>
      simp only
      exact ⟨fun _ => ⟨⟨_, rfl⟩, ⟨_, rfl⟩⟩, fun _ => ⟨_, rfl⟩⟩

theorem generateCNF_syn (cell : Cell) (pis : List String) (s : Solver) (g : VarMap)
    (st2 : EncState) (hp : NoDrivenInput pis cell.instances)
    (hlt : ∀ n v, mapFind g n = some v → v < s.nVars)
    (hinj : ∀ n1 n2 v, mapFind g n1 = some v → mapFind g n2 = some v → n1 = n2)
    (hkeys : ∀ n v, mapFind g n = some v → n ∈ pis)
    (h : generateCNF cell s [] pis g = some st2) :
    ∃ done ns, Syn pis s.nVars g s.clauses done ns st2 ∧
      (∀ g, g ∈ done ↔ (g ∈ cell.instances ∧ Active g)) ∧
      (∀ n, n ∈ ns ↔ IsPort cell.instances n) := by
  obtain ⟨done, ns, I, k1, k2⟩ := encodeGates_syn pis s.nVars g s.clauses cell.instances [] []
    ⟨s, [], g⟩ st2 hp (Syn_start pis s g hlt hinj hkeys) h
  refine ⟨done, ns, I, ?_, ?_⟩
  · intro g2
    rw [k1 g2]
    simp
  · intro n
    rw [k2 n]
    simp

theorem encodeBoth_summary (spec imp : Cell) (pis : List String) (solver : Solver)
    (mS mI G : VarMap) (hS : NoDrivenInput pis spec.instances)
    (hI : NoDrivenInput pis imp.instances)
    (h : encodeBoth spec imp pis = some (solver, mS, mI, G)) :
    Summary pis spec.instances imp.instances solver mS mI G := by
  unfold encodeBoth at h
  cases h1 : generateCNF spec Solver.empty [] pis [] with
  | none =>
    rw [h1] at h
    cases h
  | some st1 =>
    rw [h1] at h
    simp only at h
    cases h2 : generateCNF imp st1.solver [] pis st1.globalInputMap with
    | none =>
      rw [h2] at h
      cases h
    | some st2 =>
      rw [h2] at h
      simp only [Option.some.injEq, Prod.mk.injEq] at h
      obtain ⟨e1, e2, e3, e4⟩ := h
      obtain ⟨d1, ns1, I1, k1, p1⟩ := generateCNF_syn spec pis Solver.empty [] st1 hS
        (fun n v hn => by cases hn) (fun n1 n2 v hn => by cases hn)
        (fun n v hn => by cases hn) h1
      obtain ⟨d2, ns2, I2, k2, p2⟩ := generateCNF_syn imp pis st1.solver st1.globalInputMap
        st2 hI I1.gvar_lt I1.ginj I1.gkeys h2
      subst e1 e2 e3 e4
      have z : ∀ v : Nat, Solver.empty.nVars ≤ v := fun v => Nat.zero_le v
      refine ⟨fun n => (I1.keys n).trans (p1 n), fun n => (I2.keys n).trans (p2 n),
        I1.inj, I2.inj, ?_, I2.pi_shared, ?_, ?_, ?_, I2.var_lt, ?_, ?_⟩
      · intro n v hn hm
        exact I2.g_mono n v (I1.pi_shared n v hn hm)
      · intro n n2 v hm hm2
        have hg := I2.old_var n2 v hm2 (I1.var_lt n v hm)
        have hm3 := I1.gnew n2 v hg (z v)
        exact ⟨I1.inj n n2 v hm hm3, I1.gkeys n v (I1.pi_shared n v
          (by rw [I1.inj n n2 v hm hm3]; exact I1.gkeys n2 v hg) hm)⟩
      · intro n v hg
        refine ⟨I2.gkeys n v hg, ?_⟩
        by_cases hv : v < st1.solver.nVars
        · exact Or.inl (I1.gnew n v (I2.g_old n v hg hv) (z v))
        · exact Or.inr (I2.gnew n v hg (Nat.not_lt.1 hv))
      · intro n v hm
        exact Nat.lt_of_lt_of_le (I1.var_lt n v hm) I2.n0_le
      · intro v hv
        by_cases hv1 : v < st1.solver.nVars
        · obtain ⟨n, hn⟩ := I1.alloc v (z v) hv1
          exact ⟨n, Or.inl hn⟩
        · obtain ⟨n, hn⟩ := I2.alloc v (Nat.not_lt.1 hv1) hv
          exact ⟨n, Or.inr hn⟩
      · intro c
        rw [I2.mem c, I1.mem c]
        constructor
        · rintro ((h | ⟨g, hg, hc⟩ | ⟨v, _, hv, hc⟩ | ⟨v, _, hv, hc⟩) | ⟨g, hg, hc⟩ |
            ⟨v, _, hv, hc⟩ | ⟨v, _, hv, hc⟩)
          · cases h
          · exact Or.inl ⟨g, ((k1 g).1 hg).1, ((k1 g).1 hg).2, hc⟩
          · exact Or.inr (Or.inr (Or.inl ⟨v, Or.inl hv, hc⟩))
          · exact Or.inr (Or.inr (Or.inr ⟨v, Or.inl hv, hc⟩))
          · exact Or.inr (Or.inl ⟨g, ((k2 g).1 hg).1, ((k2 g).1 hg).2, hc⟩)
          · exact Or.inr (Or.inr (Or.inl ⟨v, Or.inr hv, hc⟩))
          · exact Or.inr (Or.inr (Or.inr ⟨v, Or.inr hv, hc⟩))
        · rintro (⟨g, hg, ha, hc⟩ | ⟨g, hg, ha, hc⟩ | ⟨v, hv | hv, hc⟩ | ⟨v, hv | hv, hc⟩)
          · exact Or.inl (Or.inr (Or.inl ⟨g, (k1 g).2 ⟨hg, ha⟩, hc⟩))
          · exact Or.inr (Or.inl ⟨g, (k2 g).2 ⟨hg, ha⟩, hc⟩)
          · exact Or.inl (Or.inr (Or.inr (Or.inl ⟨v, z v, hv, hc⟩)))
          · by_cases hv1 : v < st1.solver.nVars
            · exact Or.inl (Or.inr (Or.inr (Or.inl
                ⟨v, z v, I1.gnew _ v (I2.old_var _ v hv hv1) (z v), hc⟩)))
            · exact Or.inr (Or.inr (Or.inl ⟨v, Nat.not_lt.1 hv1, hv, hc⟩))
          · exact Or.inl (Or.inr (Or.inr (Or.inr ⟨v, z v, hv, hc⟩)))
          · by_cases hv1 : v < st1.solver.nVars
            · exact Or.inl (Or.inr (Or.inr (Or.inr
                ⟨v, z v, I1.gnew _ v (I2.old_var _ v hv hv1) (z v), hc⟩)))
            · exact Or.inr (Or.inr (Or.inr ⟨v, Nat.not_lt.1 hv1, hv, hc⟩))

/-! ## Renaming of variables -/

@[simp] theorem renameLit_mkLit (ρ : Var → Var) (v : Var) :
    renameLit ρ (mkLit v) = mkLit (ρ v) := rfl

@[simp] theorem renameLit_neg_mkLit (ρ : Var → Var) (v : Var) :
    renameLit ρ (mkLit v).neg = (mkLit (ρ v)).neg := rfl

theorem litTrue_rename (σ : Var → Bool) (ρ : Var → Var) (l : Lit) :
    litTrue σ (renameLit ρ l) = litTrue (fun v => σ (ρ v)) l := rfl

theorem clauseTrue_rename (σ : Var → Bool) (ρ : Var → Var) (c : Clause) :
    clauseTrue σ (renameClause ρ c) = clauseTrue (fun v => σ (ρ v)) c := by
  induction c with
  | nil => rfl
  | cons l c ih =>
    simp only [renameClause, List.map_cons, clauseTrue_cons] at ih ⊢
    rw [ih, litTrue_rename]

theorem cnfTrue_iff_mem (σ : Var → Bool) (cl : List Clause) :
    cnfTrue σ cl = true ↔ ∀ c ∈ cl, clauseTrue σ c = true := by
  simp [cnfTrue]

theorem cnfTrue_rename (σ : Var → Bool) (ρ : Var → Var) (cl cl2 : List Clause)
    (h : ∀ c2, c2 ∈ cl2 ↔ ∃ c ∈ cl, c2 = renameClause ρ c) :
    cnfTrue σ cl2 = true ↔ cnfTrue (fun v => σ (ρ v)) cl = true := by
  rw [cnfTrue_iff_mem, cnfTrue_iff_mem]
  constructor
  · intro h2 c hc
    rw [← clauseTrue_rename]
    exact h2 _ ((h _).2 ⟨c, hc, rfl⟩)
  · intro h2 c2 hc2
    obtain ⟨c, hc, e⟩ := (h c2).1 hc2
    rw [e, clauseTrue_rename]
    exact h2 c hc

theorem encodeGate_rename (ρ : Var → Var) (t : String) (ins : List Var) (o : Var) :
    encodeGate t (ins.map ρ) (ρ o) =
      (encodeGate t ins o).map (fun cls => cls.map (renameClause ρ)) := by
  unfold encodeGate
  cases classify t
  · cases ins with
    | nil => rfl
    | cons a l => rfl
  · cases ins with
    | nil => rfl
    | cons a l => rfl
  · simp [renameClause, Function.comp_def]
  · simp [renameClause, Function.comp_def]
  · simp [renameClause, Function.comp_def]
  · simp [renameClause, Function.comp_def]
  · cases ins with
    | nil => rfl
    | cons a l =>
      cases l with
      | nil => rfl
      | cons b l2 => rfl
  · rfl
  · rfl

theorem gateClausesOf_rename (m m2 : VarMap) (ρ : Var → Var) (g : Gate) (ha : Active g)
    (h : ∀ n, n ∈ g.inputs ∨ n ∈ g.outputs → mapGet m2 n = ρ (mapGet m n)) :
    gateClausesOf m2 g = (gateClausesOf m g).map (renameClause ρ) := by
  unfold gateClausesOf
  have h1 : g.inputs.map (mapGet m2) = (g.inputs.map (mapGet m)).map ρ := by
    rw [List.map_map]
    exact List.map_congr_left (fun n hn => h n (Or.inl hn))
  have h2 : mapGet m2 (g.outputs.headD "") = ρ (mapGet m (g.outputs.headD "")) := by
    apply h
    right
    cases ho : g.outputs with
    | nil => exact absurd ho ha.2
    | cons o os => simp
  rw [h1, h2, encodeGate_rename]
  cases encodeGate g.gateType (g.inputs.map (mapGet m)) (mapGet m (g.outputs.headD "")) with
  | none => rfl
  | some cls => rfl

theorem renameVar_spec {pis : List String} {gsS gsI gsS2 gsI2 : List Gate} {s s2 : Solver}
    {mS mI G mS2 mI2 G2 : VarMap} (A : Summary pis gsS gsI s mS mI G)
    (B : Summary pis gsS2 gsI2 s2 mS2 mI2 G2) (hS : ∀ n, IsPort gsS n → IsPort gsS2 n)
    (N N2 : Nat) (n : String) (v : Var) (h : mapFind mS n = some v) :
    mapFind mS2 n = some (renameVar mS mI mS2 mI2 N N2 v) := by
  obtain ⟨w, hw⟩ := (B.keysS n).2 (hS n ((A.keysS n).1 ⟨v, h⟩))
  unfold renameVar
  rw [revFind_of_mapFind mS v n A.injS h]
  simp only [hw]

theorem renameVar_imp {pis : List String} {gsS gsI gsS2 gsI2 : List Gate} {s s2 : Solver}
    {mS mI G mS2 mI2 G2 : VarMap} (A : Summary pis gsS gsI s mS mI G)
    (B : Summary pis gsS2 gsI2 s2 mS2 mI2 G2) (hS : ∀ n, IsPort gsS n → IsPort gsS2 n)
    (hI : ∀ n, IsPort gsI n → IsPort gsI2 n)
    (N N2 : Nat) (n : String) (v : Var) (h : mapFind mI n = some v) :
    mapFind mI2 n = some (renameVar mS mI mS2 mI2 N N2 v) := by
  obtain ⟨w, hw⟩ := (B.keysI n).2 (hI n ((A.keysI n).1 ⟨v, h⟩))
  unfold renameVar
  cases hr : revFind mS v with
  | some n0 =>
    have h0 := revFind_some mS v n0 hr
    obtain ⟨e, hp⟩ := A.cross n0 n v h0 h
    subst e
    obtain ⟨w2, hw2⟩ := (B.keysS n0).2 (hS n0 ((A.keysS n0).1 ⟨v, h0⟩))
    have e2 : w2 = w := by
      have a := B.shareS n0 w2 hp hw2
      rw [B.shareI n0 w hp hw] at a
      exact (Option.some.inj a).symm
    simp only [hw2, hw, e2]
  | none =>
    simp only [revFind_of_mapFind mI v n A.injI h, mapGet_of_find mI2 n w hw, hw]

theorem renameVar_global {pis : List String} {gsS gsI gsS2 gsI2 : List Gate} {s s2 : Solver}
    {mS mI G mS2 mI2 G2 : VarMap} (A : Summary pis gsS gsI s mS mI G)
    (B : Summary pis gsS2 gsI2 s2 mS2 mI2 G2) (hS : ∀ n, IsPort gsS n → IsPort gsS2 n)
    (hI : ∀ n, IsPort gsI n → IsPort gsI2 n)
    (N N2 : Nat) (n : String) (v : Var) (h : mapFind G n = some v) :
    mapFind G2 n = some (renameVar mS mI mS2 mI2 N N2 v) := by
  obtain ⟨hp, h1 | h1⟩ := A.gfrom n v h
  · exact B.shareS n _ hp (renameVar_spec A B hS N N2 n v h1)
  · exact B.shareI n _ hp (renameVar_imp A B hS hI N N2 n v h1)

theorem renameVar_diff {pis : List String} {gsS gsI : List Gate} {s : Solver}
    {mS mI G : VarMap} (A : Summary pis gsS gsI s mS mI G) (mS2 mI2 : VarMap)
    (N N2 : Nat) (v : Var) (hv : s.nVars ≤ v) :
    renameVar mS mI mS2 mI2 N N2 v = N2 + (v - N) := by
  unfold renameVar
  cases hr : revFind mS v with
  | some n0 =>
    exact absurd (A.ltS n0 v (revFind_some mS v n0 hr)) (Nat.not_lt.2 hv)
  | none =>
    cases hr2 : revFind mI v with
    | some n0 =>
      exact absurd (A.ltI n0 v (revFind_some mI v n0 hr2)) (Nat.not_lt.2 hv)
    | none => rfl

theorem renameVar_lt {pis : List String} {gsS gsI gsS2 gsI2 : List Gate} {s s2 : Solver}
    {mS mI G mS2 mI2 G2 : VarMap} (A : Summary pis gsS gsI s mS mI G)
    (B : Summary pis gsS2 gsI2 s2 mS2 mI2 G2) (hS : ∀ n, IsPort gsS n → IsPort gsS2 n)
    (hI : ∀ n, IsPort gsI n → IsPort gsI2 n)
    (N N2 : Nat) (v : Var) (hv : v < s.nVars) :
    renameVar mS mI mS2 mI2 N N2 v < s2.nVars := by
  obtain ⟨n, h | h⟩ := A.alloc v hv
  · exact B.ltS n _ (renameVar_spec A B hS N N2 n v h)
  · exact B.ltI n _ (renameVar_imp A B hS hI N N2 n v h)

/-- The renaming back is a left inverse of the renaming. -/
theorem renameVar_inverse {pis : List String} {gsS gsI gsS2 gsI2 : List Gate}
    {s s2 : Solver} {mS mI G mS2 mI2 G2 : VarMap} (A : Summary pis gsS gsI s mS mI G)
    (B : Summary pis gsS2 gsI2 s2 mS2 mI2 G2) (hS : ∀ n, IsPort gsS n → IsPort gsS2 n)
    (hI : ∀ n, IsPort gsI n → IsPort gsI2 n) (v : Var) :
    renameVar mS2 mI2 mS mI s2.nVars s.nVars
      (renameVar mS mI mS2 mI2 s.nVars s2.nVars v) = v := by
  by_cases hv : v < s.nVars
  · obtain ⟨n, h | h⟩ := A.alloc v hv
    · have h2 := renameVar_spec A B hS s.nVars s2.nVars n v h
      generalize renameVar mS mI mS2 mI2 s.nVars s2.nVars v = w at h2
      unfold renameVar
      rw [revFind_of_mapFind mS2 w n B.injS h2]
      simp only [h]
    · have h2 := renameVar_imp A B hS hI s.nVars s2.nVars n v h
      generalize renameVar mS mI mS2 mI2 s.nVars s2.nVars v = w at h2
      unfold renameVar
      cases hr : revFind mS2 w with
      | some n0 =>
        have h0 := revFind_some mS2 w n0 hr
        obtain ⟨e, hp⟩ := B.cross n0 n w h0 h2
        subst e
        cases hm : mapFind mS n0 with
        | some v2 =>
          have a := A.shareS n0 v2 hp hm
          rw [A.shareI n0 v hp h] at a
          simp only [hm]
          exact (Option.some.inj a).symm
        | none =>
          simp only [hm]
          exact mapGet_of_find mI n0 v h
      | none =>
        simp only [revFind_of_mapFind mI2 w n B.injI h2]
        exact mapGet_of_find mI n v h
  · have hv2 := Nat.not_lt.1 hv
    rw [renameVar_diff A mS2 mI2 s.nVars s2.nVars v hv2,
      renameVar_diff B mS mI s2.nVars s.nVars _ (Nat.le_add_right _ _)]
    have e : ∀ a b c : Nat, a ≤ c → a + (b + (c - a) - b) = c := by
      intro a b c h
      omega
    exact e _ _ _ hv2

theorem isPort_mono (gs gs2 : List Gate) (h : ∀ g ∈ gs, Active g → g ∈ gs2) (n : String)
    (hn : IsPort gs n) : IsPort gs2 n := by
  obtain ⟨g, hg, ha, hp⟩ := hn
  exact ⟨g, h g hg ha, ha, hp⟩

theorem gateClausesOf_renameVar (m m2 : VarMap) (ρ : Var → Var) (gs : List Gate)
    (hk : ∀ n, IsPort gs n → ∃ v, mapFind m n = some v)
    (hr : ∀ n v, mapFind m n = some v → mapFind m2 n = some (ρ v))
    (g : Gate) (hg : g ∈ gs) (ha : Active g) :
    gateClausesOf m2 g = (gateClausesOf m g).map (renameClause ρ) := by
  apply gateClausesOf_rename m m2 ρ g ha
  intro n hn
  obtain ⟨v, hv⟩ := hk n ⟨g, hg, ha, hn⟩
  rw [mapGet_of_find m n v hv, mapGet_of_find m2 n _ (hr n v hv)]

/-- The clauses of the larger encoding are the renamed clauses of the smaller one,
the clauses of the additional instances and the unit clauses of additional constants. -/
theorem rename_clauses {pis : List String} {gsS gsI gsS2 gsI2 : List Gate} {s s2 : Solver}
    {mS mI G mS2 mI2 G2 : VarMap} (A : Summary pis gsS gsI s mS mI G)
    (B : Summary pis gsS2 gsI2 s2 mS2 mI2 G2) (hS : ∀ g ∈ gsS, Active g → g ∈ gsS2)
    (hI : ∀ g ∈ gsI, Active g → g ∈ gsI2) (N N2 : Nat) (c2 : Clause) :
    c2 ∈ s2.clauses ↔
      ((∃ c ∈ s.clauses, c2 = renameClause (renameVar mS mI mS2 mI2 N N2) c) ∨
        (∃ g ∈ gsS2, Active g ∧ g ∉ gsS ∧ c2 ∈ gateClausesOf mS2 g) ∨
        (∃ g ∈ gsI2, Active g ∧ g ∉ gsI ∧ c2 ∈ gateClausesOf mI2 g) ∨
        (∃ v, ((mapFind mS2 "VDD" = some v ∧ mapFind mS "VDD" = none) ∨
            (mapFind mI2 "VDD" = some v ∧ mapFind mI "VDD" = none)) ∧ c2 = [mkLit v]) ∨
        (∃ v, ((mapFind mS2 "VSS" = some v ∧ mapFind mS "VSS" = none) ∨
            (mapFind mI2 "VSS" = some v ∧ mapFind mI "VSS" = none)) ∧
          c2 = [(mkLit v).neg])) := by
  have pS := isPort_mono gsS gsS2 hS
  have pI := isPort_mono gsI gsI2 hI
  have r1 := renameVar_spec A B pS N N2
  have r2 := renameVar_imp A B pS pI N N2
  have gS := gateClausesOf_renameVar mS mS2 _ gsS (fun n hn => (A.keysS n).2 hn) r1
  have gI := gateClausesOf_renameVar mI mI2 _ gsI (fun n hn => (A.keysI n).2 hn) r2
  constructor
  · intro h
    rcases (B.mem c2).1 h with ⟨g, hg, ha, hc⟩ | ⟨g, hg, ha, hc⟩ | ⟨v, hv | hv, hc⟩ |
      ⟨v, hv | hv, hc⟩
    · by_cases hin : g ∈ gsS
      · rw [gS g hin ha] at hc
        obtain ⟨c, hc1, hc2⟩ := List.mem_map.1 hc
        exact Or.inl ⟨c, (A.mem c).2 (Or.inl ⟨g, hin, ha, hc1⟩), hc2.symm⟩
      · exact Or.inr (Or.inl ⟨g, hg, ha, hin, hc⟩)
    · by_cases hin : g ∈ gsI
      · rw [gI g hin ha] at hc
        obtain ⟨c, hc1, hc2⟩ := List.mem_map.1 hc
        exact Or.inl ⟨c, (A.mem c).2 (Or.inr (Or.inl ⟨g, hin, ha, hc1⟩)), hc2.symm⟩
      · exact Or.inr (Or.inr (Or.inl ⟨g, hg, ha, hin, hc⟩))
    · cases hm : mapFind mS "VDD" with
      | none => exact Or.inr (Or.inr (Or.inr (Or.inl ⟨v, Or.inl ⟨hv, rfl⟩, hc⟩)))
      | some w =>
        have e := r1 _ w hm
        rw [hv] at e
        refine Or.inl ⟨[mkLit w], (A.mem _).2 (Or.inr (Or.inr (Or.inl ⟨w, Or.inl hm, rfl⟩))), ?_⟩
        rw [hc, Option.some.inj e]
        rfl
    · cases hm : mapFind mI "VDD" with
      | none => exact Or.inr (Or.inr (Or.inr (Or.inl ⟨v, Or.inr ⟨hv, rfl⟩, hc⟩)))
      | some w =>
        have e := r2 _ w hm
        rw [hv] at e
        refine Or.inl ⟨[mkLit w], (A.mem _).2 (Or.inr (Or.inr (Or.inl ⟨w, Or.inr hm, rfl⟩))), ?_⟩
        rw [hc, Option.some.inj e]
        rfl
    · cases hm : mapFind mS "VSS" with
      | none => exact Or.inr (Or.inr (Or.inr (Or.inr ⟨v, Or.inl ⟨hv, rfl⟩, hc⟩)))
      | some w =>
        have e := r1 _ w hm
        rw [hv] at e
        refine Or.inl ⟨[(mkLit w).neg],
          (A.mem _).2 (Or.inr (Or.inr (Or.inr ⟨w, Or.inl hm, rfl⟩))), ?_⟩
        rw [hc, Option.some.inj e]
        rfl
    · cases hm : mapFind mI "VSS" with
      | none => exact Or.inr (Or.inr (Or.inr (Or.inr ⟨v, Or.inr ⟨hv, rfl⟩, hc⟩)))
      | some w =>
        have e := r2 _ w hm
        rw [hv] at e
        refine Or.inl ⟨[(mkLit w).neg],
          (A.mem _).2 (Or.inr (Or.inr (Or.inr ⟨w, Or.inr hm, rfl⟩))), ?_⟩
        rw [hc, Option.some.inj e]
        rfl
  · rintro (⟨c, hc, e⟩ | ⟨g, hg, ha, _, hc⟩ | ⟨g, hg, ha, _, hc⟩ | ⟨v, hv, hc⟩ | ⟨v, hv, hc⟩)
    · rw [e]
      rcases (A.mem c).1 hc with ⟨g, hg, ha, hc⟩ | ⟨g, hg, ha, hc⟩ | ⟨v, hv | hv, hc⟩ |
        ⟨v, hv | hv, hc⟩
      · refine (B.mem _).2 (Or.inl ⟨g, hS g hg ha, ha, ?_⟩)
        rw [gS g hg ha]
        exact List.mem_map_of_mem _ hc
      · refine (B.mem _).2 (Or.inr (Or.inl ⟨g, hI g hg ha, ha, ?_⟩))
        rw [gI g hg ha]
        exact List.mem_map_of_mem _ hc
      · rw [hc]
        exact (B.mem _).2 (Or.inr (Or.inr (Or.inl ⟨_, Or.inl (r1 _ v hv), rfl⟩)))
      · rw [hc]
        exact (B.mem _).2 (Or.inr (Or.inr (Or.inl ⟨_, Or.inr (r2 _ v hv), rfl⟩)))
      · rw [hc]
        exact (B.mem _).2 (Or.inr (Or.inr (Or.inr ⟨_, Or.inl (r1 _ v hv), rfl⟩)))
      · rw [hc]
        exact (B.mem _).2 (Or.inr (Or.inr (Or.inr ⟨_, Or.inr (r2 _ v hv), rfl⟩)))
    · exact (B.mem _).2 (Or.inl ⟨g, hg, ha, hc⟩)
    · exact (B.mem _).2 (Or.inr (Or.inl ⟨g, hg, ha, hc⟩))
    · exact (B.mem _).2 (Or.inr (Or.inr (Or.inl ⟨v, hv.imp (fun h => h.1) (fun h => h.1), hc⟩)))
    · exact (B.mem _).2 (Or.inr (Or.inr (Or.inr ⟨v, hv.imp (fun h => h.1) (fun h => h.1), hc⟩)))

/-! ## The miter under a renaming -/

theorem alignedPairs_rename (mS mI mS2 mI2 : VarMap) (ρ : Var → Var)
    (r1 : ∀ n v, mapFind mS n = some v → mapFind mS2 n = some (ρ v))
    (r2 : ∀ n v, mapFind mI n = some v → mapFind mI2 n = some (ρ v))
    (os os2 : List String) (ps : List (Var × Var))
    (h : alignedPairs mS mI os os2 = some ps) :
    alignedPairs mS2 mI2 os os2 = some (ps.map (fun p => (ρ p.1, ρ p.2))) := by
  induction os generalizing os2 ps with
  | nil =>
    simp only [alignedPairs, Option.some.injEq] at h ⊢
    rw [← h]
    rfl
  | cons o os ih =>
    cases os2 with
    | nil => simp [alignedPairs] at h
    | cons o2 os2 =>
      simp only [alignedPairs] at h ⊢
      cases h1 : mapFind mS o with
      | none => simp [h1] at h
      | some a =>
        cases h2 : mapFind mI o2 with
        | none => simp [h1, h2] at h
        | some b =>
          cases hq : alignedPairs mS mI os os2 with
          | none => simp [h1, h2, hq] at h
          | some qs =>
            simp only [h1, h2, hq, Option.map_some', Option.some.injEq] at h
            simp only [r1 o a h1, r2 o2 b h2, ih os2 qs hq, Option.map_some', ← h, List.map_cons]

theorem pairClauses_rename (ρ : Var → Var) (ps : List (Var × Var)) (d d2 : Nat)
    (hd : ∀ i, i < ps.length → ρ (d + i) = d2 + i) :
    (pairClauses d ps).map (renameClause ρ) =
      pairClauses d2 (ps.map (fun p => (ρ p.1, ρ p.2))) := by
  induction ps generalizing d d2 with
  | nil => rfl
  | cons p ps ih =>
    obtain ⟨a, b⟩ := p
    simp only [pairClauses, List.map_append, List.map_cons]
    have h0 : ρ d = d2 := hd 0 (Nat.succ_pos _)
    rw [ih (d + 1) (d2 + 1) (fun i hi => by
      have := hd (i + 1) (Nat.succ_lt_succ hi)
      rw [Nat.add_assoc, Nat.add_comm 1 i, this, Nat.add_assoc, Nat.add_comm 1 i]), ← h0]
    rfl

theorem range_rename (ρ : Var → Var) (k : Nat) (d d2 : Nat)
    (hd : ∀ i, i < k → ρ (d + i) = d2 + i) :
    renameClause ρ ((List.range' d k).map mkLit) = (List.range' d2 k).map mkLit := by
  induction k generalizing d d2 with
  | zero => rfl
  | succ k ih =>
    have h0 : ρ d = d2 := hd 0 (Nat.succ_pos _)
    have h1 := ih (d + 1) (d2 + 1) (fun i hi => by
      have := hd (i + 1) (Nat.succ_lt_succ hi)
      rw [Nat.add_assoc, Nat.add_comm 1 i, this, Nat.add_assoc, Nat.add_comm 1 i])
    simp only [renameClause, List.range'_succ, List.map_cons, renameLit_mkLit, h0] at h1 ⊢
    rw [h1]

/-- The miter clauses over renamed output variables are the renamed miter clauses. -/
theorem addMiter_rename (s s2 inst : Solver) (mS mI mS2 mI2 : VarMap) (ρ : Var → Var)
    (os os2 : List String)
    (r1 : ∀ n v, mapFind mS n = some v → mapFind mS2 n = some (ρ v))
    (r2 : ∀ n v, mapFind mI n = some v → mapFind mI2 n = some (ρ v))
    (hd : ∀ i, ρ (s.nVars + i) = s2.nVars + i)
    (hc : ∀ c2, c2 ∈ s2.clauses ↔ ∃ c ∈ s.clauses, c2 = renameClause ρ c)
    (h : addMiter s os os2 mS mI = some inst) :
    ∃ inst2, addMiter s2 os os2 mS2 mI2 = some inst2 ∧
      inst2.nVars = s2.nVars + (inst.nVars - s.nVars) ∧
      ∀ c2, c2 ∈ inst2.clauses ↔ ∃ c ∈ inst.clauses, c2 = renameClause ρ c := by
  rw [addMiter_eq] at h
  cases ha : alignedPairs mS mI os os2 with
  | none =>
    rw [ha] at h
    cases h
  | some ps =>
    rw [ha] at h
    have e := (Option.some.inj h).symm
    have ha2 := alignedPairs_rename mS mI mS2 mI2 ρ r1 r2 os os2 ps ha
    refine ⟨_, by rw [addMiter_eq, ha2]; rfl, ?_, ?_⟩
    · rw [e]
      simp only [List.length_map, Nat.add_sub_cancel_left]
    · intro c2
      rw [e]
      simp only [List.length_map, List.mem_append, List.mem_singleton, hc c2,
        ← pairClauses_rename ρ ps s.nVars s2.nVars (fun i _ => hd i),
        ← range_rename ρ ps.length s.nVars s2.nVars (fun i _ => hd i), List.mem_map]
      constructor
      · rintro ((⟨c, h1, h2⟩ | ⟨c, h1, h2⟩) | h1)
        · exact ⟨c, Or.inl (Or.inl h1), h2⟩
        · exact ⟨c, Or.inl (Or.inr h1), h2.symm⟩
        · exact ⟨_, Or.inr rfl, h1⟩
      · rintro ⟨c, (h1 | h1) | h1, h2⟩
        · exact Or.inl (Or.inl ⟨c, h1, h2⟩)
        · exact Or.inl (Or.inr ⟨c, h1, h2.symm⟩)
        · rw [h1] at h2
          exact Or.inr h2

/-! ## Netlists with the same instances -/

theorem le_of_left_inverse (N N2 : Nat) (f g : Nat → Nat) (h1 : ∀ v, v < N → f v < N2)
    (h2 : ∀ v, g (f v) = v) : N ≤ N2 := by
  have h := Finset.card_le_card_of_injOn (s := Finset.range N) (t := Finset.range N2) f
    (fun v hv => Finset.mem_range.2 (h1 v (Finset.mem_range.1 hv)))
    (fun a _ b _ hab => by rw [← h2 a, ← h2 b, hab])
  simpa using h

/-- With the same instances in both encodings, the clauses of one are exactly the
renamed clauses of the other. -/
theorem rename_clauses_same {pis : List String} {gsS gsI gsS2 gsI2 : List Gate}
    {s s2 : Solver} {mS mI G mS2 mI2 G2 : VarMap} (A : Summary pis gsS gsI s mS mI G)
    (B : Summary pis gsS2 gsI2 s2 mS2 mI2 G2) (hS : ∀ g, g ∈ gsS ↔ g ∈ gsS2)
    (hI : ∀ g, g ∈ gsI ↔ g ∈ gsI2) (N N2 : Nat) (c2 : Clause) :
    c2 ∈ s2.clauses ↔
      ∃ c ∈ s.clauses, c2 = renameClause (renameVar mS mI mS2 mI2 N N2) c := by
  rw [rename_clauses A B (fun g hg _ => (hS g).1 hg) (fun g hg _ => (hI g).1 hg) N N2 c2]
  constructor
  · rintro (h | ⟨g, hg, _, hn, _⟩ | ⟨g, hg, _, hn, _⟩ | ⟨v, ⟨h1, h2⟩ | ⟨h1, h2⟩, _⟩ |
      ⟨v, ⟨h1, h2⟩ | ⟨h1, h2⟩, _⟩)
    · exact h
    · exact absurd ((hS g).2 hg) hn
    · exact absurd ((hI g).2 hg) hn
    · obtain ⟨w, hw⟩ := (A.keysS _).2
        (isPort_mono gsS2 gsS (fun g hg _ => (hS g).2 hg) _ ((B.keysS _).1 ⟨v, h1⟩))
      rw [h2] at hw
      cases hw
    · obtain ⟨w, hw⟩ := (A.keysI _).2
        (isPort_mono gsI2 gsI (fun g hg _ => (hI g).2 hg) _ ((B.keysI _).1 ⟨v, h1⟩))
      rw [h2] at hw
      cases hw
    · obtain ⟨w, hw⟩ := (A.keysS _).2
        (isPort_mono gsS2 gsS (fun g hg _ => (hS g).2 hg) _ ((B.keysS _).1 ⟨v, h1⟩))
      rw [h2] at hw
      cases hw
    · obtain ⟨w, hw⟩ := (A.keysI _).2
        (isPort_mono gsI2 gsI (fun g hg _ => (hI g).2 hg) _ ((B.keysI _).1 ⟨v, h1⟩))
      rw [h2] at hw
      cases hw
  · exact fun h => Or.inl h

theorem noDrivenInput_congr (pis : List String) (gs gs2 : List Gate)
    (h : ∀ g, g ∈ gs2 → g ∈ gs) (hn : NoDrivenInput pis gs) : NoDrivenInput pis gs2 :=
  fun g hg => hn g (h g hg)

/-- Both encodings of netlists with the same instances, in any order and under the
side conditions of `encodeBoth_summary`: the second encoding exists and is the first
one renamed. -/
theorem encodeBoth_same (spec imp spec2 imp2 : Cell) (pis : List String)
    (hpS : ∀ g, g ∈ spec.instances ↔ g ∈ spec2.instances)
    (hpI : ∀ g, g ∈ imp.instances ↔ g ∈ imp2.instances)
    (hS : NoDrivenInput pis spec.instances) (hI : NoDrivenInput pis imp.instances)
    (solver : Solver) (mS mI G : VarMap)
    (h : encodeBoth spec imp pis = some (solver, mS, mI, G)) :
    ∃ solver2 mS2 mI2 G2,
      encodeBoth spec2 imp2 pis = some (solver2, mS2, mI2, G2) ∧
      Summary pis spec.instances imp.instances solver mS mI G ∧
      Summary pis spec2.instances imp2.instances solver2 mS2 mI2 G2 ∧
      solver2.nVars = solver.nVars := by
  have he := (encodeBoth_some_iff spec imp pis).1 ⟨_, h⟩
  obtain ⟨⟨solver2, mS2, mI2, G2⟩, h2⟩ := (encodeBoth_some_iff spec2 imp2 pis).2
    ⟨fun g hg => he.1 g ((hpS g).2 hg), fun g hg => he.2 g ((hpI g).2 hg)⟩
  have A := encodeBoth_summary spec imp pis solver mS mI G hS hI h
  have B := encodeBoth_summary spec2 imp2 pis solver2 mS2 mI2 G2
    (noDrivenInput_congr pis _ _ (fun g hg => (hpS g).2 hg) hS)
    (noDrivenInput_congr pis _ _ (fun g hg => (hpI g).2 hg) hI) h2
  have pS := isPort_mono _ _ (fun g hg (_ : Active g) => (hpS g).1 hg)
  have pI := isPort_mono _ _ (fun g hg (_ : Active g) => (hpI g).1 hg)
  have pS2 := isPort_mono _ _ (fun g hg (_ : Active g) => (hpS g).2 hg)
  have pI2 := isPort_mono _ _ (fun g hg (_ : Active g) => (hpI g).2 hg)
  refine ⟨solver2, mS2, mI2, G2, h2, A, B, Nat.le_antisymm ?_ ?_⟩
  · exact le_of_left_inverse _ _ _ _
      (fun v hv => renameVar_lt B A pS2 pI2 solver2.nVars solver.nVars v hv)
      (renameVar_inverse B A pS2 pI2)
  · exact le_of_left_inverse _ _ _ _
      (fun v hv => renameVar_lt A B pS pI solver.nVars solver2.nVars v hv)
      (renameVar_inverse A B pS pI)

/-! ## Order of the instances -/

/-- C18, amended: let no instance drive a primary input. For every permutation of
the instances of the specification netlist and of the implementation netlist, if the
two passes and the miter succeed in one order they succeed in the other, with the same
number of variables, and a bijective renaming `ρ` of variables (inverse `ρ2`; fixing
the set of netlist variables and every difference variable; taking the variable of a
name to the variable of that name in both maps and in `globalInputMap`) makes the
clauses after the passes, and the clauses of the combined instance, exactly the
renamed clauses of the first order. So the combined instance has the same
satisfiability and the same primary-input counterexamples in both orders. -/
theorem order_independent_encoding (spec imp spec2 imp2 : Cell)
    (pis outsS outsI : List String) (solver inst : Solver) (mS mI G : VarMap)
    (hpS : spec.instances.Perm spec2.instances) (hpI : imp.instances.Perm imp2.instances)
    (hS : NoDrivenInput pis spec.instances) (hI : NoDrivenInput pis imp.instances)
    (h : encodeBoth spec imp pis = some (solver, mS, mI, G))
    (hm : addMiter solver outsS outsI mS mI = some inst) :
    ∃ (solver2 : Solver) (mS2 mI2 G2 : VarMap) (inst2 : Solver) (ρ ρ2 : Var → Var),
      encodeBoth spec2 imp2 pis = some (solver2, mS2, mI2, G2) ∧
      addMiter solver2 outsS outsI mS2 mI2 = some inst2 ∧
      solver2.nVars = solver.nVars ∧ inst2.nVars = inst.nVars ∧
      (∀ v, ρ2 (ρ v) = v ∧ ρ (ρ2 v) = v) ∧
      (∀ v, v < solver.nVars ↔ ρ v < solver.nVars) ∧
      (∀ v, solver.nVars ≤ v → ρ v = v) ∧
      (∀ n v, mapFind mS n = some v ↔ mapFind mS2 n = some (ρ v)) ∧
      (∀ n v, mapFind mI n = some v ↔ mapFind mI2 n = some (ρ v)) ∧
      (∀ n v, mapFind G n = some v ↔ mapFind G2 n = some (ρ v)) ∧
      (∀ c2, c2 ∈ solver2.clauses ↔ ∃ c ∈ solver.clauses, c2 = renameClause ρ c) ∧
      (∀ c2, c2 ∈ inst2.clauses ↔ ∃ c ∈ inst.clauses, c2 = renameClause ρ c) ∧
      (Satisfiable inst2.clauses ↔ Satisfiable inst.clauses) ∧
      (∀ pi, IsCounterexample inst2.clauses G2 pi ↔ IsCounterexample inst.clauses G pi) := by
  have mS_iff : ∀ g, g ∈ spec.instances ↔ g ∈ spec2.instances := fun g => hpS.mem_iff
  have mI_iff : ∀ g, g ∈ imp.instances ↔ g ∈ imp2.instances := fun g => hpI.mem_iff
  obtain ⟨solver2, mS2, mI2, G2, h2, A, B, hN⟩ :=
    encodeBoth_same spec imp spec2 imp2 pis mS_iff mI_iff hS hI solver mS mI G h
  have pS := isPort_mono _ _ (fun g hg (_ : Active g) => (mS_iff g).1 hg)
  have pI := isPort_mono _ _ (fun g hg (_ : Active g) => (mI_iff g).1 hg)
  have pS2 := isPort_mono _ _ (fun g hg (_ : Active g) => (mS_iff g).2 hg)
  have pI2 := isPort_mono _ _ (fun g hg (_ : Active g) => (mI_iff g).2 hg)
  have inv1 := renameVar_inverse A B pS pI
  have inv2 := renameVar_inverse B A pS2 pI2
  have r1 := renameVar_spec A B pS solver.nVars solver2.nVars
  have r2 := renameVar_imp A B pS pI solver.nVars solver2.nVars
  have r3 := renameVar_global A B pS pI solver.nVars solver2.nVars
  have q1 := renameVar_spec B A pS2 solver2.nVars solver.nVars
  have q2 := renameVar_imp B A pS2 pI2 solver2.nVars solver.nVars
  have q3 := renameVar_global B A pS2 pI2 solver2.nVars solver.nVars
  have hlt := renameVar_lt A B pS pI solver.nVars solver2.nVars
  have hdiff := renameVar_diff A mS2 mI2 solver.nVars solver2.nVars
  have hcl := rename_clauses_same A B mS_iff mI_iff solver.nVars solver2.nVars
  generalize renameVar mS mI mS2 mI2 solver.nVars solver2.nVars = ρ at *
  generalize renameVar mS2 mI2 mS mI solver2.nVars solver.nVars = ρ2 at *
  have hfix : ∀ v, solver.nVars ≤ v → ρ v = v := by
    intro v hv
    rw [hdiff v hv, hN]
    exact Nat.add_sub_cancel' hv
  obtain ⟨inst2, hm2, hn2, hcl2⟩ := addMiter_rename solver solver2 inst mS mI mS2 mI2 ρ
    outsS outsI r1 r2
    (fun i => by rw [hdiff _ (Nat.le_add_right _ _), Nat.add_sub_cancel_left]) hcl hm
  have hge : solver.nVars ≤ inst.nVars := by
    rw [addMiter_eq] at hm
    cases ha : alignedPairs mS mI outsS outsI with
    | none =>
      rw [ha] at hm
      cases hm
    | some ps =>
      rw [ha] at hm
      rw [← Option.some.inj hm]
      exact Nat.le_add_right _ _
  have back : ∀ (f : VarMap) (f2 : VarMap),
      (∀ n v, mapFind f n = some v → mapFind f2 n = some (ρ v)) →
      (∀ n v, mapFind f2 n = some v → mapFind f n = some (ρ2 v)) →
      ∀ n v, mapFind f n = some v ↔ mapFind f2 n = some (ρ v) := by
    intro f f2 a b n v
    constructor
    · exact a n v
    · intro hf
      have := b n _ hf
      rw [inv1 v] at this
      exact this
  have sat : ∀ σ2 : Var → Bool, cnfTrue σ2 inst2.clauses = true ↔
      cnfTrue (fun v => σ2 (ρ v)) inst.clauses = true :=
    fun σ2 => cnfTrue_rename σ2 ρ inst.clauses inst2.clauses hcl2
  refine ⟨solver2, mS2, mI2, G2, inst2, ρ, ρ2, h2, hm2, hN, ?_, fun v => ⟨inv1 v, inv2 v⟩, ?_,
    hfix, back mS mS2 r1 q1, back mI mI2 r2 q2, back G G2 r3 q3, hcl, hcl2, ?_, ?_⟩
  · rw [hn2, hN]
    exact Nat.add_sub_cancel' hge
  · intro v
    constructor
    · intro hv
      rw [← hN]
      exact hlt v hv
    · intro hv
      by_contra hc
      rw [hfix v (Nat.not_lt.1 hc)] at hv
      exact hc hv
  · constructor
    · rintro ⟨σ2, hσ⟩
      exact ⟨_, (sat σ2).1 hσ⟩
    · rintro ⟨σ, hσ⟩
      refine ⟨fun v => σ (ρ2 v), (sat _).2 ?_⟩
      simp only [inv1]
      exact hσ
  · intro pi
    constructor
    · rintro ⟨σ2, hσ, hpi⟩
      exact ⟨_, (sat σ2).1 hσ, fun n v hg => hpi n _ (r3 n v hg)⟩
    · rintro ⟨σ, hσ, hpi⟩
      refine ⟨fun v => σ (ρ2 v), (sat _).2 ?_, fun n v hg => hpi n _ (q3 n v hg)⟩
      simp only [inv1]
      exact hσ

/-! ## Instances of unknown type -/

theorem gateClausesOf_unsupported (m : VarMap) (g : Gate)
    (h : classify g.gateType = GateKind.unsupported) : gateClausesOf m g = [] := by
  simp only [gateClausesOf, encodeGate, h, Option.getD_some]

theorem dispatchable_unsupported (g : Gate) (h : classify g.gateType = GateKind.unsupported) :
    Dispatchable g := by
  simp only [Dispatchable, encodeGate, h, Option.isSome_some]

/-- C14, amended: let no instance drive a primary input, and let the netlists `spec0`,
`imp0` be `spec`, `imp` without some instances of unknown type. The dispatch emits no
clause for an instance of unknown type, its iteration succeeds and adds at most unit
clauses on new variables for constant ports. If both passes succeed without those
instances they succeed with them, and there is an injective renaming `ρ` of
variables (the variable of a name goes to the variable of that name, in both maps and
in `globalInputMap`) such that the clauses with the instances are exactly the renamed
clauses without them and unit clauses of constants that had no variable without
them: every other instance is encoded as before, up to the numbering of variables. -/
theorem unsupported_instance_transparent (spec imp spec0 imp0 : Cell) (pis : List String)
    (solver0 : Solver) (mS0 mI0 G0 : VarMap)
    (hsubS : ∀ g, g ∈ spec0.instances → g ∈ spec.instances)
    (hsubI : ∀ g, g ∈ imp0.instances → g ∈ imp.instances)
    (hremS : ∀ g, g ∈ spec.instances → g ∉ spec0.instances →
      classify g.gateType = GateKind.unsupported)
    (hremI : ∀ g, g ∈ imp.instances → g ∉ imp0.instances →
      classify g.gateType = GateKind.unsupported)
    (hS : NoDrivenInput pis spec.instances) (hI : NoDrivenInput pis imp.instances)
    (h0 : encodeBoth spec0 imp0 pis = some (solver0, mS0, mI0, G0)) :
    (∀ (st : EncState) (g : Gate), classify g.gateType = GateKind.unsupported →
      (∀ (ins : List Var) (out : Var), encodeGate g.gateType ins out = some []) ∧
      ∃ st2, processGate pis st g = some st2 ∧
        UnitsExt (g.inputs ++ g.outputs) st.solver st2.solver) ∧
    ∃ (solver : Solver) (mS mI G : VarMap) (ρ ρ2 : Var → Var),
      encodeBoth spec imp pis = some (solver, mS, mI, G) ∧
      (∀ v, ρ2 (ρ v) = v) ∧
      (∀ v, v < solver0.nVars → ρ v < solver.nVars) ∧
      (∀ n v, mapFind mS0 n = some v → mapFind mS n = some (ρ v)) ∧
      (∀ n v, mapFind mI0 n = some v → mapFind mI n = some (ρ v)) ∧
      (∀ n v, mapFind G0 n = some v → mapFind G n = some (ρ v)) ∧
      (∀ c, c ∈ solver.clauses ↔
        ((∃ c0 ∈ solver0.clauses, c = renameClause ρ c0) ∨
          (∃ v, ((mapFind mS "VDD" = some v ∧ mapFind mS0 "VDD" = none) ∨
              (mapFind mI "VDD" = some v ∧ mapFind mI0 "VDD" = none)) ∧ c = [mkLit v]) ∨
          (∃ v, ((mapFind mS "VSS" = some v ∧ mapFind mS0 "VSS" = none) ∨
              (mapFind mI "VSS" = some v ∧ mapFind mI0 "VSS" = none)) ∧
            c = [(mkLit v).neg]))) := by
  constructor
  · intro st g hg
    have he : ∀ (ins : List Var) (out : Var), encodeGate g.gateType ins out = some [] := by
      intro ins out
      simp only [encodeGate, hg]
    refine ⟨he, ?_⟩
    cases hi : g.inputs with
    | nil =>
      refine ⟨st, by simp only [processGate, hi], ?_⟩
      exact UnitsExt_refl _ _
    | cons i is =>
      cases ho : g.outputs with
      | nil =>
        refine ⟨st, by simp only [processGate, hi, ho], ?_⟩
        exact UnitsExt_refl _ _
      | cons o os =>
        refine ⟨declarePorts pis st g, ?_, ?_⟩
        · rw [processGate_cons pis st g i is o os hi ho, he]
          rfl
        · rw [← hi, ← ho]
          exact declarePorts_unitsExt pis st g
  · have he := (encodeBoth_some_iff spec0 imp0 pis).1 ⟨_, h0⟩
    obtain ⟨⟨solver, mS, mI, G⟩, h⟩ := (encodeBoth_some_iff spec imp pis).2
      ⟨fun g hg ha => by
        by_cases hin : g ∈ spec0.instances
        · exact he.1 g hin ha
        · exact dispatchable_unsupported g (hremS g hg hin),
       fun g hg ha => by
        by_cases hin : g ∈ imp0.instances
        · exact he.2 g hin ha
        · exact dispatchable_unsupported g (hremI g hg hin)⟩
    have A := encodeBoth_summary spec0 imp0 pis solver0 mS0 mI0 G0
      (noDrivenInput_congr pis _ _ hsubS hS) (noDrivenInput_congr pis _ _ hsubI hI) h0
    have B := encodeBoth_summary spec imp pis solver mS mI G hS hI h
    have iS : ∀ g ∈ spec0.instances, Active g → g ∈ spec.instances := fun g hg _ => hsubS g hg
    have iI : ∀ g ∈ imp0.instances, Active g → g ∈ imp.instances := fun g hg _ => hsubI g hg
    have pS := isPort_mono _ _ iS
    have pI := isPort_mono _ _ iI
    refine ⟨solver, mS, mI, G, renameVar mS0 mI0 mS mI solver0.nVars solver.nVars,
      renameVar mS mI mS0 mI0 solver.nVars solver0.nVars, h, renameVar_inverse A B pS pI,
      renameVar_lt A B pS pI _ _, renameVar_spec A B pS _ _, renameVar_imp A B pS pI _ _,
      renameVar_global A B pS pI _ _, ?_⟩
    intro c
    rw [rename_clauses A B iS iI solver0.nVars solver.nVars c]
    constructor
    · rintro (h1 | ⟨g, hg, _, hn, hc⟩ | ⟨g, hg, _, hn, hc⟩ | h1 | h1)
      · exact Or.inl h1
      · rw [gateClausesOf_unsupported mS g (hremS g hg hn)] at hc
        cases hc
      · rw [gateClausesOf_unsupported mI g (hremI g hg hn)] at hc
        cases hc
      · exact Or.inr (Or.inl h1)
      · exact Or.inr (Or.inr h1)
    · rintro (h1 | h1 | h1)
      · exact Or.inl h1
      · exact Or.inr (Or.inr (Or.inr (Or.inl h1)))
      · exact Or.inr (Or.inr (Or.inr (Or.inr h1)))

/-- C14, as stated, fails: an instance of the unknown type "foo" changes how the other
instances are encoded and what the check returns. With the primary input A driven by
an AND gate, the netlist without the "foo" instance is reported different from a
buffer, and the same netlist with a "foo" instance reading A in front is reported
equivalent to it: the port declaration of the "foo" instance binds A to the shared
primary-input variable, which the AND gate then forces to 0. The iteration for an
unknown type also adds a clause when a port is a constant without a variable yet:
the unit clause of VDD. -/
theorem unsupported_instance_changes_verdict :
    classify "foo" = GateKind.unsupported ∧
    drivenInputUnsupportedCell.instances =
      ⟨"foo", ["A"], ["U"]⟩ :: drivenInputCell.instances ∧
    runCheck singleBufferCell drivenInputCell ["A"] ["Z"] ["Z"] =
      some (false, [("A", LBool.l_True)]) ∧
    runCheck singleBufferCell drivenInputUnsupportedCell ["A"] ["Z"] ["Z"] = some (true, []) ∧
    processGate [] ⟨Solver.empty, [], []⟩ ⟨"foo", ["VDD"], ["U"]⟩ =
      some ⟨⟨2, [[mkLit 0]]⟩, [("VDD", 0), ("U", 1)], []⟩ := by
  refine ⟨by decide, rfl, by decide, by decide, by decide⟩

/-- C18, as stated, fails: with the primary input A driven by an AND gate, visiting
that gate before the buffer reading A gives a satisfiable combined instance with 7
variables (the check reports a difference at A = 1), and visiting it after the buffer
gives an unsatisfiable one with 6 variables (the check reports equivalence); the
specification netlist is one buffer in both runs. -/
theorem gate_order_changes_verdict :
    drivenFirstCell.instances.Perm drivenSecondCell.instances ∧
    runCheck singleBufferCell drivenFirstCell ["A"] ["Z"] ["Z"] =
      some (false, [("A", LBool.l_True)]) ∧
    runCheck singleBufferCell drivenSecondCell ["A"] ["Z"] ["Z"] = some (true, []) ∧
    (combinedInstance singleBufferCell drivenFirstCell ["A"] ["Z"] ["Z"]).map Solver.nVars =
      some 7 ∧
    (combinedInstance singleBufferCell drivenSecondCell ["A"] ["Z"] ["Z"]).map Solver.nVars =
      some 6 := by
  refine ⟨List.Perm.swap _ _ _, by decide, by decide, by decide, by decide⟩

theorem order_independent_encoding_witness :
    fanoutCell.instances.Perm fanoutSwappedCell.instances ∧
    NoDrivenInput ["A"] singleBufferCell.instances ∧
    NoDrivenInput ["A"] fanoutCell.instances ∧
    ∃ (inst2 : Solver) (ρ ρ2 : Var → Var),
      combinedInstance singleBufferCell fanoutSwappedCell ["A"] ["Z"] ["Z"] = some inst2 ∧
      inst2.nVars = 5 ∧ (∀ v, ρ2 (ρ v) = v ∧ ρ (ρ2 v) = v) ∧
      (∀ c2, c2 ∈ inst2.clauses ↔
        ∃ c ∈ [[mkLit 0, (mkLit 1).neg], [(mkLit 0).neg, mkLit 1],
            [mkLit 0, (mkLit 2).neg], [(mkLit 0).neg, mkLit 2],
            [(mkLit 0).neg, (mkLit 3).neg], [mkLit 0, mkLit 3],
            [(mkLit 1).neg, mkLit 3, mkLit 4], [mkLit 1, (mkLit 3).neg, mkLit 4],
            [mkLit 1, mkLit 3, (mkLit 4).neg], [(mkLit 1).neg, (mkLit 3).neg, (mkLit 4).neg],
            [mkLit 4]], c2 = renameClause ρ c) := by
  have n1 : NoDrivenInput ["A"] singleBufferCell.instances := by
    unfold NoDrivenInput
    decide
  have n2 : NoDrivenInput ["A"] fanoutCell.instances := by
    unfold NoDrivenInput
    decide
  refine ⟨List.Perm.swap _ _ _, n1, n2, ?_⟩
  obtain ⟨solver2, mS2, mI2, G2, inst2, ρ, ρ2, h1, h2, _, h4, h5, _, _, _, _, _, _, h12, _⟩ :=
    order_independent_encoding singleBufferCell fanoutCell singleBufferCell fanoutSwappedCell
      ["A"] ["Z"] ["Z"]
      ⟨4, [[mkLit 0, (mkLit 1).neg], [(mkLit 0).neg, mkLit 1],
        [mkLit 0, (mkLit 2).neg], [(mkLit 0).neg, mkLit 2],
        [(mkLit 0).neg, (mkLit 3).neg], [mkLit 0, mkLit 3]]⟩
      ⟨5, [[mkLit 0, (mkLit 1).neg], [(mkLit 0).neg, mkLit 1],
        [mkLit 0, (mkLit 2).neg], [(mkLit 0).neg, mkLit 2],
        [(mkLit 0).neg, (mkLit 3).neg], [mkLit 0, mkLit 3],
        [(mkLit 1).neg, mkLit 3, mkLit 4], [mkLit 1, (mkLit 3).neg, mkLit 4],
        [mkLit 1, mkLit 3, (mkLit 4).neg], [(mkLit 1).neg, (mkLit 3).neg, (mkLit 4).neg],
        [mkLit 4]]⟩
      [("A", 0), ("Z", 1)] [("A", 0), ("W", 2), ("Z", 3)] [("A", 0)]
      (List.Perm.refl _) (List.Perm.swap _ _ _) n1 n2 rfl rfl
  refine ⟨inst2, ρ, ρ2, ?_, h4, h5, h12⟩
  simp only [combinedInstance, h1]
  exact h2

theorem unsupported_instance_transparent_witness :
    classify "foo" = GateKind.unsupported ∧
    NoDrivenInput ["A"] singleBufferCell.instances ∧
    NoDrivenInput ["A"] unsupportedExtraCell.instances ∧
    ∃ (solver : Solver) (mS mI G : VarMap) (ρ ρ2 : Var → Var),
      encodeBoth singleBufferCell unsupportedExtraCell ["A"] = some (solver, mS, mI, G) ∧
      (∀ v, ρ2 (ρ v) = v) ∧
      (∀ c, c ∈ solver.clauses ↔
        ((∃ c0 ∈ [[mkLit 0, (mkLit 1).neg], [(mkLit 0).neg, mkLit 1],
            [mkLit 0, (mkLit 2).neg], [(mkLit 0).neg, mkLit 2]], c = renameClause ρ c0) ∨
          (∃ v, ((mapFind mS "VDD" = some v ∧ mapFind [("A", 0), ("Z", 1)] "VDD" = none) ∨
              (mapFind mI "VDD" = some v ∧ mapFind [("A", 0), ("Z", 2)] "VDD" = none)) ∧
            c = [mkLit v]) ∨
          (∃ v, ((mapFind mS "VSS" = some v ∧ mapFind [("A", 0), ("Z", 1)] "VSS" = none) ∨
              (mapFind mI "VSS" = some v ∧ mapFind [("A", 0), ("Z", 2)] "VSS" = none)) ∧
            c = [(mkLit v).neg]))) := by
  have n1 : NoDrivenInput ["A"] singleBufferCell.instances := by
    unfold NoDrivenInput
    decide
  have n2 : NoDrivenInput ["A"] unsupportedExtraCell.instances := by
    unfold NoDrivenInput
    decide
  refine ⟨by decide, n1, n2, ?_⟩
  obtain ⟨_, solver, mS, mI, G, ρ, ρ2, h1, h2, _, _, _, _, h7⟩ :=
    unsupported_instance_transparent singleBufferCell unsupportedExtraCell singleBufferCell
      singleBufferCell ["A"]
      ⟨3, [[mkLit 0, (mkLit 1).neg], [(mkLit 0).neg, mkLit 1],
        [mkLit 0, (mkLit 2).neg], [(mkLit 0).neg, mkLit 2]]⟩
      [("A", 0), ("Z", 1)] [("A", 0), ("Z", 2)] [("A", 0)]
      (fun _ h => h) (by decide) (fun _ h hn => absurd h hn) (by decide) n1 n2 rfl
  exact ⟨solver, mS, mI, G, ρ, ρ2, h1, h2, h7⟩

/-! ## Separation of the variables of the two netlists -/

theorem Sep_solver (pis : List String) (n0 : Nat) (g0 : VarMap) (st : EncState) (s : Solver)
    (hs : s.nVars = st.solver.nVars) (I : Sep pis n0 g0 st) :
    Sep pis n0 g0 { st with solver := s } :=
  ⟨by rw [hs]; exact I.n0_le, by rw [hs]; exact I.var_lt, by rw [hs]; exact I.gvar_lt,
    I.inj, I.ginj, I.g_sep, I.gkeys, I.g_mono, I.g_old, I.old_var⟩

theorem sep_fresh (pis : List String) (n0 : Nat) (g0 : VarMap) (st : EncState) (n : String)
    (cl : List Clause) (I : Sep pis n0 g0 st) :
    Sep pis n0 g0 ⟨⟨st.solver.nVars + 1, cl⟩, mapSet st.varMap n st.solver.nVars,
      st.globalInputMap⟩ := by
  refine ⟨Nat.le_succ_of_le I.n0_le, ?_, ?_, ?_, I.ginj, ?_, I.gkeys, I.g_mono, I.g_old, ?_⟩
  · intro k w hk
    rcases mapFind_mapSet_some _ _ _ _ _ hk with ⟨_, rfl⟩ | ⟨_, hk2⟩
    · exact Nat.lt_succ_self _
    · exact Nat.lt_succ_of_lt (I.var_lt k w hk2)
  · intro k w hk
    exact Nat.lt_succ_of_lt (I.gvar_lt k w hk)
  · intro n1 n2 w h1 h2
    rcases mapFind_mapSet_some _ _ _ _ _ h1 with ⟨e1, rfl⟩ | ⟨_, h1b⟩
    · rcases mapFind_mapSet_some _ _ _ _ _ h2 with ⟨e2, _⟩ | ⟨_, h2b⟩
      · rw [e1, e2]
      · exact absurd (I.var_lt _ _ h2b) (Nat.lt_irrefl _)
    · rcases mapFind_mapSet_some _ _ _ _ _ h2 with ⟨_, rfl⟩ | ⟨_, h2b⟩
      · exact absurd (I.var_lt _ _ h1b) (Nat.lt_irrefl _)
      · exact I.inj n1 n2 w h1b h2b
  · intro k k2 w hg hf
    rcases mapFind_mapSet_some _ _ _ _ _ hf with ⟨_, rfl⟩ | ⟨_, hfb⟩
    · exact absurd (I.gvar_lt _ _ hg) (Nat.lt_irrefl _)
    · exact I.g_sep k k2 w hg hfb
  · intro k w hf hw
    rcases mapFind_mapSet_some _ _ _ _ _ hf with ⟨_, rfl⟩ | ⟨_, hfb⟩
    · exact absurd (Nat.lt_of_lt_of_le hw I.n0_le) (Nat.lt_irrefl _)
    · exact I.old_var k w hfb hw

theorem sep_shared (pis : List String) (n0 : Nat) (g0 : VarMap) (st : EncState) (n : String)
    (cl : List Clause) (hn : n ∈ pis) (hg : mapFind st.globalInputMap n = none)
    (I : Sep pis n0 g0 st) :
    Sep pis n0 g0 ⟨⟨st.solver.nVars + 1, cl⟩, mapSet st.varMap n st.solver.nVars,
      mapSet st.globalInputMap n st.solver.nVars⟩ := by
  have F := sep_fresh pis n0 g0 st n cl I
  refine ⟨F.n0_le, F.var_lt, ?_, F.inj, ?_, ?_, ?_, ?_, ?_, F.old_var⟩
  · intro k w hk
    rcases mapFind_mapSet_some _ _ _ _ _ hk with ⟨_, rfl⟩ | ⟨_, hk2⟩
    · exact Nat.lt_succ_self _
    · exact Nat.lt_succ_of_lt (I.gvar_lt k w hk2)
  · intro n1 n2 w h1 h2
    rcases mapFind_mapSet_some _ _ _ _ _ h1 with ⟨e1, rfl⟩ | ⟨_, h1b⟩
    · rcases mapFind_mapSet_some _ _ _ _ _ h2 with ⟨e2, _⟩ | ⟨_, h2b⟩
      · rw [e1, e2]
      · exact absurd (I.gvar_lt _ _ h2b) (Nat.lt_irrefl _)
    · rcases mapFind_mapSet_some _ _ _ _ _ h2 with ⟨_, rfl⟩ | ⟨_, h2b⟩
      · exact absurd (I.gvar_lt _ _ h1b) (Nat.lt_irrefl _)
      · exact I.ginj n1 n2 w h1b h2b
  · intro k k2 w hgk hf
    rcases mapFind_mapSet_some _ _ _ _ _ hgk with ⟨e1, rfl⟩ | ⟨_, hgb⟩
    · rcases mapFind_mapSet_some _ _ _ _ _ hf with ⟨e2, _⟩ | ⟨_, hfb⟩
      · rw [e1, e2]
      · exact absurd (I.var_lt _ _ hfb) (Nat.lt_irrefl _)
    · exact F.g_sep k k2 w hgb hf
  · intro k w hk
    rcases mapFind_mapSet_some _ _ _ _ _ hk with ⟨e, _⟩ | ⟨_, hk2⟩
    · exact e ▸ hn
    · exact I.gkeys k w hk2
  · exact MapExt_trans _ _ _ I.g_mono (MapExt_mapSet _ _ _ hg)
  · intro k w hk hw
    rcases mapFind_mapSet_some _ _ _ _ _ hk with ⟨_, rfl⟩ | ⟨_, hk2⟩
    · exact absurd (Nat.lt_of_lt_of_le hw I.n0_le) (Nat.lt_irrefl _)
    · exact I.g_old k w hk2 hw

/-- A primary input that already has a local variable and no shared one: its local
variable becomes the shared one. -/
theorem sep_register (pis : List String) (n0 : Nat) (g0 : VarMap) (st : EncState)
    (n : String) (w : Var) (hn : n ∈ pis) (hg : mapFind st.globalInputMap n = none)
    (hm : mapFind st.varMap n = some w) (I : Sep pis n0 g0 st) :
    Sep pis n0 g0 ⟨st.solver, st.varMap, mapSet st.globalInputMap n w⟩ := by
  refine ⟨I.n0_le, I.var_lt, ?_, I.inj, ?_, ?_, ?_, ?_, ?_, I.old_var⟩
  · intro k v hk
    rcases mapFind_mapSet_some _ _ _ _ _ hk with ⟨_, rfl⟩ | ⟨_, hk2⟩
    · exact I.var_lt n _ hm
    · exact I.gvar_lt k v hk2
  · intro n1 n2 v h1 h2
    rcases mapFind_mapSet_some _ _ _ _ _ h1 with ⟨e1, rfl⟩ | ⟨_, h1b⟩
    · rcases mapFind_mapSet_some _ _ _ _ _ h2 with ⟨e2, _⟩ | ⟨_, h2b⟩
      · rw [e1, e2]
      · have e := I.g_sep n2 n _ h2b hm
        rw [← e] at h2b
        rw [hg] at h2b
        cases h2b
    · rcases mapFind_mapSet_some _ _ _ _ _ h2 with ⟨_, rfl⟩ | ⟨_, h2b⟩
      · have e := I.g_sep n1 n _ h1b hm
        rw [← e] at h1b
        rw [hg] at h1b
        cases h1b
      · exact I.ginj n1 n2 v h1b h2b
  · intro k k2 v hgk hf
    rcases mapFind_mapSet_some _ _ _ _ _ hgk with ⟨e1, rfl⟩ | ⟨_, hgb⟩
    · rw [e1]
      exact I.inj k2 n _ hf hm
    · exact I.g_sep k k2 v hgb hf
  · intro k v hk
    rcases mapFind_mapSet_some _ _ _ _ _ hk with ⟨e, _⟩ | ⟨_, hk2⟩
    · exact e ▸ hn
    · exact I.gkeys k v hk2
  · exact MapExt_trans _ _ _ I.g_mono (MapExt_mapSet _ _ _ hg)
  · intro k v hk hv
    rcases mapFind_mapSet_some _ _ _ _ _ hk with ⟨e, rfl⟩ | ⟨_, hk2⟩
    · rw [e]
      exact I.old_var n _ hm hv
    · exact I.g_old k v hk2 hv

/-- A primary input with a shared variable: the local entry is set to it, whatever
it was before. -/
theorem sep_takeOver (pis : List String) (n0 : Nat) (g0 : VarMap) (st : EncState)
    (n : String) (gv : Var) (hg : mapFind st.globalInputMap n = some gv)
    (I : Sep pis n0 g0 st) :
    Sep pis n0 g0 ⟨st.solver, mapSet st.varMap n gv, st.globalInputMap⟩ := by
  refine ⟨I.n0_le, ?_, I.gvar_lt, ?_, I.ginj, ?_, I.gkeys, I.g_mono, I.g_old, ?_⟩
  · intro k w hk
    rcases mapFind_mapSet_some _ _ _ _ _ hk with ⟨_, rfl⟩ | ⟨_, hk2⟩
    · exact I.gvar_lt n _ hg
    · exact I.var_lt k w hk2
  · intro n1 n2 w h1 h2
    rcases mapFind_mapSet_some _ _ _ _ _ h1 with ⟨e1, rfl⟩ | ⟨_, h1b⟩
    · rcases mapFind_mapSet_some _ _ _ _ _ h2 with ⟨e2, _⟩ | ⟨_, h2b⟩
      · rw [e1, e2]
      · rw [e1]
        exact (I.g_sep n n2 _ hg h2b).symm
    · rcases mapFind_mapSet_some _ _ _ _ _ h2 with ⟨e2, rfl⟩ | ⟨_, h2b⟩
      · rw [e2]
        exact I.g_sep n n1 _ hg h1b
      · exact I.inj n1 n2 w h1b h2b
  · intro k k2 w hgk hf
    rcases mapFind_mapSet_some _ _ _ _ _ hf with ⟨e, rfl⟩ | ⟨_, hfb⟩
    · rw [e]
      exact I.ginj n k _ hg hgk
    · exact I.g_sep k k2 w hgk hfb
  · intro k w hf hw
    rcases mapFind_mapSet_some _ _ _ _ _ hf with ⟨e, rfl⟩ | ⟨_, hfb⟩
    · rw [e]
      exact I.g_old n _ hg hw
    · exact I.old_var k w hfb hw

theorem getOrCreateVar_sep (pis : List String) (n0 : Nat) (g0 : VarMap) (st : EncState)
    (n : String) (I : Sep pis n0 g0 st) :
    Sep pis n0 g0 ⟨(getOrCreateVar n st.solver st.varMap).2.1,
      (getOrCreateVar n st.solver st.varMap).2.2, st.globalInputMap⟩ := by
  cases hm : mapFind st.varMap n with
  | none =>
    rw [getOrCreateVar_fresh _ _ _ hm]
    exact sep_fresh pis n0 g0 st n _ I
  | some v =>
    rw [getOrCreateVar_found _ _ _ _ hm]
    exact I

theorem declareInput_sep (pis : List String) (n0 : Nat) (g0 : VarMap) (st : EncState)
    (input : String) (I : Sep pis n0 g0 st) : Sep pis n0 g0 (declareInput pis st input) := by
  unfold declareInput
  by_cases hp : input ∈ pis
  · simp only [hp, if_true]
    cases hg : mapFind st.globalInputMap input with
    | none =>
      cases hm : mapFind st.varMap input with
      | none =>
        simp only [getOrCreateVar_fresh _ _ _ hm, mapGet, mapFind_mapSet_self,
          Option.getD_some,
          mapSet_same _ _ _ (mapFind_mapSet_self st.varMap input st.solver.nVars)]
        exact sep_shared pis n0 g0 st input _ hp hg I
      | some w =>
        simp only [getOrCreateVar_found _ _ _ _ hm, mapGet, mapFind_mapSet_self,
          Option.getD_some, mapSet_same _ _ _ hm]
        exact sep_register pis n0 g0 st input w hp hg hm I
    | some gv =>
      simp only [mapGet, hg, Option.getD_some]
      exact sep_takeOver pis n0 g0 st input gv hg I
  · simp only [hp, if_false]
    exact getOrCreateVar_sep pis n0 g0 st input I

theorem declareOutput_sep (pis : List String) (n0 : Nat) (g0 : VarMap) (st : EncState)
    (output : String) (I : Sep pis n0 g0 st) : Sep pis n0 g0 (declareOutput st output) := by
  unfold declareOutput
  exact getOrCreateVar_sep pis n0 g0 st output I

theorem declarePorts_sep (pis : List String) (n0 : Nat) (g0 : VarMap) (st : EncState)
    (g : Gate) (I : Sep pis n0 g0 st) : Sep pis n0 g0 (declarePorts pis st g) := by
  unfold declarePorts
  have h1 : ∀ (ins : List String) (s : EncState), Sep pis n0 g0 s →
      Sep pis n0 g0 (ins.foldl (declareInput pis) s) := by
    intro ins
    induction ins with
    | nil => exact fun s h => h
    | cons a ins ih => exact fun s h => ih _ (declareInput_sep pis n0 g0 s a h)
  have h2 : ∀ (outs : List String) (s : EncState), Sep pis n0 g0 s →
      Sep pis n0 g0 (outs.foldl declareOutput s) := by
    intro outs
    induction outs with
    | nil => exact fun s h => h
    | cons a outs ih => exact fun s h => ih _ (declareOutput_sep pis n0 g0 s a h)
  exact h2 _ _ (h1 _ _ I)

theorem processGate_sep (pis : List String) (n0 : Nat) (g0 : VarMap) (st st2 : EncState)
    (g : Gate) (I : Sep pis n0 g0 st) (h : processGate pis st g = some st2) :
    Sep pis n0 g0 st2 := by
  rcases processGate_result pis st st2 g h with e | ⟨_, _, cls, e⟩
  · rw [e]
    exact I
  · rw [e]
    exact Sep_solver pis n0 g0 _ _ (addClauses_nVars _ _) (declarePorts_sep pis n0 g0 st g I)

theorem encodeGates_sep (pis : List String) (n0 : Nat) (g0 : VarMap) (gs : List Gate)
    (st st2 : EncState) (I : Sep pis n0 g0 st) (h : encodeGates pis st gs = some st2) :
    Sep pis n0 g0 st2 := by
  induction gs generalizing st with
  | nil =>
    simp only [encodeGates, Option.some.injEq] at h
    rw [← h]
    exact I
  | cons g gs ih =>
    simp only [encodeGates] at h
    cases hg : processGate pis st g with
    | none =>
      rw [hg] at h
      cases h
    | some st1 =>
      rw [hg] at h
      exact ih st1 (processGate_sep pis n0 g0 st st1 g I hg) h

theorem Sep_start (pis : List String) (s : Solver) (g : VarMap)
    (hlt : ∀ n v, mapFind g n = some v → v < s.nVars)
    (hinj : ∀ n1 n2 v, mapFind g n1 = some v → mapFind g n2 = some v → n1 = n2)
    (hkeys : ∀ n v, mapFind g n = some v → n ∈ pis) :
    Sep pis s.nVars g ⟨s, [], g⟩ := by
  refine ⟨Nat.le_refl _, ?_, hlt, ?_, hinj, ?_, hkeys, MapExt_refl _, fun n v h _ => h, ?_⟩
  · intro n v h
    cases h
  · intro n1 n2 v h
    cases h
  · intro n n2 v _ h
    cases h
  · intro n v h
    cases h

theorem encodeBoth_sep (spec imp : Cell) (pis : List String) (solver : Solver)
    (mS mI G : VarMap) (h : encodeBoth spec imp pis = some (solver, mS, mI, G)) :
    ∃ st1 : EncState, st1.varMap = mS ∧ Sep pis 0 [] st1 ∧
      Sep pis st1.solver.nVars st1.globalInputMap ⟨solver, mI, G⟩ := by
  unfold encodeBoth generateCNF at h
  cases h1 : encodeGates pis ⟨Solver.empty, [], []⟩ spec.instances with
  | none =>
    rw [h1] at h
    cases h
  | some st1 =>
    rw [h1] at h
    simp only at h
    cases h2 : encodeGates pis ⟨st1.solver, [], st1.globalInputMap⟩ imp.instances with
    | none =>
      rw [h2] at h
      cases h
    | some st2 =>
      rw [h2] at h
      simp only [Option.some.injEq, Prod.mk.injEq] at h
      obtain ⟨e1, e2, e3, e4⟩ := h
      have I1 : Sep pis 0 [] st1 := encodeGates_sep pis 0 [] spec.instances _ st1
        (Sep_start pis Solver.empty [] (fun n v hn => by cases hn)
          (fun n1 n2 v hn => by cases hn) (fun n v hn => by cases hn)) h1
      have I2 := encodeGates_sep pis st1.solver.nVars st1.globalInputMap imp.instances _ st2
        (Sep_start pis st1.solver st1.globalInputMap I1.gvar_lt I1.ginj I1.gkeys) h2
      subst e1 e2 e3 e4
      exact ⟨st1, rfl, I1, I2⟩

/-- C21: variable separation between the two netlists. After both encoding passes and
the miter loop (whose result with the final clause is what `addMiter` returns), a
variable that `varMapSpec` and `varMapImp` both hold belongs to one and the same
name, a primary input that `globalInputMap` records with that variable; a name that
is not a primary input has different variables in the two maps; each map is
injective; and no difference variable is a variable of either map (the difference
variables are also pairwise distinct). -/
theorem variable_separation (spec imp : Cell) (pis outsS outsI : List String)
    (solver inst : Solver) (mS mI G : VarMap) (diffVars : List Var)
    (h : encodeBoth spec imp pis = some (solver, mS, mI, G))
    (hm : miterLoop mS mI outsS outsI solver [] = some (inst, diffVars)) :
    addMiter solver outsS outsI mS mI = some (inst.addClause (diffVars.map mkLit)) ∧
    (∀ n n2 v, mapFind mS n = some v → mapFind mI n2 = some v →
      n = n2 ∧ n ∈ pis ∧ mapFind G n = some v) ∧
    (∀ n v w, n ∉ pis → mapFind mS n = some v → mapFind mI n = some w → v ≠ w) ∧
    (∀ n1 n2 v, mapFind mS n1 = some v → mapFind mS n2 = some v → n1 = n2) ∧
    (∀ n1 n2 v, mapFind mI n1 = some v → mapFind mI n2 = some v → n1 = n2) ∧
    (∀ d, d ∈ diffVars → ∀ n, mapFind mS n ≠ some d ∧ mapFind mI n ≠ some d) ∧
    diffVars.Nodup := by
  obtain ⟨st1, e, I1, I2⟩ := encodeBoth_sep spec imp pis solver mS mI G h
  subst e
  have cross : ∀ n n2 v, mapFind st1.varMap n = some v → mapFind mI n2 = some v →
      n = n2 ∧ n ∈ pis ∧ mapFind G n = some v := by
    intro n n2 v h1 h2
    have hg := I2.old_var n2 v h2 (I1.var_lt n v h1)
    have e := I1.g_sep n2 n v hg h1
    subst e
    exact ⟨rfl, I1.gkeys n v hg, I2.g_mono n v hg⟩
  have hd : diffVars = List.range' solver.nVars diffVars.length ∧
      ∀ d, d ∈ diffVars → solver.nVars ≤ d := by
    rw [miterLoop_eq] at hm
    cases ha : alignedPairs st1.varMap mI outsS outsI with
    | none =>
      rw [ha] at hm
      cases hm
    | some ps =>
      rw [ha] at hm
      simp only [Option.map_some', Option.some.injEq, Prod.mk.injEq, List.nil_append] at hm
      rw [← hm.2]
      refine ⟨by rw [List.length_range'], ?_⟩
      intro d hd
      exact (List.mem_range'_1.1 hd).1
  refine ⟨?_, cross, ?_, I1.inj, I2.inj, ?_, ?_⟩
  · simp only [addMiter, hm]
  · intro n v w hn h1 h2 hvw
    rw [← hvw] at h2
    exact hn (cross n n v h1 h2).2.1
  · intro d hdm n
    have hge := hd.2 d hdm
    constructor
    · intro hc
      exact absurd (Nat.lt_of_lt_of_le (I1.var_lt n d hc) I2.n0_le) (Nat.not_lt.2 hge)
    · intro hc
      exact absurd (I2.var_lt n d hc) (Nat.not_lt.2 hge)
  · rw [hd.1]
    exact List.nodup_range' _ _

theorem variable_separation_witness :
    encodeBoth andCell orCell ["A", "B"] =
      some (⟨4, [[mkLit 0, (mkLit 2).neg], [mkLit 1, (mkLit 2).neg],
          [mkLit 2, (mkLit 0).neg, (mkLit 1).neg], [(mkLit 0).neg, mkLit 3],
          [(mkLit 1).neg, mkLit 3], [(mkLit 3).neg, mkLit 0, mkLit 1]]⟩,
        [("A", 0), ("B", 1), ("Z", 2)], [("A", 0), ("B", 1), ("Z", 3)],
        [("A", 0), ("B", 1)]) ∧
    ("A" = "A" ∧ "A" ∈ ["A", "B"] ∧ mapFind [("A", 0), ("B", 1)] "A" = some 0) ∧
    (2 : Var) ≠ 3 ∧
    (mapFind [("A", 0), ("B", 1), ("Z", 2)] "Z" ≠ some 4 ∧
      mapFind [("A", 0), ("B", 1), ("Z", 3)] "Z" ≠ some 4) :=
  have h := variable_separation andCell orCell ["A", "B"] ["Z"] ["Z"]
    ⟨4, [[mkLit 0, (mkLit 2).neg], [mkLit 1, (mkLit 2).neg],
      [mkLit 2, (mkLit 0).neg, (mkLit 1).neg], [(mkLit 0).neg, mkLit 3],
      [(mkLit 1).neg, mkLit 3], [(mkLit 3).neg, mkLit 0, mkLit 1]]⟩
    ⟨5, [[mkLit 0, (mkLit 2).neg], [mkLit 1, (mkLit 2).neg],
      [mkLit 2, (mkLit 0).neg, (mkLit 1).neg], [(mkLit 0).neg, mkLit 3],
      [(mkLit 1).neg, mkLit 3], [(mkLit 3).neg, mkLit 0, mkLit 1]] ++ xorClauses 2 3 4⟩
    [("A", 0), ("B", 1), ("Z", 2)] [("A", 0), ("B", 1), ("Z", 3)] [("A", 0), ("B", 1)] [4]
    rfl rfl
  ⟨rfl, h.2.1 "A" "A" 0 rfl rfl, h.2.2.1 "Z" 2 3 (by decide) rfl rfl,
    h.2.2.2.2.2.1 4 (List.mem_singleton.2 rfl) "Z"⟩

/-! ## Primary outputs without a variable -/

/-- C22 fails on a primary output that no encoded instance touches: for the netlist
with input A, outputs Y and Z and one buffer from A to Y, checked against itself,
the interface check passes (the sorted port lists are equal), but neither map has
an entry for Z after both passes, so the lookup `varMapSpec.at(outputsSpec[1])` of
line 187 throws: the miter is not built, `checkEquivalence` returns nothing and
`main` aborts. -/
theorem undriven_output_lookup_fails :
    sortNames floatingOutputCell.inputs = ["A"] ∧
    sortNames floatingOutputCell.outputs = ["Y", "Z"] ∧
    mainFlow floatingOutputCell floatingOutputCell = MainOutcome.aborted ∧
    ∃ solver mS mI G,
      encodeBoth floatingOutputCell floatingOutputCell ["A"] = some (solver, mS, mI, G) ∧
      mapFind mS "Z" = none ∧ mapFind mI "Z" = none ∧
      addMiter solver ["Y", "Z"] ["Y", "Z"] mS mI = none ∧
      checkEquivalence solver ["A"] ["Y", "Z"] ["Y", "Z"] mS mI = none := by
  refine ⟨by decide, by decide, by decide, _, _, _, _, rfl, by decide, by decide, by decide,
    by decide⟩

/-! ## Identical netlists whose outputs are settled -/

theorem declareInput_fixed (pis : List String) (st : EncState) (i x : String) (v : Var)
    (h : Fixed pis st x v) : Fixed pis (declareInput pis st i) x v := by
  by_cases hx : x ∈ pis
  · have hp := declareInput_pair pis st i x v (h.2 hx) h.1
    exact ⟨hp.2, fun _ => hp.1⟩
  · refine ⟨?_, fun hc => absurd hc hx⟩
    unfold declareInput
    by_cases hi : i ∈ pis
    · have hne : i ≠ x := fun e => hx (e ▸ hi)
      simp only [hi, if_true]
      rw [mapFind_mapSet_ne _ _ _ _ hne]
      cases hg : mapFind st.globalInputMap i with
      | some gv => exact h.1
      | none => exact getOrCreateVar_preserve i st.solver st.varMap x v h.1
    · simp only [hi, if_false]
      exact getOrCreateVar_preserve i st.solver st.varMap x v h.1

theorem declareOutput_fixed (pis : List String) (st : EncState) (o x : String) (v : Var)
    (h : Fixed pis st x v) : Fixed pis (declareOutput st o) x v :=
  ⟨getOrCreateVar_preserve o st.solver st.varMap x v h.1, h.2⟩

theorem foldl_declareInput_fixed (pis : List String) (ins : List String) (st : EncState)
    (x : String) (v : Var) (h : Fixed pis st x v) :
    Fixed pis (ins.foldl (declareInput pis) st) x v := by
  induction ins generalizing st with
  | nil => exact h
  | cons a ins ih => exact ih _ (declareInput_fixed pis st a x v h)

theorem foldl_declareOutput_fixed (pis : List String) (outs : List String) (st : EncState)
    (x : String) (v : Var) (h : Fixed pis st x v) :
    Fixed pis (outs.foldl declareOutput st) x v := by
  induction outs generalizing st with
  | nil => exact h
  | cons a outs ih => exact ih _ (declareOutput_fixed pis st a x v h)

theorem declarePorts_fixed (pis : List String) (st : EncState) (g : Gate) (x : String)
    (v : Var) (h : Fixed pis st x v) : Fixed pis (declarePorts pis st g) x v :=
  foldl_declareOutput_fixed pis g.outputs _ x v (foldl_declareInput_fixed pis g.inputs st x v h)

theorem processGate_fixed (pis : List String) (st st2 : EncState) (g : Gate) (x : String)
    (v : Var) (hp : processGate pis st g = some st2) (h : Fixed pis st x v) :
    Fixed pis st2 x v := by
  rcases processGate_result pis st st2 g hp with e | ⟨_, _, cls, e⟩
  · rw [e]
    exact h
  · rw [e]
    exact declarePorts_fixed pis st g x v h

theorem encodeGates_fixed (pis : List String) (gs : List Gate) (st st2 : EncState)
    (x : String) (v : Var) (hp : encodeGates pis st gs = some st2) (h : Fixed pis st x v) :
    Fixed pis st2 x v := by
  induction gs generalizing st with
  | nil =>
    simp only [encodeGates, Option.some.injEq] at hp
    rw [← hp]
    exact h
  | cons g gs ih =>
    simp only [encodeGates] at hp
    cases hg : processGate pis st g with
    | none =>
      rw [hg] at hp
      cases hp
    | some st1 =>
      rw [hg] at hp
      exact ih st1 hp (processGate_fixed pis st st1 g x v hg h)

theorem declareInput_declares (pis : List String) (st : EncState) (i : String) :
    ∃ v, Fixed pis (declareInput pis st i) i v := by
  by_cases hi : i ∈ pis
  · obtain ⟨v, h1, h2⟩ := declareInput_shares pis st i hi
    exact ⟨v, h2, fun _ => h1⟩
  · refine ⟨(getOrCreateVar i st.solver st.varMap).1, ?_, fun hc => absurd hc hi⟩
    unfold declareInput
    simp only [hi, if_false]
    exact getOrCreateVar_find i st.solver st.varMap

theorem declareOutput_declares (pis : List String) (st : EncState) (o : String)
    (ho : o ∉ pis) : ∃ v, Fixed pis (declareOutput st o) o v :=
  ⟨_, getOrCreateVar_find o st.solver st.varMap, fun hc => absurd hc ho⟩

theorem foldl_declareInput_declares (pis : List String) (ins : List String) (st : EncState)
    (x : String) (hx : x ∈ ins) : ∃ v, Fixed pis (ins.foldl (declareInput pis) st) x v := by
  induction ins generalizing st with
  | nil => cases hx
  | cons a ins ih =>
    by_cases hin : x ∈ ins
    · exact ih _ hin
    · have e : x = a := by
        rcases List.mem_cons.1 hx with e | e
        · exact e
        · exact absurd e hin
      subst e
      obtain ⟨v, hv⟩ := declareInput_declares pis st x
      exact ⟨v, foldl_declareInput_fixed pis ins _ x v hv⟩

theorem foldl_declareOutput_declares (pis : List String) (outs : List String)
    (st : EncState) (x : String) (hx : x ∈ outs) (hp : x ∉ pis) :
    ∃ v, Fixed pis (outs.foldl declareOutput st) x v := by
  induction outs generalizing st with
  | nil => cases hx
  | cons a outs ih =>
    by_cases hin : x ∈ outs
    · exact ih _ hin
    · have e : x = a := by
        rcases List.mem_cons.1 hx with e | e
        · exact e
        · exact absurd e hin
      subst e
      obtain ⟨v, hv⟩ := declareOutput_declares pis st x hp
      exact ⟨v, foldl_declareOutput_fixed pis outs _ x v hv⟩

theorem declarePorts_declares (pis : List String) (st : EncState) (g : Gate) :
    (∀ x, x ∈ g.inputs → ∃ v, Fixed pis (declarePorts pis st g) x v) ∧
    (∀ x, x ∈ g.outputs → x ∉ pis → ∃ v, Fixed pis (declarePorts pis st g) x v) := by
  unfold declarePorts
  constructor
  · intro x hx
    obtain ⟨v, hv⟩ := foldl_declareInput_declares pis g.inputs st x hx
    exact ⟨v, foldl_declareOutput_fixed pis g.outputs _ x v hv⟩
  · intro x hx hp
    exact foldl_declareOutput_declares pis g.outputs _ x hx hp

theorem processGate_clauses_mono (pis : List String) (st st2 : EncState) (g : Gate)
    (hp : processGate pis st g = some st2) : ∀ c, c ∈ st.solver.clauses → c ∈ st2.solver.clauses := by
  intro c hc
  rcases processGate_result pis st st2 g hp with e | ⟨_, _, cls, e⟩
  · rw [e]
    exact hc
  · obtain ⟨units, hu, _⟩ := declarePorts_unitsExt pis st g
    rw [e]
    simp only [addClauses_clauses, hu, List.mem_append]
    exact Or.inl (Or.inl hc)

theorem encodeGates_clauses_mono (pis : List String) (gs : List Gate) (st st2 : EncState)
    (hp : encodeGates pis st gs = some st2) :
    ∀ c, c ∈ st.solver.clauses → c ∈ st2.solver.clauses := by
  induction gs generalizing st with
  | nil =>
    simp only [encodeGates, Option.some.injEq] at hp
    rw [← hp]
    exact fun c hc => hc
  | cons g gs ih =>
    simp only [encodeGates] at hp
    cases hg : processGate pis st g with
    | none =>
      rw [hg] at hp
      cases hp
    | some st1 =>
      rw [hg] at hp
      exact fun c hc => ih st1 hp c (processGate_clauses_mono pis st st1 g hg c hc)

theorem gateClausesOf_congr (m m2 : VarMap) (g : Gate)
    (hi : ∀ x, x ∈ g.inputs → mapGet m2 x = mapGet m x)
    (ho : mapGet m2 (g.outputs.headD "") = mapGet m (g.outputs.headD "")) :
    gateClausesOf m2 g = gateClausesOf m g := by
  unfold gateClausesOf
  rw [List.map_congr_left (fun x hx => hi x hx), ho]

/-- Right after an instance is encoded its ports have final entries and the clauses
of its dispatch, over the map as it is then, are in the solver. -/
theorem processGate_gate (pis : List String) (st st2 : EncState) (g : Gate) (ha : Active g)
    (hp : processGate pis st g = some st2) :
    (∀ x, x ∈ g.inputs → ∃ v, Fixed pis st2 x v) ∧
    (∀ x, x ∈ g.outputs → x ∉ pis → ∃ v, Fixed pis st2 x v) ∧
    (∀ c, c ∈ gateClausesOf st2.varMap g → c ∈ st2.solver.clauses) := by
  obtain ⟨i, is, hi⟩ : ∃ i is, g.inputs = i :: is := by
    cases h : g.inputs with
    | nil => exact absurd h ha.1
    | cons i is => exact ⟨i, is, rfl⟩
  obtain ⟨o, os, ho⟩ : ∃ o os, g.outputs = o :: os := by
    cases h : g.outputs with
    | nil => exact absurd h ha.2
    | cons o os => exact ⟨o, os, rfl⟩
  rw [processGate_cons pis st g i is o os hi ho] at hp
  cases he : encodeGate g.gateType (g.inputs.map (mapGet (declarePorts pis st g).varMap))
      (mapGet (declarePorts pis st g).varMap o) with
  | none =>
    rw [he] at hp
    cases hp
  | some cls =>
    rw [he] at hp
    have e := (Option.some.inj hp).symm
    have hd := declarePorts_declares pis st g
    rw [e]
    refine ⟨hd.1, hd.2, ?_⟩
    intro c hc
    have hcl : gateClausesOf (declarePorts pis st g).varMap g = cls :=
      gateClausesOf_eq _ g o os cls ho he
    simp only [addClauses_clauses, List.mem_append]
    right
    rw [← hcl]
    exact hc

/-- At the end of a pass every encoded instance has final entries for its inputs and
for its outputs that are not primary inputs; if its first output is not a primary
input, the clauses of its dispatch over the final map are in the solver. -/
theorem encodeGates_gate (pis : List String) (gs : List Gate) (st st2 : EncState) (g : Gate)
    (hg : g ∈ gs) (ha : Active g) (hp : encodeGates pis st gs = some st2) :
    (∀ x, x ∈ g.inputs → ∃ v, Fixed pis st2 x v) ∧
    (∀ x, x ∈ g.outputs → x ∉ pis → ∃ v, Fixed pis st2 x v) ∧
    (g.outputs.headD "" ∉ pis →
      ∀ c, c ∈ gateClausesOf st2.varMap g → c ∈ st2.solver.clauses) := by
  induction gs generalizing st with
  | nil => cases hg
  | cons g1 gs ih =>
    simp only [encodeGates] at hp
    cases hg1 : processGate pis st g1 with
    | none =>
      rw [hg1] at hp
      cases hp
    | some st1 =>
      rw [hg1] at hp
      by_cases hin : g ∈ gs
      · exact ih st1 hin hp
      · have e : g = g1 := by
          rcases List.mem_cons.1 hg with e | e
          · exact e
          · exact absurd e hin
        subst e
        obtain ⟨h1, h2, h3⟩ := processGate_gate pis st st1 g ha hg1
        have k1 : ∀ x, x ∈ g.inputs → ∃ v, Fixed pis st1 x v ∧ Fixed pis st2 x v := by
          intro x hx
          obtain ⟨v, hv⟩ := h1 x hx
          exact ⟨v, hv, encodeGates_fixed pis gs st1 st2 x v hp hv⟩
        have k2 : ∀ x, x ∈ g.outputs → x ∉ pis →
            ∃ v, Fixed pis st1 x v ∧ Fixed pis st2 x v := by
          intro x hx hxp
          obtain ⟨v, hv⟩ := h2 x hx hxp
          exact ⟨v, hv, encodeGates_fixed pis gs st1 st2 x v hp hv⟩
        refine ⟨fun x hx => ?_, fun x hx hxp => ?_, ?_⟩
        · obtain ⟨v, _, hv⟩ := k1 x hx
          exact ⟨v, hv⟩
        · obtain ⟨v, _, hv⟩ := k2 x hx hxp
          exact ⟨v, hv⟩
        · intro hop c hc
          have hmem : g.outputs.headD "" ∈ g.outputs := by
            cases ho : g.outputs with
            | nil => exact absurd ho ha.2
            | cons o os => simp
          have e : gateClausesOf st2.varMap g = gateClausesOf st1.varMap g := by
            apply gateClausesOf_congr
            · intro x hx
              obtain ⟨v, a, b⟩ := k1 x hx
              rw [mapGet_of_find _ _ _ a.1, mapGet_of_find _ _ _ b.1]
            · obtain ⟨v, a, b⟩ := k2 _ hmem hop
              rw [mapGet_of_find _ _ _ a.1, mapGet_of_find _ _ _ b.1]
          rw [e] at hc
          exact encodeGates_clauses_mono pis gs st1 st2 hp c (h3 c hc)

/-- The clauses of the dispatch of a combinational type force the first output to the
value of the type's truth table on the inputs. -/
theorem gate_sem (σ : Var → Bool) (m : VarMap) (g : Gate) (hd : Dispatchable g)
    (ha : Active g) (ht : CombinationalType g.gateType)
    (h : ∀ c, c ∈ gateClausesOf m g → clauseTrue σ c = true) :
    σ (mapGet m (g.outputs.headD "")) =
      gateValue g.gateType (g.inputs.map (fun i => σ (mapGet m i))) := by
  have hc := (cnfTrue_iff_mem σ _).2 h
  obtain ⟨i, is, hi⟩ : ∃ i is, g.inputs = i :: is := by
    cases h : g.inputs with
    | nil => exact absurd h ha.1
    | cons i is => exact ⟨i, is, rfl⟩
  unfold gateClausesOf encodeGate at hc
  unfold Dispatchable encodeGate at hd
  unfold gateValue
  cases hk : classify g.gateType with
  | buffer =>
    simp only [hk, hi, List.map_cons, Option.getD_some] at hc
    simp only [hi, List.map_cons, List.headD_cons]
    exact (buffer_clauses_iff σ _ _).1 hc
  | inverter =>
    simp only [hk, hi, List.map_cons, Option.getD_some] at hc
    simp only [hi, List.map_cons, List.headD_cons]
    exact (inverter_clauses_iff σ _ _).1 hc
  | norFamily =>
    simp only [hk, Option.getD_some] at hc
    simp only
    rw [(nor_clauses_iff σ _ _).1 hc, any_map_eval]
  | orFamily =>
    simp only [hk, Option.getD_some] at hc
    simp only
    rw [(or_clauses_iff σ _ _).1 hc, any_map_eval]
  | nandFamily =>
    simp only [hk, Option.getD_some] at hc
    simp only
    rw [(nand_clauses_iff σ _ _).1 hc, all_map_eval]
  | andFamily =>
    simp only [hk, Option.getD_some] at hc
    simp only
    rw [(and_clauses_iff σ _ _).1 hc, all_map_eval]
  | xor =>
    cases is with
    | nil => simp [hk, hi] at hd
    | cons i1 rest =>
      simp only [hk, hi, List.map_cons, Option.getD_some] at hc
      simp only [hi, List.map_cons, List.getD_cons_zero, List.getD_cons_succ]
      exact (xor_clauses_iff σ _ _ _).1 hc
  | dff => exact absurd hk ht.1
  | unsupported => exact absurd hk ht.2

theorem gateValue_congr (t : String) (ins : List String) (f1 f2 : String → Bool)
    (h : ∀ i, i ∈ readInputs t ins → f1 i = f2 i) :
    gateValue t (ins.map f1) = gateValue t (ins.map f2) := by
  unfold readInputs at h
  unfold gateValue
  cases hk : classify t with
  | buffer =>
    simp only [hk] at h
    cases ins with
    | nil => rfl
    | cons a l =>
      simp only [List.map_cons, List.headD_cons]
      exact h a (by simp)
  | inverter =>
    simp only [hk] at h
    cases ins with
    | nil => rfl
    | cons a l =>
      simp only [List.map_cons, List.headD_cons]
      rw [h a (by simp)]
  | norFamily =>
    simp only [hk] at h
    simp only
    rw [List.map_congr_left (fun i hi => h i hi)]
  | orFamily =>
    simp only [hk] at h
    simp only
    rw [List.map_congr_left (fun i hi => h i hi)]
  | nandFamily =>
    simp only [hk] at h
    simp only
    rw [List.map_congr_left (fun i hi => h i hi)]
  | andFamily =>
    simp only [hk] at h
    simp only
    rw [List.map_congr_left (fun i hi => h i hi)]
  | xor =>
    simp only [hk] at h
    cases ins with
    | nil => rfl
    | cons a l =>
      cases l with
      | nil =>
        simp only [List.map_cons, List.map_nil, List.getD_cons_zero, List.getD_cons_succ]
        rw [h a (by simp)]
      | cons b l2 =>
        simp only [List.map_cons, List.getD_cons_zero, List.getD_cons_succ]
        rw [h a (by simp), h b (by simp)]
  | dff => rfl
  | unsupported => rfl

theorem encodeBoth_passes (spec imp : Cell) (pis : List String) (solver : Solver)
    (mS mI G : VarMap) (h : encodeBoth spec imp pis = some (solver, mS, mI, G)) :
    ∃ st1 st2 : EncState,
      encodeGates pis ⟨Solver.empty, [], []⟩ spec.instances = some st1 ∧
      encodeGates pis ⟨st1.solver, [], st1.globalInputMap⟩ imp.instances = some st2 ∧
      st2.solver = solver ∧ st1.varMap = mS ∧ st2.varMap = mI ∧ st2.globalInputMap = G := by
  unfold encodeBoth generateCNF at h
  cases h1 : encodeGates pis ⟨Solver.empty, [], []⟩ spec.instances with
  | none =>
    rw [h1] at h
    cases h
  | some st1 =>
    rw [h1] at h
    simp only at h
    cases h2 : encodeGates pis ⟨st1.solver, [], st1.globalInputMap⟩ imp.instances with
    | none =>
      rw [h2] at h
      cases h
    | some st2 =>
      rw [h2] at h
      simp only [Option.some.injEq, Prod.mk.injEq] at h
      exact ⟨st1, st2, rfl, h2, h.1, h.2.1, h.2.2.1, h.2.2.2⟩

/-- A settled net has a variable in both maps of the netlist encoded against itself,
and the two variables have the same value in every model of the clauses. -/
theorem settled_agree (cell : Cell) (pis : List String) (solver : Solver)
    (mS mI G : VarMap) (hD : ∀ g, g ∈ cell.instances → Active g → Dispatchable g)
    (h : encodeBoth cell cell pis = some (solver, mS, mI, G)) (n : String)
    (hn : Settled pis cell.instances n) :
    ∃ v w, mapFind mS n = some v ∧ mapFind mI n = some w ∧
      ∀ σ : Var → Bool, cnfTrue σ solver.clauses = true → σ v = σ w := by
  obtain ⟨st1, st2, h1, h2, e1, e2, e3, e4⟩ := encodeBoth_passes cell cell pis solver mS mI G h
  have hF := encodeBoth_forced cell cell pis solver mS mI G h
  subst e1 e2 e3 e4
  have mono : ∀ c, c ∈ st1.solver.clauses → c ∈ st2.solver.clauses :=
    encodeGates_clauses_mono pis cell.instances ⟨st1.solver, [], st1.globalInputMap⟩ st2 h2
  induction hn with
  | input n g hn hg ha hin =>
    obtain ⟨v, hv⟩ := (encodeGates_gate pis _ _ st1 g hg ha h1).1 n hin
    obtain ⟨w, hw⟩ := (encodeGates_gate pis _ _ st2 g hg ha h2).1 n hin
    have hg2 := encodeGates_global pis cell.instances _ st2 n v h2 (hv.2 hn)
    have e : w = v := by
      have := hw.2 hn
      rw [hg2] at this
      exact (Option.some.inj this).symm
    subst e
    exact ⟨w, w, hv.1, hw.1, fun _ _ => rfl⟩
  | const n hn hc hp =>
    obtain ⟨g, hg, ha, hport⟩ := hp
    have key : ∀ st0 st3 : EncState, encodeGates pis st0 cell.instances = some st3 →
        ∃ v, mapFind st3.varMap n = some v := by
      intro st0 st3 h3
      obtain ⟨k1, k2, _⟩ := encodeGates_gate pis _ st0 st3 g hg ha h3
      rcases hport with hi | ho
      · obtain ⟨v, hv⟩ := k1 n hi
        exact ⟨v, hv.1⟩
      · obtain ⟨v, hv⟩ := k2 n ho hn
        exact ⟨v, hv.1⟩
    obtain ⟨v, hv⟩ := key _ st1 h1
    obtain ⟨w, hw⟩ := key _ st2 h2
    refine ⟨v, w, hv, hw, ?_⟩
    intro σ hσ
    have hmem := (cnfTrue_iff_mem σ _).1 hσ
    rcases hc with e | e
    · subst e
      have a := hmem _ (hF.1.1 v hv)
      have b := hmem _ (hF.2.1 w hw)
      simp only [clauseTrue_cons, litTrue_mkLit, clauseTrue_nil, Bool.or_false] at a b
      rw [a, b]
    · subst e
      have a := hmem _ (hF.1.2 v hv)
      have b := hmem _ (hF.2.2 w hw)
      simp only [clauseTrue_cons, litTrue_neg_mkLit, clauseTrue_nil, Bool.or_false,
        Bool.not_eq_true'] at a b
      rw [a, b]
  | gate n g hn hg ha ht ho hin ih =>
    have hhead : g.outputs.headD "" = n := by
      cases hout : g.outputs with
      | nil => rw [hout] at ho; cases ho
      | cons o os =>
        rw [hout] at ho
        simp only [List.head?_cons, Option.some.injEq] at ho
        simp only [List.headD_cons, ho]
    have hmemO : n ∈ g.outputs := by
      cases hout : g.outputs with
      | nil => rw [hout] at ho; cases ho
      | cons o os =>
        rw [hout] at ho
        simp only [List.head?_cons, Option.some.injEq] at ho
        rw [ho]
        exact List.mem_cons_self _ _
    obtain ⟨_, a2, a3⟩ := encodeGates_gate pis _ _ st1 g hg ha h1
    obtain ⟨_, b2, b3⟩ := encodeGates_gate pis _ _ st2 g hg ha h2
    obtain ⟨v, hv⟩ := a2 n hmemO hn
    obtain ⟨w, hw⟩ := b2 n hmemO hn
    refine ⟨v, w, hv.1, hw.1, ?_⟩
    intro σ hσ
    have hmem := (cnfTrue_iff_mem σ _).1 hσ
    have sS := gate_sem σ st1.varMap g (hD g hg ha) ha ht
      (fun c hc => hmem c (mono c (a3 (by rw [hhead]; exact hn) c hc)))
    have sI := gate_sem σ st2.varMap g (hD g hg ha) ha ht
      (fun c hc => hmem c (b3 (by rw [hhead]; exact hn) c hc))
    rw [hhead, mapGet_of_find _ _ _ hv.1] at sS
    rw [hhead, mapGet_of_find _ _ _ hw.1] at sI
    rw [sS, sI]
    apply gateValue_congr
    intro i hi
    obtain ⟨vi, wi, hvi, hwi, hval⟩ := ih i hi
    rw [mapGet_of_find _ _ _ hvi, mapGet_of_find _ _ _ hwi]
    exact hval σ hσ

/-- C7, amended: let every encoded instance have the inputs its dispatch reads (an
XOR at least two), and let every primary output be settled: reached from primary
inputs that an instance reads and from the constants through first outputs of
instances of combinational type, so not through a flip-flop, a floating net or a loop.
Then encoding the netlist as the specification and a gate-for-gate identical copy as
the implementation and adding the miter yields an unsatisfiable instance, and
`checkEquivalence` returns true. Nets may have several drivers, instances may have
more inputs than their type reads, and gates may drive primary inputs. -/
theorem identical_settled_equivalent (cell : Cell) (pis pos : List String)
    (hD : ∀ g, g ∈ cell.instances → Active g → Dispatchable g)
    (hO : ∀ o, o ∈ pos → Settled pis cell.instances o) :
    ∃ inst, combinedInstance cell cell pis pos pos = some inst ∧
      ¬ Satisfiable inst.clauses ∧
      runCheck cell cell pis pos pos = some (true, []) := by
  obtain ⟨⟨solver, mS, mI, G⟩, he⟩ := (encodeBoth_some_iff cell cell pis).2 ⟨hD, hD⟩
  have agree := settled_agree cell pis solver mS mI G hD he
  have hm : addMiter solver pos pos mS mI = some
      ⟨solver.nVars + (pos.map (fun o => (mapGet mS o, mapGet mI o))).length,
        solver.clauses ++ pairClauses solver.nVars (pos.map (fun o => (mapGet mS o, mapGet mI o)))
          ++ [(List.range' solver.nVars
            (pos.map (fun o => (mapGet mS o, mapGet mI o))).length).map mkLit]⟩ := by
    rw [addMiter_eq, alignedPairs_same mS mI pos (fun o ho => by
      obtain ⟨v, w, hv, hw, _⟩ := agree o (hO o ho)
      exact ⟨⟨v, hv⟩, ⟨w, hw⟩⟩)]
    rfl
  have hunsat : ¬ Satisfiable (solver.clauses ++
      pairClauses solver.nVars (pos.map (fun o => (mapGet mS o, mapGet mI o)))
      ++ [(List.range' solver.nVars
        (pos.map (fun o => (mapGet mS o, mapGet mI o))).length).map mkLit]) := by
    rintro ⟨σ, hσ⟩
    rw [List.append_assoc, cnfTrue_append, Bool.and_eq_true] at hσ
    obtain ⟨_, i, s, t, hi, hne⟩ := (miter_sem σ _ _).1 hσ.2
    obtain ⟨o, ho, _, es, et⟩ := pairs_getElem mS mI pos i s t hi
    obtain ⟨v, w, hv, hw, hval⟩ := agree o (hO o ho)
    rw [es, et, mapGet_of_find _ _ _ hv, mapGet_of_find _ _ _ hw] at hne
    exact hne (hval σ hσ.1)
  have hc : combinedInstance cell cell pis pos pos = some
      ⟨solver.nVars + (pos.map (fun o => (mapGet mS o, mapGet mI o))).length,
        solver.clauses ++ pairClauses solver.nVars (pos.map (fun o => (mapGet mS o, mapGet mI o)))
          ++ [(List.range' solver.nVars
            (pos.map (fun o => (mapGet mS o, mapGet mI o))).length).map mkLit]⟩ := by
    simp only [combinedInstance, he, hm]
  refine ⟨_, hc, hunsat, ?_⟩
  simp only [runCheck, he, checkEquivalence, hm]
  cases hs : Solver.searchModel _ with
  | none => rfl
  | some a => exact absurd ⟨_, searchModel_sound _ a hs⟩ hunsat

theorem identical_settled_equivalent_witness :
    (∀ g, g ∈ drivenInputCell.instances → Active g → Dispatchable g) ∧
    (∀ o, o ∈ ["Z"] → Settled ["A"] drivenInputCell.instances o) ∧
    ∃ inst, combinedInstance drivenInputCell drivenInputCell ["A"] ["Z"] ["Z"] = some inst ∧
      ¬ Satisfiable inst.clauses ∧
      runCheck drivenInputCell drivenInputCell ["A"] ["Z"] ["Z"] = some (true, []) :=
  have hD : ∀ g, g ∈ drivenInputCell.instances → Active g → Dispatchable g := by
    intro g hg _
    simp only [drivenInputCell, List.mem_cons, List.mem_singleton, List.not_mem_nil,
      or_false] at hg
    rcases hg with e | e <;> subst e <;> unfold Dispatchable <;> decide
  have hO : ∀ o, o ∈ ["Z"] → Settled ["A"] drivenInputCell.instances o := by
    intro o ho
    rw [List.mem_singleton.1 ho]
    refine Settled.gate "Z" ⟨"buffer", ["VSS"], ["Z"]⟩ (by decide) (by decide)
      ⟨by decide, by decide⟩ ⟨by decide, by decide⟩ rfl ?_
    intro i hi
    have e : i = "VSS" := by
      have hr : readInputs "buffer" ["VSS"] = ["VSS"] := by decide
      rw [show (⟨"buffer", ["VSS"], ["Z"]⟩ : Gate).gateType = "buffer" from rfl,
        show (⟨"buffer", ["VSS"], ["Z"]⟩ : Gate).inputs = ["VSS"] from rfl, hr] at hi
      exact List.mem_singleton.1 hi
    rw [e]
    exact Settled.const "VSS" (by decide) (Or.inr rfl)
      ⟨⟨"buffer", ["VSS"], ["Z"]⟩, by decide, ⟨by decide, by decide⟩, Or.inl (by decide)⟩
  ⟨hD, hO, identical_settled_equivalent drivenInputCell ["A"] ["Z"] hD hO⟩

end FEV
